import Mathlib

/-! NaivePortfolio (portfolio.cpp): a shallow embedding.

The ledger of the backtest environment, `NaivePortfolio`, is embedded as a
record of four `std::map`s and three operations on it.

Conventions of the embedding.

* `double` is the field of rationals `ℚ`: sums, products and quotients of
  ledger values are exact.  A quotient by zero (an infinity or a NaN in the
  source) is Lean's `x / 0 = 0`; statements that depend on the value of a
  quotient assume the divisor non-zero.  The one product whose rounding shows
  in a result, `100 * strength` under `floor`, is rounded as binary64 does
  (`round64`: to nearest, ties to even, 53 significant bits).
* `long` (timestamps) is `Int`; no arithmetic is done on timestamps.
* `int` is the range `[-2^31, 2^31)`.  A conversion from `double` whose
  truncation falls outside that range and `abs(INT_MIN)` are undefined in the
  source; the embedding follows the compiled program (x86-64, two's
  complement): the conversion yields `INT_MIN`, and `abs(INT_MIN)` is `INT_MIN`.
* The dereference of `rbegin()` of an empty map and the read of the
  uninitialised local `date` are undefined behaviour in the source: the
  embedded operation returns `none`.
* `std::map<K,V>` is an association list kept in ascending key order;
  `operator[]` inserts a value-initialised entry when the key is absent, also
  when it is only read.
* The bar provider `bars` and the event queue `events` are pointers to objects
  owned by other components: they are arguments of the operations.
-/

namespace Backtest

/-! ## std::map -/

/-- The strict order `std::less<K>` on the keys of a map. -/
class KeyOrder (K : Type) where
  less : K → K → Bool

/-- The order on `long`. -/
instance : KeyOrder Int := ⟨fun a b => decide (a < b)⟩

/-- The lexicographic order on character sequences. -/
def lexLess : List Char → List Char → Bool
  | [], [] => false
  | [], _ :: _ => true
  | _ :: _, [] => false
  | a :: as, b :: bs =>
    if a.toNat < b.toNat then true else if a = b then lexLess as bs else false

/-- The order on `std::string`: lexicographic. -/
instance : KeyOrder String := ⟨fun a b => lexLess a.data b.data⟩

/-- A `std::map<K,V>`: the entries in ascending key order. -/
abbrev CppMap (K V : Type) := List (K × V)

namespace CppMap

variable {K V : Type} [DecidableEq K] [KeyOrder K]

/-- The value stored under `k`, when there is one (`std::map::find`). -/
def find : CppMap K V → K → Option V
  | [], _ => none
  | (k', v') :: rest, k => if k = k' then some v' else find rest k

/-- The map after `m[k] = v`: the entry is replaced, or inserted in key order. -/
def insert : CppMap K V → K → V → CppMap K V
  | [], k, v => [(k, v)]
  | (k', v') :: rest, k, v =>
    if KeyOrder.less k k' then (k, v) :: (k', v') :: rest
    else if k = k' then (k, v) :: rest
    else (k', v') :: insert rest k v

/-- The value that the expression `m[k]` reads: the stored value, or the
value-initialised one when the key is absent. -/
def valAt [Inhabited V] (m : CppMap K V) (k : K) : V :=
  (find m k).getD default

/-- The map after the expression `m[k]` was evaluated: an absent key has been
inserted with the value-initialised value. -/
def touch [Inhabited V] (m : CppMap K V) (k : K) : CppMap K V :=
  match find m k with
  | some _ => m
  | none => insert m k default

/-- The keys of the map, in order. -/
def keys (m : CppMap K V) : List K := m.map Prod.fst

end CppMap

/-- The map after `m[k][j] = v` on a map of maps. -/
def setIn {K : Type} [DecidableEq K] [KeyOrder K]
    (m : CppMap K (CppMap String ℚ)) (k : K) (j : String) (v : ℚ) :
    CppMap K (CppMap String ℚ) :=
  CppMap.insert m k (CppMap.insert (CppMap.valAt m k) j v)

/-! ## Events and bars -/

/-- Modelled from the spec: the bar record of `BarDataProvider.get_latest_bars`,
"(timestamp, open, high, low, close)"; the data handler is not part of
portfolio.cpp. -/
structure Bar where
  timestamp : Int
  open_ : ℚ
  high : ℚ
  low : ℚ
  close : ℚ
deriving DecidableEq

/-- Modelled from the spec: `bars->get_latest_bars(symbol, 1)`, the most recent
bar of a symbol, `none` when the provider has no bar for it. -/
abbrev BarProvider := String → Option Bar

/-- Modelled from the spec: `FillEvent{symbol, direction, quantity, commission}`
(events.hpp is not part of the sources); the quantity is an integer. -/
structure FillEvent where
  symbol : String
  direction : String
  quantity : Int
  commission : ℚ
deriving DecidableEq

/-- Modelled from the spec: `SignalEvent{symbol, signal_type, strength}`. -/
structure SignalEvent where
  symbol : String
  signal_type : String
  strength : ℚ
deriving DecidableEq

/-- Modelled from the spec: `OrderEvent{symbol, order_type, quantity, direction}`,
in the argument order of the calls in `generate_naive_order`. -/
structure OrderEvent where
  symbol : String
  order_type : String
  quantity : Int
  direction : String
deriving DecidableEq

/-- Modelled from the spec: the elements of the shared event queue. -/
inductive Event where
  | market : Event
  | signal : SignalEvent → Event
  | order : OrderEvent → Event
  | fill : FillEvent → Event
deriving DecidableEq

/-! ## The ledger -/

/-- The data members of `NaivePortfolio` that the portfolio owns. -/
structure NaivePortfolio where
  symbol_list : List String
  start_date : Int
  initial_capital : ℚ
  all_positions : CppMap Int (CppMap String ℚ)
  current_positions : CppMap String ℚ
  all_holdings : CppMap Int (CppMap String ℚ)
  current_holdings : CppMap String ℚ
deriving DecidableEq

/-- The loop `temp[symbol_list[i]] = 0` run on an empty map. -/
def zero_symbols (symbol_list : List String) : CppMap String ℚ :=
  symbol_list.foldl (fun temp s => CppMap.insert temp s 0) []

/-- `NaivePortfolio::construct_all_positions`. -/
def construct_all_positions (symbol_list : List String) (start_date : Int) :
    CppMap Int (CppMap String ℚ) :=
  let temp := zero_symbols symbol_list
  CppMap.insert [] start_date temp

/-- `NaivePortfolio::construct_current_positions`. -/
def construct_current_positions (symbol_list : List String) : CppMap String ℚ :=
  zero_symbols symbol_list

/-- `NaivePortfolio::construct_all_holdings`. -/
def construct_all_holdings (symbol_list : List String) (start_date : Int)
    (initial_capital : ℚ) : CppMap Int (CppMap String ℚ) :=
  let temp := zero_symbols symbol_list
  let temp := CppMap.insert temp "heldcash" initial_capital
  let temp := CppMap.insert temp "commission" 0
  let temp := CppMap.insert temp "totalholdings" initial_capital
  let temp := CppMap.insert temp "returns" 0
  let temp := CppMap.insert temp "equitycurve" 0
  CppMap.insert [] start_date temp

/-- `NaivePortfolio::construct_current_holdings`. -/
def construct_current_holdings (symbol_list : List String) (initial_capital : ℚ) :
    CppMap String ℚ :=
  let temp := zero_symbols symbol_list
  let temp := CppMap.insert temp "heldcash" initial_capital
  let temp := CppMap.insert temp "commission" 0
  CppMap.insert temp "totalholdings" initial_capital

/-- The constructor `NaivePortfolio::NaivePortfolio`. -/
def NaivePortfolio.construct (i_symbol_list : List String) (i_start_date : Int)
    (i_initial_capital : ℚ) : NaivePortfolio :=
  { symbol_list := i_symbol_list
    start_date := i_start_date
    initial_capital := i_initial_capital
    all_positions := construct_all_positions i_symbol_list i_start_date
    current_positions := construct_current_positions i_symbol_list
    all_holdings := construct_all_holdings i_symbol_list i_start_date i_initial_capital
    current_holdings := construct_current_holdings i_symbol_list i_initial_capital }

/-! ## Fills -/

/-- The local `fill_dir` of both fill functions. -/
def fill_dir (direction : String) : Int :=
  if direction = "BUY" then 1 else if direction = "SELL" then -1 else 0

/-- `NaivePortfolio::update_positions_from_fill`; the product
`fill_dir*fill.quantity` is taken exactly. -/
def update_positions_from_fill (p : NaivePortfolio) (fill : FillEvent) : NaivePortfolio :=
  { p with
    current_positions :=
      CppMap.insert p.current_positions fill.symbol
        (CppMap.valAt p.current_positions fill.symbol
          + ((fill_dir fill.direction * fill.quantity : Int) : ℚ)) }

/-- `NaivePortfolio::update_holdings_from_fill`; `none` when the provider has no
bar for the symbol (`rbegin()` of an empty map is dereferenced). -/
def update_holdings_from_fill (p : NaivePortfolio) (bars : BarProvider) (fill : FillEvent) :
    Option NaivePortfolio :=
  match bars fill.symbol with
  | none => none
  | some bar =>
    let fill_cost : ℚ := bar.close
    let cost : ℚ := (fill_dir fill.direction : ℚ) * fill_cost * (fill.quantity : ℚ)
    let h := p.current_holdings
    let h := CppMap.insert h fill.symbol (CppMap.valAt h fill.symbol + cost)
    let h := CppMap.insert h "commission" (CppMap.valAt h "commission" + fill.commission)
    let h := CppMap.insert h "heldcash" (CppMap.valAt h "heldcash" - (cost + fill.commission))
    let h := CppMap.insert h "totalholdings"
      (CppMap.valAt h "totalholdings" - (cost + fill.commission))
    some { p with current_holdings := h }

/-- `NaivePortfolio::update_fill`. -/
def update_fill (p : NaivePortfolio) (bars : BarProvider) (event : FillEvent) :
    Option NaivePortfolio :=
  update_holdings_from_fill (update_positions_from_fill p event) bars event

/-! ## Bar close -/

/-- The variables that the loop of `update_timeindex` changes. -/
structure TimeindexLoop where
  all_positions : CppMap Int (CppMap String ℚ)
  current_positions : CppMap String ℚ
  all_holdings : CppMap Int (CppMap String ℚ)
  date : Option Int
  sumvalues : ℚ
deriving DecidableEq

/-- The loop over `symbol_list` in `update_timeindex`, one symbol per step;
`date` is `none` while the local `date` is uninitialised.  `none` when the
provider has no bar for a symbol. -/
def timeindex_loop (bars : BarProvider) : List String → TimeindexLoop → Option TimeindexLoop
  | [], st => some st
  | s :: rest, st =>
    match bars s with
    | none => none
    | some lastbar =>
      let date := lastbar.timestamp
      let position := CppMap.valAt st.current_positions s
      let current_positions := CppMap.touch st.current_positions s
      let all_positions := setIn st.all_positions date s position
      let market_value := CppMap.valAt current_positions s * lastbar.close
      let all_holdings := setIn st.all_holdings date s market_value
      timeindex_loop bars rest
        { all_positions := all_positions
          current_positions := current_positions
          all_holdings := all_holdings
          date := some date
          sumvalues := st.sumvalues + market_value }

/-- The map after `all_holdings.rbegin()->second[k]` was evaluated: the key is
touched in the last snapshot. -/
def touchLast (m : CppMap Int (CppMap String ℚ)) (k : String) : CppMap Int (CppMap String ℚ) :=
  match m with
  | [] => []
  | [(d, snapshot)] => [(d, CppMap.touch snapshot k)]
  | e :: e1 :: rest => e :: touchLast (e1 :: rest) k

/-- `NaivePortfolio::update_timeindex`.  `none` when `all_holdings` is empty,
when a symbol has no bar, and when `symbol_list` is empty (the uninitialised
`date` is read). -/
def update_timeindex (p : NaivePortfolio) (bars : BarProvider) : Option NaivePortfolio :=
  match p.all_holdings.getLast? with
  | none => none
  | some (_, previous) =>
    let previoustotal := CppMap.valAt previous "totalholdings"
    let previouscurve := CppMap.valAt previous "equitycurve"
    let all_holdings := touchLast (touchLast p.all_holdings "totalholdings") "equitycurve"
    match timeindex_loop bars p.symbol_list
        { all_positions := p.all_positions
          current_positions := p.current_positions
          all_holdings := all_holdings
          date := none
          sumvalues := 0 } with
    | none => none
    | some st =>
      match st.date with
      | none => none
      | some date =>
        let heldcash := CppMap.valAt p.current_holdings "heldcash"
        let current_holdings := CppMap.touch p.current_holdings "heldcash"
        let all_holdings := setIn st.all_holdings date "totalholdings" (heldcash + st.sumvalues)
        let all_holdings := setIn all_holdings date "heldcash"
          (CppMap.valAt current_holdings "heldcash")
        let commission := CppMap.valAt current_holdings "commission"
        let current_holdings := CppMap.touch current_holdings "commission"
        let all_holdings := setIn all_holdings date "commission" commission
        let all_holdings :=
          if all_holdings.length > 1 then
            let returns :=
              CppMap.valAt (CppMap.valAt all_holdings date) "totalholdings" / previoustotal - 1
            let all_holdings := setIn all_holdings date "returns" returns
            setIn all_holdings date "equitycurve" ((previouscurve + 1) * (returns + 1) - 1)
          else all_holdings
        some { p with
          all_positions := st.all_positions
          current_positions := st.current_positions
          all_holdings := all_holdings
          current_holdings := current_holdings }

/-! ## Signals -/

/-- The nearest integer of a rational, the even one of the two when it lies
half way between them. -/
def roundEven (q : ℚ) : Int :=
  let f : Int := ⌊q⌋
  if q - f < 1 / 2 then f
  else if 1 / 2 < q - f then f + 1
  else if f % 2 = 0 then f else f + 1

/-- The number of halvings that bring `n` below 2, at most `bound` of them. -/
def log2_upto : Nat → Nat → Nat
  | 0, _ => 0
  | bound + 1, n => if n < 2 then 0 else log2_upto bound (n / 2) + 1

/-- The position of the leading bit of `n`: `2 ^ ilog2 n ≤ n < 2 ^ (ilog2 n + 1)`
for `n ≥ 1`. -/
def ilog2 (n : Nat) : Nat :=
  log2_upto n n

/-- The binary exponent of a non-zero rational: `2 ^ e ≤ |x| < 2 ^ (e + 1)`. -/
def binade (x : ℚ) : Int :=
  let e0 : Int := (ilog2 x.num.natAbs : Int) - (ilog2 x.den : Int)
  if (2 : ℚ) ^ e0 ≤ |x| then e0 else e0 - 1

/-- The binary64 value nearest to `x` (53 significant bits, ties to even).  The
exponent range of binary64 is not modelled (no infinity, no subnormal numbers):
an infinity converts to `int` as every value this large does, to `INT_MIN`, and
the floor of a product of 100 and a `double` is the same with subnormal numbers
as without. -/
def round64 (x : ℚ) : ℚ :=
  if x = 0 then 0
  else (roundEven (x / (2 : ℚ) ^ (binade x - 52)) : ℚ) * (2 : ℚ) ^ (binade x - 52)

/-- The product of two `double`s. -/
def mul64 (a b : ℚ) : ℚ :=
  round64 (a * b)

/-- The truncation of a `double` toward zero, when it is an `int` (`none` when
it falls outside the range of `int`). -/
def toInt32 (x : ℚ) : Option Int :=
  let t : Int := if 0 ≤ x then ⌊x⌋ else ⌈x⌉
  if -2147483648 ≤ t ∧ t ≤ 2147483647 then some t else none

/-- The function `abs` on `int` where its result is an `int` (`none` at
`INT_MIN`). -/
def abs_int (n : Int) : Option Int :=
  if n = -2147483648 then none else some |n|

/-- The conversion of a `double` to `int` as the compiled program performs it:
truncation toward zero, and `INT_MIN` when the truncated value is not an `int`. -/
def toInt32_compiled (x : ℚ) : Int :=
  (toInt32 x).getD (-2147483648)

/-- The function `abs` on `int` as the compiled program performs it:
`abs(INT_MIN)` is `INT_MIN`. -/
def abs_compiled (n : Int) : Int :=
  (abs_int n).getD (-2147483648)

/-- `NaivePortfolio::generate_naive_order`: the ledger and the event queue after
the call.  The call always returns; the result is wrapped in `some` so that it
composes with the other operations. -/
def generate_naive_order (p : NaivePortfolio) (events : List Event) (signal : SignalEvent) :
    Option (NaivePortfolio × List Event) :=
  let symbol := signal.symbol
  let direction := signal.signal_type
  let strength := signal.strength
  let mkt_quantity : Int := toInt32_compiled ((⌊mul64 100 strength⌋ : Int) : ℚ)
  let cur_quantity : Int := toInt32_compiled (CppMap.valAt p.current_positions symbol)
  let p1 := { p with current_positions := CppMap.touch p.current_positions symbol }
  let order_type := "MKT"
  if direction = "LONG" ∧ cur_quantity = 0 then
    some (p1, events ++ [Event.order ⟨symbol, order_type, mkt_quantity, "BUY"⟩])
  else if direction = "SHORT" ∧ cur_quantity = 0 then
    some (p1, events ++ [Event.order ⟨symbol, order_type, mkt_quantity, "SELL"⟩])
  else if direction = "EXIT" ∧ cur_quantity > 0 then
    some (p1, events ++ [Event.order ⟨symbol, order_type, abs_compiled cur_quantity, "SELL"⟩])
  else if direction = "EXIT" ∧ cur_quantity < 0 then
    some (p1, events ++ [Event.order ⟨symbol, order_type, abs_compiled cur_quantity, "BUY"⟩])
  else some (p1, events)

/-- `NaivePortfolio::update_signal`. -/
def update_signal (p : NaivePortfolio) (events : List Event) (event : SignalEvent) :
    Option (NaivePortfolio × List Event) :=
  generate_naive_order p events event

/-! ## Sequences of calls -/

/-- One call of a public operation, with the bars the provider holds then. -/
inductive Op where
  | fill : BarProvider → FillEvent → Op
  | timeindex : BarProvider → Op
  | signal : SignalEvent → Op

/-- The effect of one call on the ledger and the event queue. -/
def step (s : NaivePortfolio × List Event) : Op → Option (NaivePortfolio × List Event)
  | Op.fill bars f => (update_fill s.1 bars f).map (fun p => (p, s.2))
  | Op.timeindex bars => (update_timeindex s.1 bars).map (fun p => (p, s.2))
  | Op.signal sig => update_signal s.1 s.2 sig

/-- The effect of a sequence of calls, in order. -/
def run (s : NaivePortfolio × List Event) : List Op → Option (NaivePortfolio × List Event)
  | [] => some s
  | op :: ops =>
    match step s op with
    | none => none
    | some s1 => run s1 ops

/-! ## Definitions used in the statements and proofs -/

/-- The local `cost` of `update_holdings_from_fill`. -/
def fill_cost (bar : Bar) (fill : FillEvent) : ℚ :=
  (fill_dir fill.direction : ℚ) * bar.close * (fill.quantity : ℚ)

/-- The three keys of `current_holdings` that are not symbols. -/
def reserved_keys : List String := ["heldcash", "commission", "totalholdings"]

/-- A fresh ledger whose only symbol is named like the commission field. -/
def ledger_commission_symbol : NaivePortfolio :=
  NaivePortfolio.construct ["commission"] 0 100000

/-- A fresh ledger with the single symbol SPY and a capital of 100000. -/
def ledger_spy : NaivePortfolio :=
  NaivePortfolio.construct ["SPY"] 0 100000

/-- A provider whose most recent bar, for every symbol, is at time 1 with close 50. -/
def bars_close_50 : BarProvider :=
  fun _ => some { timestamp := 1, open_ := 50, high := 50, low := 50, close := 50 }

/-- The sum over the symbols of the universe of `current_holdings[symbol]`. -/
def holdings_sum (p : NaivePortfolio) : ℚ :=
  (p.symbol_list.map (fun s => CppMap.valAt p.current_holdings s)).sum

/-- The calls of `update_fill` for a sequence of fills, each with the bars of its time. -/
def fill_ops (fills : List (BarProvider × FillEvent)) : List Op :=
  fills.map (fun bf => Op.fill bf.1 bf.2)

/-- The ledger after `generate_naive_order`: the read of `current_positions[symbol]`
has inserted the symbol when it was absent. -/
def after_signal (p : NaivePortfolio) (signal : SignalEvent) : NaivePortfolio :=
  { p with current_positions := CppMap.touch p.current_positions signal.symbol }

/-- The order that `generate_naive_order` builds. -/
def mkt_order (symbol : String) (quantity : Int) (direction : String) : Event :=
  Event.order { symbol := symbol, order_type := "MKT", quantity := quantity,
                direction := direction }

/-- The ledger `ledger_spy` with the position of SPY set to `x`. -/
def ledger_with_position (x : ℚ) : NaivePortfolio :=
  { ledger_spy with current_positions := [("SPY", x)] }

/-- One step of the loop of `update_timeindex` for a symbol that has a bar (the
state is left as it is when it has none). -/
def loop_step (bars : BarProvider) (st : TimeindexLoop) (s : String) : TimeindexLoop :=
  match bars s with
  | none => st
  | some lastbar =>
    { all_positions :=
        setIn st.all_positions lastbar.timestamp s (CppMap.valAt st.current_positions s)
      current_positions := CppMap.touch st.current_positions s
      all_holdings :=
        setIn st.all_holdings lastbar.timestamp s
          (CppMap.valAt (CppMap.touch st.current_positions s) s * lastbar.close)
      date := some lastbar.timestamp
      sumvalues :=
        st.sumvalues + CppMap.valAt (CppMap.touch st.current_positions s) s * lastbar.close }

/-- The close of the most recent bar of a symbol (0 when it has no bar). -/
def close_of (bars : BarProvider) (s : String) : ℚ :=
  match bars s with
  | none => 0
  | some bar => bar.close

/-- Every symbol of the list has a most recent bar, and all those bars carry the
timestamp `d`. -/
def bars_at (bars : BarProvider) (l : List String) (d : Int) : Prop :=
  ∀ s ∈ l, ∃ bar, bars s = some bar ∧ bar.timestamp = d

/-- The part of `update_timeindex` after the loop: the summary fields of the
snapshot at `date`, and the ledger that the call leaves. -/
def timeindex_finish (p : NaivePortfolio) (previous : CppMap String ℚ) (st : TimeindexLoop)
    (date : Int) : NaivePortfolio :=
  let previoustotal := CppMap.valAt previous "totalholdings"
  let previouscurve := CppMap.valAt previous "equitycurve"
  let heldcash := CppMap.valAt p.current_holdings "heldcash"
  let current_holdings := CppMap.touch p.current_holdings "heldcash"
  let all_holdings := setIn st.all_holdings date "totalholdings" (heldcash + st.sumvalues)
  let all_holdings := setIn all_holdings date "heldcash"
    (CppMap.valAt current_holdings "heldcash")
  let commission := CppMap.valAt current_holdings "commission"
  let current_holdings := CppMap.touch current_holdings "commission"
  let all_holdings := setIn all_holdings date "commission" commission
  let all_holdings :=
    if all_holdings.length > 1 then
      let returns :=
        CppMap.valAt (CppMap.valAt all_holdings date) "totalholdings" / previoustotal - 1
      let all_holdings := setIn all_holdings date "returns" returns
      setIn all_holdings date "equitycurve" ((previouscurve + 1) * (returns + 1) - 1)
    else all_holdings
  { p with
    all_positions := st.all_positions
    current_positions := st.current_positions
    all_holdings := all_holdings
    current_holdings := current_holdings }

/-- The state in which the loop of `update_timeindex` starts. -/
def timeindex_start (p : NaivePortfolio) : TimeindexLoop :=
  { all_positions := p.all_positions
    current_positions := p.current_positions
    all_holdings := touchLast (touchLast p.all_holdings "totalholdings") "equitycurve"
    date := none
    sumvalues := 0 }

/-- The five keys of a holdings snapshot that are not symbols. -/
def summary_keys : List String :=
  ["totalholdings", "heldcash", "commission", "returns", "equitycurve"]

/-- A fresh ledger of capital 100000 on one symbol, with the position of that
symbol set to `x`. -/
def ledger_symbol_position (name : String) (x : ℚ) : NaivePortfolio :=
  { NaivePortfolio.construct [name] 0 100000 with current_positions := [(name, x)] }

/-- The snapshot that the constructor writes for the symbol SPY and capital 100000. -/
def snapshot_spy_start : CppMap String ℚ :=
  [("SPY", 0), ("commission", 0), ("equitycurve", 0), ("heldcash", 100000), ("returns", 0),
    ("totalholdings", 100000)]

/-- The holdings history has at least two snapshots, or a single one whose
returns and equitycurve are 0. -/
def flat_or_many (ah : CppMap Int (CppMap String ℚ)) : Prop :=
  2 ≤ ah.length ∨
    ∃ k snapshot, ah = [(k, snapshot)] ∧ CppMap.valAt snapshot "returns" = 0 ∧
      CppMap.valAt snapshot "equitycurve" = 0

/-- A provider whose most recent bar, for every symbol, is at time 0 with close 50. -/
def bars_at_start : BarProvider :=
  fun _ => some { timestamp := 0, open_ := 50, high := 50, low := 50, close := 50 }

/-- The history `ah` is `m0` followed by one snapshot at `d`. -/
def ends_at (m0 : CppMap Int (CppMap String ℚ)) (d : Int)
    (ah : CppMap Int (CppMap String ℚ)) : Prop :=
  ∃ x, ah = m0 ++ [(d, x)]

/-- The rows of the holdings history: timestamp, equitycurve and returns of each
snapshot, in the order of the map. -/
def curve_rows (ah : CppMap Int (CppMap String ℚ)) : List (Int × ℚ × ℚ) :=
  ah.map (fun e => (e.1, CppMap.valAt e.2 "equitycurve", CppMap.valAt e.2 "returns"))

/-- The timestamps ascend, the first equitycurve is 0, and every later row
compounds the equitycurve of the row before it with its own returns. -/
def curve_ok (rows : List (Int × ℚ × ℚ)) : Prop :=
  List.Pairwise (fun a b => a < b) (rows.map Prod.fst) ∧
    (∃ first rest, rows = first :: rest ∧ first.2.1 = 0) ∧
    List.Chain' (fun a b => b.2.1 = (a.2.1 + 1) * (1 + b.2.2) - 1) rows

/-- Every `update_timeindex` call of the sequence finds one timestamp shared by
the most recent bars of all the symbols, strictly later than `last` and than the
timestamp of the call before it. -/
def ascending_closes (symbols : List String) : Int → List Op → Prop
  | _, [] => True
  | last, Op.fill _ _ :: ops => ascending_closes symbols last ops
  | last, Op.signal _ :: ops => ascending_closes symbols last ops
  | last, Op.timeindex bars :: ops =>
    ∃ d, last < d ∧ bars_at bars symbols d ∧ ascending_closes symbols d ops

/-- A provider whose most recent bar, for every symbol, is at time -1 with close 50. -/
def bars_before_start : BarProvider :=
  fun _ => some { timestamp := -1, open_ := 50, high := 50, low := 50, close := 50 }

/-- A provider whose most recent bar, for every symbol, is at time 1 with close 60. -/
def bars_close_60_at_1 : BarProvider :=
  fun _ => some { timestamp := 1, open_ := 60, high := 60, low := 60, close := 60 }

/-- A provider whose most recent bar, for every symbol, is at time 2 with close 60. -/
def bars_close_60 : BarProvider :=
  fun _ => some { timestamp := 2, open_ := 60, high := 60, low := 60, close := 60 }

/-- A provider that has no bar for any symbol. -/
def bars_none : BarProvider :=
  fun _ => none

/-- A fresh ledger of capital 100000 on the two symbols SPY and "heldcash". -/
def ledger_spy_heldcash : NaivePortfolio :=
  NaivePortfolio.construct ["SPY", "heldcash"] 0 100000

/-- The sum of `current_holdings[symbol]` over a list of symbols. -/
def holdings_over (symbols : List String) (p : NaivePortfolio) : ℚ :=
  (symbols.map (fun s => CppMap.valAt p.current_holdings s)).sum

/-- Every fill of the sequence of calls is on a symbol distinct from the reserved
keys. -/
def fills_off_reserved (ops : List Op) : Prop :=
  ∀ op ∈ ops, ∀ bars f, op = Op.fill bars f → f.symbol ∉ reserved_keys

/-- The keys that the reads of `update_timeindex` and `generate_naive_order` find
in the live maps of a constructed portfolio: every symbol of the list in
current_positions, heldcash and commission in current_holdings. -/
def live_keys_present (p : NaivePortfolio) : Prop :=
  (∀ s ∈ p.symbol_list, CppMap.find p.current_positions s ≠ none) ∧
    CppMap.find p.current_holdings "heldcash" ≠ none ∧
    CppMap.find p.current_holdings "commission" ≠ none

/-- A provider whose most recent bar is at time 2 for the symbol A and at time 1
for every other symbol, with close 50. -/
def bars_skewed : BarProvider :=
  fun s =>
    if s = "A" then some { timestamp := 2, open_ := 50, high := 50, low := 50, close := 50 }
    else some { timestamp := 1, open_ := 50, high := 50, low := 50, close := 50 }

/-- A provider whose most recent bar, for every symbol, is at time 3 with close 50. -/
def bars_time_3 : BarProvider :=
  fun _ => some { timestamp := 3, open_ := 50, high := 50, low := 50, close := 50 }

/-- No most recent bar of a symbol of the list carries the timestamp `k`. -/
def no_bar_at (bars : BarProvider) (l : List String) (k : Int) : Prop :=
  ∀ s ∈ l, ∀ bar, bars s = some bar → bar.timestamp ≠ k

/-- Every key of current_positions reads as an integer. -/
def positions_integral (p : NaivePortfolio) : Prop :=
  ∀ j, ∃ n : Int, CppMap.valAt p.current_positions j = (n : ℚ)

/-! ## Lemmas on std::map -/

namespace CppMap

section Lookup

variable {K V : Type} [DecidableEq K] [KeyOrder K]

theorem find_insert_self (m : CppMap K V) (k : K) (v : V) :
    find (insert m k v) k = some v := by
  induction m with
  | nil => simp [insert, find]
  | cons e rest ih =>
    obtain ⟨k', v'⟩ := e
    unfold insert
    by_cases h1 : KeyOrder.less k k' = true
    · simp [h1, find]
    · by_cases h2 : k = k'
      · subst h2
        simp [h1, find]
      · simp [h1, h2, find, ih]

theorem find_insert_ne (m : CppMap K V) (k j : K) (v : V) (hne : j ≠ k) :
    find (insert m k v) j = find m j := by
  induction m with
  | nil => simp [insert, find, hne]
  | cons e rest ih =>
    obtain ⟨k', v'⟩ := e
    unfold insert
    by_cases h1 : KeyOrder.less k k' = true
    · simp [h1, find, hne]
    · by_cases h2 : k = k'
      · subst h2
        simp [h1, find, hne]
      · simp [h1, h2, find, ih]

theorem valAt_insert_self [Inhabited V] (m : CppMap K V) (k : K) (v : V) :
    valAt (insert m k v) k = v := by
  simp [valAt, find_insert_self]

theorem valAt_insert_ne [Inhabited V] (m : CppMap K V) (k j : K) (v : V) (hne : j ≠ k) :
    valAt (insert m k v) j = valAt m j := by
  simp [valAt, find_insert_ne m k j v hne]

theorem valAt_touch [Inhabited V] (m : CppMap K V) (k j : K) :
    valAt (touch m k) j = valAt m j := by
  unfold touch
  cases hk : find m k with
  | some v => rfl
  | none =>
    by_cases hj : j = k
    · subst hj
      simp [valAt, find_insert_self, hk]
    · exact valAt_insert_ne m k j default hj

theorem find_touch_ne [Inhabited V] (m : CppMap K V) (k j : K) (hne : j ≠ k) :
    find (touch m k) j = find m j := by
  unfold touch
  cases hk : find m k with
  | some v => rfl
  | none => exact find_insert_ne m k j default hne

end Lookup

theorem valAt_of_find {K V : Type} [DecidableEq K] [Inhabited V] (m : CppMap K V) (k : K)
    (v : V) (h : find m k = some v) : valAt m k = v := by
  simp [valAt, h]

end CppMap

/-! ## Fills: what `update_fill` writes -/

theorem update_fill_isSome (p : NaivePortfolio) (bars : BarProvider) (fill : FillEvent)
    (bar : Bar) (hbar : bars fill.symbol = some bar) :
    ∃ p1, update_fill p bars fill = some p1 := by
  simp [update_fill, update_holdings_from_fill, update_positions_from_fill, hbar]

theorem update_fill_bar (p p1 : NaivePortfolio) (bars : BarProvider) (fill : FillEvent)
    (h : update_fill p bars fill = some p1) : ∃ bar, bars fill.symbol = some bar := by
  cases hb : bars fill.symbol with
  | none => simp [update_fill, update_holdings_from_fill, hb] at h
  | some bar => exact ⟨bar, rfl⟩

theorem update_fill_frame (p p1 : NaivePortfolio) (bars : BarProvider) (fill : FillEvent)
    (h : update_fill p bars fill = some p1) :
    p1.symbol_list = p.symbol_list ∧ p1.start_date = p.start_date ∧
      p1.initial_capital = p.initial_capital ∧ p1.all_positions = p.all_positions ∧
      p1.all_holdings = p.all_holdings := by
  obtain ⟨bar, hbar⟩ := update_fill_bar p p1 bars fill h
  simp only [update_fill, update_holdings_from_fill, update_positions_from_fill, hbar,
    Option.some.injEq] at h
  subst h
  simp

theorem update_fill_position (p p1 : NaivePortfolio) (bars : BarProvider) (fill : FillEvent)
    (h : update_fill p bars fill = some p1) :
    CppMap.valAt p1.current_positions fill.symbol
      = CppMap.valAt p.current_positions fill.symbol
        + ((fill_dir fill.direction * fill.quantity : Int) : ℚ) := by
  obtain ⟨bar, hbar⟩ := update_fill_bar p p1 bars fill h
  simp only [update_fill, update_holdings_from_fill, update_positions_from_fill, hbar,
    Option.some.injEq] at h
  subst h
  simp [CppMap.valAt_insert_self]

theorem update_fill_holdings (p p1 : NaivePortfolio) (bars : BarProvider) (fill : FillEvent)
    (bar : Bar) (hbar : bars fill.symbol = some bar)
    (hsym : fill.symbol ∉ reserved_keys)
    (h : update_fill p bars fill = some p1) :
    CppMap.valAt p1.current_holdings fill.symbol
        = CppMap.valAt p.current_holdings fill.symbol + fill_cost bar fill ∧
      CppMap.valAt p1.current_holdings "commission"
        = CppMap.valAt p.current_holdings "commission" + fill.commission ∧
      CppMap.valAt p1.current_holdings "heldcash"
        = CppMap.valAt p.current_holdings "heldcash" - (fill_cost bar fill + fill.commission) ∧
      CppMap.valAt p1.current_holdings "totalholdings"
        = CppMap.valAt p.current_holdings "totalholdings"
          - (fill_cost bar fill + fill.commission) := by
  simp only [reserved_keys, List.mem_cons, List.mem_singleton, List.not_mem_nil, or_false,
    not_or] at hsym
  obtain ⟨hs1, hs2, hs3⟩ := hsym
  simp only [update_fill, update_holdings_from_fill, update_positions_from_fill, hbar,
    Option.some.injEq] at h
  subst h
  have e1 : ("commission" : String) ≠ "heldcash" := by decide
  have e2 : ("commission" : String) ≠ "totalholdings" := by decide
  have e3 : ("heldcash" : String) ≠ "totalholdings" := by decide
  simp [CppMap.valAt_insert_self, CppMap.valAt_insert_ne, hs1, hs2, hs3, e1, e2, e3,
    e1.symm, e2.symm, e3.symm, Ne.symm hs1, Ne.symm hs2, Ne.symm hs3, fill_cost]

/-! ## A fill: its effect on the live state -/

/-- C1, as stated, fails: a BUY of 10 at close 50 with commission 1 on a symbol
named "commission" raises the cumulative commission from 0 to 501, not by the
fill's commission 1 to 1. -/
theorem update_fill_commission_symbol_counterexample :
    (update_fill ledger_commission_symbol bars_close_50
        { symbol := "commission", direction := "BUY", quantity := 10, commission := 1 }).map
        (fun p1 => CppMap.valAt p1.current_holdings "commission") = some 501 ∧
      CppMap.valAt ledger_commission_symbol.current_holdings "commission" + 1 = 1 := by
  decide!

/-- C1 (amended): for every ledger state and every fill with direction BUY or
SELL on a symbol other than the reserved keys heldcash, commission and
totalholdings, where the provider's most recent bar for the symbol has close
`bar.close` and `sign` is +1 for BUY and -1 for SELL, `update_fill` returns a
ledger in which the position of the symbol has increased by `sign * q`, the
holdings of the symbol by `cost = sign * q * close`, the commission by `c`, and
heldcash and totalholdings have each decreased by `cost + c`. -/
theorem update_fill_effect (p : NaivePortfolio) (bars : BarProvider) (fill : FillEvent)
    (bar : Bar) (hdir : fill.direction = "BUY" ∨ fill.direction = "SELL")
    (hbar : bars fill.symbol = some bar) (hsym : fill.symbol ∉ reserved_keys) :
    ∃ p1, update_fill p bars fill = some p1 ∧
      CppMap.valAt p1.current_positions fill.symbol
        = CppMap.valAt p.current_positions fill.symbol
          + (if fill.direction = "BUY" then 1 else -1) * (fill.quantity : ℚ) ∧
      CppMap.valAt p1.current_holdings fill.symbol
        = CppMap.valAt p.current_holdings fill.symbol
          + (if fill.direction = "BUY" then 1 else -1) * (fill.quantity : ℚ) * bar.close ∧
      CppMap.valAt p1.current_holdings "commission"
        = CppMap.valAt p.current_holdings "commission" + fill.commission ∧
      CppMap.valAt p1.current_holdings "heldcash"
        = CppMap.valAt p.current_holdings "heldcash"
          - ((if fill.direction = "BUY" then 1 else -1) * (fill.quantity : ℚ) * bar.close
              + fill.commission) ∧
      CppMap.valAt p1.current_holdings "totalholdings"
        = CppMap.valAt p.current_holdings "totalholdings"
          - ((if fill.direction = "BUY" then 1 else -1) * (fill.quantity : ℚ) * bar.close
              + fill.commission) := by
  obtain ⟨p1, h⟩ := update_fill_isSome p bars fill bar hbar
  have hpos := update_fill_position p p1 bars fill h
  obtain ⟨h1, h2, h3, h4⟩ := update_fill_holdings p p1 bars fill bar hbar hsym h
  have hcost : fill_cost bar fill
      = (if fill.direction = "BUY" then 1 else -1) * (fill.quantity : ℚ) * bar.close := by
    rcases hdir with hd | hd
    · simp [fill_cost, fill_dir, hd]
      ring
    · simp [fill_cost, fill_dir, hd]
      ring
  have hsign : ((fill_dir fill.direction * fill.quantity : Int) : ℚ)
      = (if fill.direction = "BUY" then 1 else -1) * (fill.quantity : ℚ) := by
    rcases hdir with hd | hd
    · simp [fill_dir, hd]
    · simp [fill_dir, hd]
  refine ⟨p1, h, ?_, ?_, ?_, ?_, ?_⟩
  · rw [hpos, hsign]
  · rw [h1, hcost]
  · exact h2
  · rw [h3, hcost]
  · rw [h4, hcost]

/-- C1, the example of the specification: from a capital of 100000 and zero
positions, a BUY of 10 at last close 50 with commission 1 gives position 10,
heldcash 99499, commission 1 and totalholdings 99499. -/
theorem update_fill_effect_witness :
    ∃ p1, update_fill ledger_spy bars_close_50
        { symbol := "SPY", direction := "BUY", quantity := 10, commission := 1 } = some p1 ∧
      CppMap.valAt p1.current_positions "SPY" = 10 ∧
      CppMap.valAt p1.current_holdings "SPY" = 500 ∧
      CppMap.valAt p1.current_holdings "commission" = 1 ∧
      CppMap.valAt p1.current_holdings "heldcash" = 99499 ∧
      CppMap.valAt p1.current_holdings "totalholdings" = 99499 := by
  obtain ⟨p1, h, h1, h2, h3, h4, h5⟩ :=
    update_fill_effect ledger_spy bars_close_50
      { symbol := "SPY", direction := "BUY", quantity := 10, commission := 1 }
      { timestamp := 1, open_ := 50, high := 50, low := 50, close := 50 }
      (Or.inl rfl) rfl (by decide)
  have e1 : CppMap.valAt ledger_spy.current_positions "SPY" = 0 := by decide!
  have e2 : CppMap.valAt ledger_spy.current_holdings "SPY" = 0 := by decide!
  have e3 : CppMap.valAt ledger_spy.current_holdings "commission" = 0 := by decide!
  have e4 : CppMap.valAt ledger_spy.current_holdings "heldcash" = 100000 := by decide!
  have e5 : CppMap.valAt ledger_spy.current_holdings "totalholdings" = 100000 := by decide!
  refine ⟨p1, h, ?_, ?_, ?_, ?_, ?_⟩
  · rw [h1, e1]; norm_num
  · rw [h2, e2]; norm_num
  · rw [h3, e3]; norm_num
  · rw [h4, e4]; norm_num
  · rw [h5, e5]; norm_num

/-! ## Sequences of fills: the live totals -/

theorem construct_totalholdings_eq_heldcash (symbol_list : List String) (start_date : Int)
    (initial_capital : ℚ) :
    CppMap.valAt (NaivePortfolio.construct symbol_list start_date initial_capital).current_holdings
        "totalholdings"
      = CppMap.valAt
          (NaivePortfolio.construct symbol_list start_date initial_capital).current_holdings
          "heldcash" := by
  have e1 : ("heldcash" : String) ≠ "commission" := by decide
  have e2 : ("heldcash" : String) ≠ "totalholdings" := by decide
  simp [NaivePortfolio.construct, construct_current_holdings, CppMap.valAt_insert_self,
    CppMap.valAt_insert_ne, e1, e2]

theorem update_fill_keeps_total_eq_heldcash (p p1 : NaivePortfolio) (bars : BarProvider)
    (fill : FillEvent) (hsym : fill.symbol ∉ reserved_keys)
    (h : update_fill p bars fill = some p1)
    (hinv : CppMap.valAt p.current_holdings "totalholdings"
      = CppMap.valAt p.current_holdings "heldcash") :
    CppMap.valAt p1.current_holdings "totalholdings"
      = CppMap.valAt p1.current_holdings "heldcash" := by
  obtain ⟨bar, hbar⟩ := update_fill_bar p p1 bars fill h
  obtain ⟨_, _, h3, h4⟩ := update_fill_holdings p p1 bars fill bar hbar hsym h
  rw [h3, h4, hinv]

theorem run_fills_total_eq_heldcash (fills : List (BarProvider × FillEvent)) :
    ∀ (s : NaivePortfolio × List Event),
      (∀ bf ∈ fills, ∃ bar, bf.1 bf.2.symbol = some bar) →
      (∀ bf ∈ fills, bf.2.symbol ∉ reserved_keys) →
      CppMap.valAt s.1.current_holdings "totalholdings"
        = CppMap.valAt s.1.current_holdings "heldcash" →
      ∃ s1, run s (fill_ops fills) = some s1 ∧
        CppMap.valAt s1.1.current_holdings "totalholdings"
          = CppMap.valAt s1.1.current_holdings "heldcash" := by
  induction fills with
  | nil =>
    intro s _ _ hinv
    exact ⟨s, rfl, hinv⟩
  | cons bf rest ih =>
    intro s hbars hsym hinv
    obtain ⟨bar, hbar⟩ := hbars bf (List.mem_cons_self _ _)
    obtain ⟨p1, hp1⟩ := update_fill_isSome s.1 bf.1 bf.2 bar hbar
    have hinv1 := update_fill_keeps_total_eq_heldcash s.1 p1 bf.1 bf.2
      (hsym bf (List.mem_cons_self _ _)) hp1 hinv
    obtain ⟨s1, hrun, hres⟩ := ih (p1, s.2)
      (fun x hx => hbars x (List.mem_cons_of_mem _ hx))
      (fun x hx => hsym x (List.mem_cons_of_mem _ hx)) hinv1
    refine ⟨s1, ?_, hres⟩
    simp only [fill_ops, List.map_cons, run, step, hp1, Option.map_some']
    exact hrun

/-- C2, as stated, fails: after one BUY of 10 at close 50 with commission 1 on a
fresh ledger of capital 100000, totalholdings is 99499 while heldcash plus the
sum of the symbol holdings is 99499 + 500 = 99999. -/
theorem fills_reconciliation_counterexample :
    (run (ledger_spy, [])
        (fill_ops [(bars_close_50,
          { symbol := "SPY", direction := "BUY", quantity := 10, commission := 1 })])).map
        (fun s => (CppMap.valAt s.1.current_holdings "totalholdings",
          CppMap.valAt s.1.current_holdings "heldcash" + holdings_sum s.1))
      = some (99499, 99999) := by
  decide!

/-- C2 (amended): for every sequence of fills, on symbols other than the reserved
keys and with a most recent bar each, applied to a freshly constructed ledger,
every prefix of the sequence runs to a state with totalholdings == heldcash (a
fill subtracts cost + commission from both and adds the cost to the symbol's
holdings only, so the symbol holdings are not part of totalholdings). -/
theorem fills_totalholdings_eq_heldcash (symbol_list : List String) (start_date : Int)
    (initial_capital : ℚ) (events : List Event) (fills : List (BarProvider × FillEvent))
    (hbars : ∀ bf ∈ fills, ∃ bar, bf.1 bf.2.symbol = some bar)
    (hsym : ∀ bf ∈ fills, bf.2.symbol ∉ reserved_keys) (n : Nat) :
    ∃ s, run (NaivePortfolio.construct symbol_list start_date initial_capital, events)
        (fill_ops (fills.take n)) = some s ∧
      CppMap.valAt s.1.current_holdings "totalholdings"
        = CppMap.valAt s.1.current_holdings "heldcash" :=
  run_fills_total_eq_heldcash (fills.take n) _
    (fun bf hbf => hbars bf (List.mem_of_mem_take hbf))
    (fun bf hbf => hsym bf (List.mem_of_mem_take hbf))
    (construct_totalholdings_eq_heldcash symbol_list start_date initial_capital)

/-- C2 (amended), at a BUY of 10 followed by a SELL of 4 of SPY. -/
theorem fills_totalholdings_eq_heldcash_witness :
    ∃ s, run (NaivePortfolio.construct ["SPY"] 0 100000, [])
        (fill_ops (List.take 2
          [(bars_close_50,
              { symbol := "SPY", direction := "BUY", quantity := 10, commission := 1 }),
            (bars_close_50,
              { symbol := "SPY", direction := "SELL", quantity := 4, commission := 1 })]))
        = some s ∧
      CppMap.valAt s.1.current_holdings "totalholdings"
        = CppMap.valAt s.1.current_holdings "heldcash" :=
  fills_totalholdings_eq_heldcash ["SPY"] 0 100000 []
    [(bars_close_50, { symbol := "SPY", direction := "BUY", quantity := 10, commission := 1 }),
      (bars_close_50, { symbol := "SPY", direction := "SELL", quantity := 4, commission := 1 })]
    (by
      intro bf hbf
      simp only [List.mem_cons, List.mem_singleton, List.not_mem_nil, or_false] at hbf
      rcases hbf with rfl | rfl <;> exact ⟨_, rfl⟩)
    (by
      intro bf hbf
      simp only [List.mem_cons, List.mem_singleton, List.not_mem_nil, or_false] at hbf
      rcases hbf with rfl | rfl <;> decide)
    2

/-! ## Signals: the conversions to `int` -/

theorem toInt32_intCast (n : Int) (h1 : -2147483648 ≤ n) (h2 : n ≤ 2147483647) :
    toInt32 (n : ℚ) = some n := by
  unfold toInt32
  by_cases h : (0 : ℚ) ≤ (n : ℚ)
  · simp [h, Int.floor_intCast, h1, h2]
  · simp [h, Int.ceil_intCast, h1, h2]

theorem toInt32_zero : toInt32 0 = some 0 := by
  have h := toInt32_intCast 0 (by norm_num) (by norm_num)
  simpa using h

theorem toInt32_compiled_of_some (x : ℚ) (n : Int) (h : toInt32 x = some n) :
    toInt32_compiled x = n := by
  unfold toInt32_compiled
  rw [h]
  rfl

theorem toInt32_compiled_intCast (n : Int) (h1 : -2147483648 ≤ n) (h2 : n ≤ 2147483647) :
    toInt32_compiled (n : ℚ) = n :=
  toInt32_compiled_of_some _ _ (toInt32_intCast n h1 h2)

theorem toInt32_compiled_intCast_eq_zero (n : Int) :
    toInt32_compiled (n : ℚ) = 0 ↔ n = 0 := by
  by_cases hr : -2147483648 ≤ n ∧ n ≤ 2147483647
  · rw [toInt32_compiled_intCast n hr.1 hr.2]
  · have hnone : toInt32 (n : ℚ) = none := by
      unfold toInt32
      by_cases h : (0 : ℚ) ≤ (n : ℚ)
      · simp only [h, if_true, Int.floor_intCast]
        rw [if_neg hr]
      · simp only [h, if_false, Int.ceil_intCast]
        rw [if_neg hr]
    have hc : toInt32_compiled (n : ℚ) = -2147483648 := by
      unfold toInt32_compiled
      rw [hnone]
      rfl
    rw [hc]
    constructor
    · intro h
      norm_num at h
    · intro h
      subst h
      exact absurd ⟨by norm_num, by norm_num⟩ hr

theorem abs_compiled_of_ne (n : Int) (h : n ≠ -2147483648) : abs_compiled n = |n| := by
  unfold abs_compiled abs_int
  rw [if_neg h]
  rfl

theorem log2_upto_spec (bound : Nat) : ∀ n : Nat, n ≤ bound → 0 < n →
    2 ^ log2_upto bound n ≤ n ∧ n < 2 ^ (log2_upto bound n + 1) := by
  induction bound with
  | zero => intro n h hn; omega
  | succ b ih =>
    intro n h hn
    unfold log2_upto
    by_cases h2 : n < 2
    · rw [if_pos h2]
      have : n = 1 := by omega
      subst this
      norm_num
    · rw [if_neg h2]
      obtain ⟨i1, i2⟩ := ih (n / 2) (by omega) (by omega)
      rw [pow_succ, pow_succ]
      rw [pow_succ] at i2
      constructor <;> omega

theorem ilog2_spec (n : Nat) (hn : 0 < n) : 2 ^ ilog2 n ≤ n ∧ n < 2 ^ (ilog2 n + 1) :=
  log2_upto_spec n n le_rfl hn

theorem binade_le (x : ℚ) (hx : x ≠ 0) : (2 : ℚ) ^ binade x ≤ |x| := by
  unfold binade
  simp only
  split_ifs with h
  · exact h
  · have hnum : 0 < x.num.natAbs := Int.natAbs_pos.mpr (Rat.num_ne_zero.mpr hx)
    have hden : 0 < x.den := x.den_pos
    obtain ⟨a1, _⟩ := ilog2_spec x.num.natAbs hnum
    obtain ⟨_, b2⟩ := ilog2_spec x.den hden
    have habs : |x| = (x.num.natAbs : ℚ) / (x.den : ℚ) := by
      conv_lhs => rw [← Rat.num_div_den x]
      rw [abs_div, Nat.abs_cast, Nat.cast_natAbs, Int.cast_abs]
    rw [habs]
    have e : (2 : ℚ) ^ ((ilog2 x.num.natAbs : Int) - (ilog2 x.den : Int) - 1)
        = (2 : ℚ) ^ (ilog2 x.num.natAbs) / (2 : ℚ) ^ (ilog2 x.den + 1) := by
      rw [show ((ilog2 x.num.natAbs : Int) - (ilog2 x.den : Int) - 1)
          = (ilog2 x.num.natAbs : Int) - ((ilog2 x.den + 1 : Nat) : Int) by push_cast; ring]
      rw [zpow_sub₀ (by norm_num), zpow_natCast, zpow_natCast]
    rw [e]
    have a1q : (2 : ℚ) ^ (ilog2 x.num.natAbs) ≤ (x.num.natAbs : ℚ) := by exact_mod_cast a1
    have b2q : (x.den : ℚ) ≤ (2 : ℚ) ^ (ilog2 x.den + 1) := by exact_mod_cast le_of_lt b2
    have hdq : (0 : ℚ) < x.den := by exact_mod_cast hden
    exact div_le_div₀ (by positivity) a1q hdq b2q

theorem roundEven_nonneg (q : ℚ) (h : 0 ≤ q) : 0 ≤ roundEven q := by
  have hf : 0 ≤ ⌊q⌋ := Int.floor_nonneg.mpr h
  unfold roundEven
  simp only
  split_ifs <;> omega

theorem roundEven_le (q : ℚ) (N : Int) (h : q ≤ (N : ℚ)) : roundEven q ≤ N := by
  have hf : ⌊q⌋ ≤ N := by
    have : ((⌊q⌋ : Int) : ℚ) ≤ (N : ℚ) := le_trans (Int.floor_le q) h
    exact_mod_cast this
  have hstep : (0 : ℚ) < q - ⌊q⌋ → ⌊q⌋ + 1 ≤ N := by
    intro hpos
    have : ((⌊q⌋ : Int) : ℚ) < (N : ℚ) := by linarith
    have : ⌊q⌋ < N := by exact_mod_cast this
    omega
  unfold roundEven
  simp only
  split_ifs with c1 c2 c3
  · exact hf
  · exact hstep (by linarith)
  · exact hf
  · exact hstep (by linarith)

theorem round64_bounds (x : ℚ) (h0 : 0 ≤ x) (h1 : x ≤ 100) :
    0 ≤ round64 x ∧ round64 x ≤ 100 := by
  unfold round64
  split_ifs with hx
  · norm_num
  · have hu : (0 : ℚ) < (2 : ℚ) ^ (binade x - 52) := by positivity
    constructor
    · have : 0 ≤ roundEven (x / (2 : ℚ) ^ (binade x - 52)) :=
        roundEven_nonneg _ (div_nonneg h0 (le_of_lt hu))
      have hq : (0 : ℚ) ≤ (roundEven (x / (2 : ℚ) ^ (binade x - 52)) : ℚ) := by exact_mod_cast this
      exact mul_nonneg hq (le_of_lt hu)
    · have hb := binade_le x hx
      rw [abs_of_nonneg h0] at hb
      have he : binade x < 7 := by
        by_contra hcon
        have h7 : (7 : Int) ≤ binade x := by omega
        have : (2 : ℚ) ^ (7 : Int) ≤ (2 : ℚ) ^ binade x := zpow_le_zpow_right₀ (by norm_num) h7
        have h128 : (2 : ℚ) ^ (7 : Int) = 128 := by norm_num
        linarith
      have hk : (0 : Int) ≤ 52 - binade x := by omega
      have hN : (((100 * 2 ^ (52 - binade x).toNat : Int)) : ℚ) * (2 : ℚ) ^ (binade x - 52) = 100 := by
        push_cast
        rw [← zpow_natCast, Int.toNat_of_nonneg hk, mul_assoc, ← zpow_add₀ (by norm_num)]
        norm_num
      have hle : x / (2 : ℚ) ^ (binade x - 52) ≤ ((100 * 2 ^ (52 - binade x).toNat : Int) : ℚ) := by
        rw [div_le_iff₀ hu, hN]
        exact h1
      have hr := roundEven_le _ _ hle
      have hrq : (roundEven (x / (2 : ℚ) ^ (binade x - 52)) : ℚ)
          ≤ ((100 * 2 ^ (52 - binade x).toNat : Int) : ℚ) := by exact_mod_cast hr
      calc (roundEven (x / (2 : ℚ) ^ (binade x - 52)) : ℚ) * (2 : ℚ) ^ (binade x - 52)
          ≤ ((100 * 2 ^ (52 - binade x).toNat : Int) : ℚ) * (2 : ℚ) ^ (binade x - 52) :=
            mul_le_mul_of_nonneg_right hrq (le_of_lt hu)
        _ = 100 := hN

theorem floor_strength_bounds (strength : ℚ) (h0 : 0 ≤ strength) (h1 : strength ≤ 1) :
    0 ≤ ⌊mul64 100 strength⌋ ∧ ⌊mul64 100 strength⌋ ≤ 100 := by
  obtain ⟨b0, b1⟩ := round64_bounds (100 * strength) (by positivity) (by linarith)
  constructor
  · exact Int.floor_nonneg.mpr b0
  · have h2 : ((⌊mul64 100 strength⌋ : Int) : ℚ) ≤ mul64 100 strength := Int.floor_le _
    have h3 : ((⌊mul64 100 strength⌋ : Int) : ℚ) ≤ 100 := le_trans h2 b1
    exact_mod_cast h3

theorem toInt32_floor_strength (strength : ℚ) (h0 : 0 ≤ strength) (h1 : strength ≤ 1) :
    toInt32_compiled ((⌊mul64 100 strength⌋ : Int) : ℚ) = ⌊mul64 100 strength⌋ := by
  obtain ⟨h2, h3⟩ := floor_strength_bounds strength h0 h1
  exact toInt32_compiled_intCast _ (by linarith) (by linarith)

theorem generate_naive_order_of_conversions (p : NaivePortfolio) (events : List Event)
    (signal : SignalEvent) (m n : Int)
    (hm : toInt32_compiled ((⌊mul64 100 signal.strength⌋ : Int) : ℚ) = m)
    (hn : toInt32_compiled (CppMap.valAt p.current_positions signal.symbol) = n) :
    generate_naive_order p events signal =
      if signal.signal_type = "LONG" ∧ n = 0 then
        some (after_signal p signal, events ++ [mkt_order signal.symbol m "BUY"])
      else if signal.signal_type = "SHORT" ∧ n = 0 then
        some (after_signal p signal, events ++ [mkt_order signal.symbol m "SELL"])
      else if signal.signal_type = "EXIT" ∧ n > 0 then
        some (after_signal p signal, events ++ [mkt_order signal.symbol (abs_compiled n) "SELL"])
      else if signal.signal_type = "EXIT" ∧ n < 0 then
        some (after_signal p signal, events ++ [mkt_order signal.symbol (abs_compiled n) "BUY"])
      else some (after_signal p signal, events) := by
  subst hm
  subst hn
  rfl

/-! ## Signals: the order table -/

/-- C4, as stated, fails: on the integer position 2^31 an EXIT signal appends a
BUY of -2^31 where the claim has a SELL of 2^31 (the conversion of the position
to `int` gives INT_MIN), and on the position -2^31 it appends a BUY of -2^31
where the claim has a BUY of 2^31 (`abs(INT_MIN)` is INT_MIN). -/
theorem exit_out_of_range_counterexample :
    (generate_naive_order (ledger_with_position 2147483648) []
        { symbol := "SPY", signal_type := "EXIT", strength := 1 }).map Prod.snd
      = some [mkt_order "SPY" (-2147483648) "BUY"] ∧
    (generate_naive_order (ledger_with_position (-2147483648)) []
        { symbol := "SPY", signal_type := "EXIT", strength := 1 }).map Prod.snd
      = some [mkt_order "SPY" (-2147483648) "BUY"] := by
  decide!

/-- C4 (amended): for every ledger state, event queue and EXIT signal, of any
strength, and every non-zero integer current position n of the symbol with
-2^31 < n < 2^31, `generate_naive_order` appends exactly one order (symbol, MKT,
|n|, SELL if n > 0 and BUY if n < 0); the order does not mention the strength. -/
theorem generate_naive_order_exit (p : NaivePortfolio) (events : List Event)
    (signal : SignalEvent) (n : Int) (htype : signal.signal_type = "EXIT")
    (hpos : CppMap.valAt p.current_positions signal.symbol = (n : ℚ)) (hne : n ≠ 0)
    (hrange : -2147483648 < n ∧ n ≤ 2147483647) :
    generate_naive_order p events signal
      = some (after_signal p signal,
          events ++ [mkt_order signal.symbol |n| (if n > 0 then "SELL" else "BUY")]) := by
  have hn : toInt32_compiled (CppMap.valAt p.current_positions signal.symbol) = n := by
    rw [hpos]
    exact toInt32_compiled_intCast n (le_of_lt hrange.1) hrange.2
  have e1 : ("EXIT" : String) ≠ "LONG" := by decide
  have e2 : ("EXIT" : String) ≠ "SHORT" := by decide
  have hmin : n ≠ -2147483648 := by omega
  rw [generate_naive_order_of_conversions p events signal _ n rfl hn,
    abs_compiled_of_ne n hmin]
  by_cases hgt : n > 0
  · simp [htype, e1, e2, hgt]
  · have hlt : n < 0 := by omega
    simp [htype, e1, e2, hgt, hlt]

/-- C4 (amended), at the position -7 and strength 10^8: one BUY of 7. -/
theorem generate_naive_order_exit_witness :
    generate_naive_order (ledger_with_position (-7)) []
        { symbol := "SPY", signal_type := "EXIT", strength := 100000000 }
      = some (after_signal (ledger_with_position (-7))
            { symbol := "SPY", signal_type := "EXIT", strength := 100000000 },
          [] ++ [mkt_order "SPY" |(-7 : Int)| (if (-7 : Int) > 0 then "SELL" else "BUY")]) :=
  generate_naive_order_exit (ledger_with_position (-7)) []
    { symbol := "SPY", signal_type := "EXIT", strength := 100000000 } (-7) rfl
    (by decide!) (by decide) (by decide)

/-! ## Bar close: the loop over the symbols -/

theorem timeindex_loop_eq_foldl (bars : BarProvider) (l : List String) :
    ∀ st : TimeindexLoop, (∀ s ∈ l, ∃ bar, bars s = some bar) →
      timeindex_loop bars l st = some (l.foldl (loop_step bars) st) := by
  induction l with
  | nil =>
    intro st _
    rfl
  | cons s rest ih =>
    intro st h
    obtain ⟨bar, hbar⟩ := h s (List.mem_cons_self _ _)
    have hrest := ih (loop_step bars st s) (fun x hx => h x (List.mem_cons_of_mem _ hx))
    simp only [List.foldl_cons]
    rw [← hrest]
    simp only [timeindex_loop, loop_step, hbar]

theorem timeindex_loop_bars (bars : BarProvider) (l : List String) :
    ∀ st st1 : TimeindexLoop, timeindex_loop bars l st = some st1 →
      ∀ s ∈ l, ∃ bar, bars s = some bar := by
  induction l with
  | nil =>
    intro st st1 _ s hs
    simp at hs
  | cons a rest ih =>
    intro st st1 h s hs
    cases hb : bars a with
    | none => simp [timeindex_loop, hb] at h
    | some bar =>
      simp only [timeindex_loop, hb] at h
      rcases List.mem_cons.mp hs with rfl | hmem
      · exact ⟨bar, hb⟩
      · exact ih _ _ h s hmem

theorem bars_at_some {bars : BarProvider} {l : List String} {d : Int} (h : bars_at bars l d) :
    ∀ s ∈ l, ∃ bar, bars s = some bar := by
  intro s hs
  obtain ⟨bar, hb, _⟩ := h s hs
  exact ⟨bar, hb⟩

theorem bars_at_tail {bars : BarProvider} {a : String} {l : List String} {d : Int}
    (h : bars_at bars (a :: l) d) : bars_at bars l d :=
  fun s hs => h s (List.mem_cons_of_mem _ hs)

theorem loop_step_at (bars : BarProvider) (st : TimeindexLoop) (s : String) (bar : Bar)
    (hbar : bars s = some bar) :
    loop_step bars st s =
      { all_positions :=
          setIn st.all_positions bar.timestamp s (CppMap.valAt st.current_positions s)
        current_positions := CppMap.touch st.current_positions s
        all_holdings :=
          setIn st.all_holdings bar.timestamp s (CppMap.valAt st.current_positions s * bar.close)
        date := some bar.timestamp
        sumvalues := st.sumvalues + CppMap.valAt st.current_positions s * bar.close } := by
  simp only [loop_step, hbar, CppMap.valAt_touch]

theorem foldl_loop_positions (bars : BarProvider) (l : List String) :
    ∀ (st : TimeindexLoop) (j : String),
      CppMap.valAt (l.foldl (loop_step bars) st).current_positions j
        = CppMap.valAt st.current_positions j := by
  induction l with
  | nil =>
    intro st j
    rfl
  | cons s rest ih =>
    intro st j
    simp only [List.foldl_cons]
    rw [ih]
    cases hb : bars s with
    | none => simp [loop_step, hb]
    | some bar => simp [loop_step, hb, CppMap.valAt_touch]

theorem foldl_loop_date (bars : BarProvider) (l : List String) (d : Int) :
    ∀ st : TimeindexLoop, bars_at bars l d → l ≠ [] →
      (l.foldl (loop_step bars) st).date = some d := by
  induction l with
  | nil =>
    intro st _ hne
    exact absurd rfl hne
  | cons s rest ih =>
    intro st h _
    obtain ⟨bar, hbar, hd⟩ := h s (List.mem_cons_self _ _)
    simp only [List.foldl_cons]
    by_cases hrest : rest = []
    · subst hrest
      simp [loop_step, hbar, hd]
    · exact ih _ (bars_at_tail h) hrest

theorem foldl_loop_sumvalues (bars : BarProvider) (l : List String) :
    ∀ st : TimeindexLoop, (∀ s ∈ l, ∃ bar, bars s = some bar) →
      (l.foldl (loop_step bars) st).sumvalues
        = st.sumvalues
          + (l.map (fun s => CppMap.valAt st.current_positions s * close_of bars s)).sum := by
  induction l with
  | nil =>
    intro st _
    simp
  | cons s rest ih =>
    intro st h
    obtain ⟨bar, hbar⟩ := h s (List.mem_cons_self _ _)
    simp only [List.foldl_cons, List.map_cons, List.sum_cons]
    rw [ih _ (fun x hx => h x (List.mem_cons_of_mem _ hx)), loop_step_at bars st s bar hbar]
    simp only [CppMap.valAt_touch, close_of, hbar]
    ring

theorem valAt_setIn {K : Type} [DecidableEq K] [KeyOrder K] (m : CppMap K (CppMap String ℚ))
    (k k1 : K) (j j1 : String) (v : ℚ) :
    CppMap.valAt (CppMap.valAt (setIn m k j v) k1) j1
      = if k1 = k ∧ j1 = j then v else CppMap.valAt (CppMap.valAt m k1) j1 := by
  unfold setIn
  by_cases hk : k1 = k
  · subst hk
    rw [CppMap.valAt_insert_self]
    by_cases hj : j1 = j
    · subst hj
      simp [CppMap.valAt_insert_self]
    · simp [hj, CppMap.valAt_insert_ne _ _ _ _ hj]
  · simp [hk, CppMap.valAt_insert_ne _ _ _ _ hk]

theorem foldl_loop_all_positions (bars : BarProvider) (d : Int) (l : List String) :
    ∀ st : TimeindexLoop, bars_at bars l d → ∀ (k : Int) (j : String),
      CppMap.valAt (CppMap.valAt (l.foldl (loop_step bars) st).all_positions k) j
        = if k = d ∧ j ∈ l then CppMap.valAt st.current_positions j
          else CppMap.valAt (CppMap.valAt st.all_positions k) j := by
  induction l with
  | nil =>
    intro st _ k j
    simp
  | cons s rest ih =>
    intro st h k j
    obtain ⟨bar, hbar, hd⟩ := h s (List.mem_cons_self _ _)
    simp only [List.foldl_cons]
    rw [ih _ (bars_at_tail h), loop_step_at bars st s bar hbar]
    simp only [CppMap.valAt_touch, valAt_setIn, hd, List.mem_cons]
    by_cases hk : k = d
    · by_cases hj : j = s
      · subst hj
        by_cases hr : j ∈ rest <;> simp [hk, hr]
      · by_cases hr : j ∈ rest <;> simp [hk, hj, hr]
    · simp [hk]

theorem foldl_loop_all_holdings (bars : BarProvider) (d : Int) (l : List String) :
    ∀ st : TimeindexLoop, bars_at bars l d → ∀ (k : Int) (j : String),
      CppMap.valAt (CppMap.valAt (l.foldl (loop_step bars) st).all_holdings k) j
        = if k = d ∧ j ∈ l then CppMap.valAt st.current_positions j * close_of bars j
          else CppMap.valAt (CppMap.valAt st.all_holdings k) j := by
  induction l with
  | nil =>
    intro st _ k j
    simp
  | cons s rest ih =>
    intro st h k j
    obtain ⟨bar, hbar, hd⟩ := h s (List.mem_cons_self _ _)
    simp only [List.foldl_cons]
    rw [ih _ (bars_at_tail h), loop_step_at bars st s bar hbar]
    simp only [CppMap.valAt_touch, valAt_setIn, hd, List.mem_cons]
    by_cases hk : k = d
    · by_cases hj : j = s
      · subst hj
        by_cases hr : j ∈ rest <;> simp [hk, hr, close_of, hbar]
      · by_cases hr : j ∈ rest <;> simp [hk, hj, hr]
    · simp [hk]

theorem update_timeindex_eq (p : NaivePortfolio) (bars : BarProvider) (d k0 : Int)
    (previous : CppMap String ℚ) (hlast : p.all_holdings.getLast? = some (k0, previous))
    (hl : p.symbol_list ≠ []) (hb : bars_at bars p.symbol_list d) :
    update_timeindex p bars
      = some (timeindex_finish p previous
          (p.symbol_list.foldl (loop_step bars) (timeindex_start p)) d) := by
  have hloop := timeindex_loop_eq_foldl bars p.symbol_list (timeindex_start p) (bars_at_some hb)
  have hdate := foldl_loop_date bars p.symbol_list d (timeindex_start p) hb hl
  unfold update_timeindex
  simp only [hlast]
  unfold timeindex_start at hloop hdate
  simp only [hloop, hdate]
  rfl

/-! ## Bar close: the snapshot written -/

theorem valAt_touchLast (k : String) (k1 : Int) (j : String) :
    ∀ m : CppMap Int (CppMap String ℚ),
      CppMap.valAt (CppMap.valAt (touchLast m k) k1) j = CppMap.valAt (CppMap.valAt m k1) j
  | [] => rfl
  | [(d, snapshot)] => by
    by_cases h : k1 = d
    · simp [touchLast, CppMap.valAt, CppMap.find, h]
      exact CppMap.valAt_touch snapshot k j
    · simp [touchLast, CppMap.valAt, CppMap.find, h]
  | e :: e1 :: rest => by
    have ih := valAt_touchLast k k1 j (e1 :: rest)
    by_cases h : k1 = e.1
    · simp [touchLast, CppMap.valAt, CppMap.find, h]
    · simp only [CppMap.valAt, touchLast, CppMap.find, h, if_false] at ih ⊢
      exact ih

theorem length_touchLast (k : String) :
    ∀ m : CppMap Int (CppMap String ℚ), (touchLast m k).length = m.length
  | [] => rfl
  | [_] => rfl
  | e :: e1 :: rest => by
    have ih := length_touchLast k (e1 :: rest)
    simp only [touchLast, List.length_cons] at ih ⊢
    omega

theorem keys_touchLast (k : String) :
    ∀ m : CppMap Int (CppMap String ℚ), CppMap.keys (touchLast m k) = CppMap.keys m
  | [] => rfl
  | [_] => rfl
  | e :: e1 :: rest => by
    have ih := keys_touchLast k (e1 :: rest)
    simp only [touchLast, CppMap.keys, List.map_cons] at ih ⊢
    rw [ih]

theorem length_insert_ge {K V : Type} [DecidableEq K] [KeyOrder K] (k : K) (v : V) :
    ∀ m : CppMap K V, m.length ≤ (CppMap.insert m k v).length
  | [] => by simp [CppMap.insert]
  | (k1, v1) :: rest => by
    have ih := length_insert_ge k v rest
    unfold CppMap.insert
    split_ifs <;> simp only [List.length_cons] <;> omega

theorem length_insert_fresh {K V : Type} [DecidableEq K] [KeyOrder K] (k : K) (v : V) :
    ∀ m : CppMap K V, k ∉ CppMap.keys m → (CppMap.insert m k v).length = m.length + 1
  | [], _ => by simp [CppMap.insert]
  | (k1, v1) :: rest, h => by
    have hk : k ≠ k1 := fun e => h (by simp [CppMap.keys, e])
    have hr : k ∉ CppMap.keys rest := fun e => h (by
      simp only [CppMap.keys, List.map_cons, List.mem_cons]
      exact Or.inr e)
    have ih := length_insert_fresh k v rest hr
    unfold CppMap.insert
    split_ifs <;> simp [ih]

theorem length_setIn_ge (m : CppMap Int (CppMap String ℚ)) (k : Int) (j : String) (v : ℚ) :
    m.length ≤ (setIn m k j v).length :=
  length_insert_ge k _ m

theorem foldl_loop_length_ge (bars : BarProvider) (l : List String) :
    ∀ st : TimeindexLoop,
      st.all_holdings.length ≤ (l.foldl (loop_step bars) st).all_holdings.length := by
  induction l with
  | nil =>
    intro st
    exact le_refl _
  | cons s rest ih =>
    intro st
    simp only [List.foldl_cons]
    refine le_trans ?_ (ih _)
    cases hb : bars s with
    | none => simp [loop_step, hb]
    | some bar =>
      simp only [loop_step, hb]
      exact length_setIn_ge _ _ _ _

theorem foldl_loop_length_fresh (bars : BarProvider) (d : Int) (l : List String)
    (st : TimeindexLoop) (hb : bars_at bars l d) (hl : l ≠ [])
    (hfresh : d ∉ CppMap.keys st.all_holdings) :
    st.all_holdings.length + 1 ≤ (l.foldl (loop_step bars) st).all_holdings.length := by
  cases l with
  | nil => exact absurd rfl hl
  | cons s rest =>
    obtain ⟨bar, hbar, hd⟩ := hb s (List.mem_cons_self _ _)
    simp only [List.foldl_cons]
    refine le_trans ?_ (foldl_loop_length_ge bars rest _)
    rw [loop_step_at bars st s bar hbar, hd]
    simp only [setIn]
    rw [length_insert_fresh d _ st.all_holdings hfresh]

theorem finish_symbol (p : NaivePortfolio) (previous : CppMap String ℚ) (st : TimeindexLoop)
    (d k : Int) (j : String) (hj : j ∉ summary_keys) :
    CppMap.valAt (CppMap.valAt (timeindex_finish p previous st d).all_holdings k) j
      = CppMap.valAt (CppMap.valAt st.all_holdings k) j := by
  simp only [summary_keys, List.mem_cons, List.mem_singleton, List.not_mem_nil, or_false,
    not_or] at hj
  unfold timeindex_finish
  simp only []
  split_ifs <;> simp [valAt_setIn, hj]

theorem finish_summary (p : NaivePortfolio) (previous : CppMap String ℚ) (st : TimeindexLoop)
    (d : Int) :
    CppMap.valAt (CppMap.valAt (timeindex_finish p previous st d).all_holdings d) "heldcash"
        = CppMap.valAt p.current_holdings "heldcash" ∧
      CppMap.valAt (CppMap.valAt (timeindex_finish p previous st d).all_holdings d) "commission"
        = CppMap.valAt p.current_holdings "commission" ∧
      CppMap.valAt (CppMap.valAt (timeindex_finish p previous st d).all_holdings d)
          "totalholdings"
        = CppMap.valAt p.current_holdings "heldcash" + st.sumvalues := by
  unfold timeindex_finish
  simp only []
  split_ifs <;> simp [valAt_setIn, CppMap.valAt_touch]

theorem finish_returns (p : NaivePortfolio) (previous : CppMap String ℚ) (st : TimeindexLoop)
    (d : Int) (hlen : 1 < st.all_holdings.length) :
    CppMap.valAt (CppMap.valAt (timeindex_finish p previous st d).all_holdings d) "returns"
        = (CppMap.valAt p.current_holdings "heldcash" + st.sumvalues)
            / CppMap.valAt previous "totalholdings" - 1 ∧
      CppMap.valAt (CppMap.valAt (timeindex_finish p previous st d).all_holdings d) "equitycurve"
        = (CppMap.valAt previous "equitycurve" + 1)
            * ((CppMap.valAt p.current_holdings "heldcash" + st.sumvalues)
                / CppMap.valAt previous "totalholdings" - 1 + 1) - 1 := by
  unfold timeindex_finish
  simp only []
  split_ifs with h
  · simp [valAt_setIn, CppMap.valAt_touch]
  · exact absurd (lt_of_lt_of_le hlen (le_trans (length_setIn_ge _ _ _ _)
      (le_trans (length_setIn_ge _ _ _ _) (length_setIn_ge _ _ _ _)))) h

theorem finish_live (p : NaivePortfolio) (previous : CppMap String ℚ) (st : TimeindexLoop)
    (d : Int) :
    (timeindex_finish p previous st d).all_positions = st.all_positions ∧
      (timeindex_finish p previous st d).current_positions = st.current_positions ∧
      (timeindex_finish p previous st d).symbol_list = p.symbol_list ∧
      (timeindex_finish p previous st d).current_holdings
        = CppMap.touch (CppMap.touch p.current_holdings "heldcash") "commission" := by
  unfold timeindex_finish
  simp

theorem getLast_of_ne_nil {α : Type} (m : List α) (h : m ≠ []) : ∃ e, m.getLast? = some e := by
  cases hl : m.getLast? with
  | none => exact absurd (List.getLast?_eq_none_iff.mp hl) h
  | some e => exact ⟨e, rfl⟩

/-- C6, as stated, fails: for a symbol named "heldcash" with position 1 and close
50 the snapshot holds the live heldcash 100000 under that key, not the market
value 50; for a symbol named "returns" it holds the period return 1/2000; and on
a ledger whose holdings history is empty the call is undefined. -/
theorem update_timeindex_summary_symbol_counterexample :
    (update_timeindex (ledger_symbol_position "heldcash" 1) bars_close_50).map
        (fun p1 => CppMap.valAt (CppMap.valAt p1.all_holdings 1) "heldcash") = some 100000 ∧
      CppMap.valAt (ledger_symbol_position "heldcash" 1).current_positions "heldcash"
        * close_of bars_close_50 "heldcash" = 50 ∧
      (update_timeindex (ledger_symbol_position "returns" 1) bars_close_50).map
        (fun p1 => CppMap.valAt (CppMap.valAt p1.all_holdings 1) "returns") = some (1 / 2000) ∧
      update_timeindex { ledger_spy with all_holdings := [] } bars_close_50 = none := by
  decide!

/-- C6 (amended): for every ledger state with a non-empty holdings history and a
non-empty universe in which every symbol has a most recent bar and all those bars
share the timestamp d, `update_timeindex` returns a ledger in which, at d:
all_positions[d][s] = current_positions[s] for every symbol s;
all_holdings[d][s] = current_positions[s] * close(s) for every symbol s that is
not one of the keys totalholdings, heldcash, commission, returns, equitycurve;
heldcash and commission are the live ones; and totalholdings is the live heldcash
plus the sum over the symbol list of current_positions[s] * close(s). -/
theorem update_timeindex_snapshot (p : NaivePortfolio) (bars : BarProvider) (d : Int)
    (hhist : p.all_holdings ≠ []) (hl : p.symbol_list ≠ [])
    (hb : bars_at bars p.symbol_list d) :
    ∃ p1, update_timeindex p bars = some p1 ∧
      (∀ s ∈ p.symbol_list,
        CppMap.valAt (CppMap.valAt p1.all_positions d) s = CppMap.valAt p.current_positions s) ∧
      (∀ s ∈ p.symbol_list, s ∉ summary_keys →
        CppMap.valAt (CppMap.valAt p1.all_holdings d) s
          = CppMap.valAt p.current_positions s * close_of bars s) ∧
      CppMap.valAt (CppMap.valAt p1.all_holdings d) "heldcash"
        = CppMap.valAt p.current_holdings "heldcash" ∧
      CppMap.valAt (CppMap.valAt p1.all_holdings d) "commission"
        = CppMap.valAt p.current_holdings "commission" ∧
      CppMap.valAt (CppMap.valAt p1.all_holdings d) "totalholdings"
        = CppMap.valAt p.current_holdings "heldcash"
          + (p.symbol_list.map
              (fun s => CppMap.valAt p.current_positions s * close_of bars s)).sum := by
  obtain ⟨⟨k0, previous⟩, hlast⟩ := getLast_of_ne_nil p.all_holdings hhist
  refine ⟨_, update_timeindex_eq p bars d k0 previous hlast hl hb, ?_, ?_, ?_⟩
  · intro s hs
    rw [(finish_live p previous _ d).1, foldl_loop_all_positions bars d p.symbol_list _ hb]
    simp [hs, timeindex_start]
  · intro s hs hsum
    rw [finish_symbol p previous _ d d s hsum,
      foldl_loop_all_holdings bars d p.symbol_list _ hb]
    simp [hs, timeindex_start]
  · obtain ⟨h1, h2, h3⟩ := finish_summary p previous
      (p.symbol_list.foldl (loop_step bars) (timeindex_start p)) d
    refine ⟨h1, h2, ?_⟩
    rw [h3, foldl_loop_sumvalues bars p.symbol_list _ (bars_at_some hb)]
    simp [timeindex_start]

/-- C6 (amended), at a position of 10 SPY with close 50 at time 1 and cash
100000: the snapshot at 1 has position 10, market value 500, heldcash 100000,
commission 0 and totalholdings 100500. -/
theorem update_timeindex_snapshot_witness :
    ∃ p1, update_timeindex (ledger_with_position 10) bars_close_50 = some p1 ∧
      CppMap.valAt (CppMap.valAt p1.all_positions 1) "SPY" = 10 ∧
      CppMap.valAt (CppMap.valAt p1.all_holdings 1) "SPY" = 500 ∧
      CppMap.valAt (CppMap.valAt p1.all_holdings 1) "heldcash" = 100000 ∧
      CppMap.valAt (CppMap.valAt p1.all_holdings 1) "commission" = 0 ∧
      CppMap.valAt (CppMap.valAt p1.all_holdings 1) "totalholdings" = 100500 := by
  obtain ⟨p1, h, h1, h2, h3, h4, h5⟩ :=
    update_timeindex_snapshot (ledger_with_position 10) bars_close_50 1
      (by decide) (by decide)
      (by
        intro s _
        exact ⟨_, rfl, rfl⟩)
  refine ⟨p1, h, ?_, ?_, ?_, ?_, ?_⟩
  · rw [h1 "SPY" (by decide)]
    decide!
  · rw [h2 "SPY" (by decide) (by decide)]
    decide!
  · rw [h3]
    decide!
  · rw [h4]
    decide!
  · rw [h5]
    decide!

/-- C7: for every ledger state whose holdings history is non-empty, with latest
snapshot `previous`, and every timestamp d shared by the most recent bars of all
symbols and strictly later than every timestamp of the history,
`update_timeindex` returns a ledger whose snapshot at d has
returns = totalholdings(d) / totalholdings(previous) - 1 and
equitycurve = (equitycurve(previous) + 1) * (1 + returns) - 1; the previous
totalholdings is taken non-zero, as in the claim. -/
theorem update_timeindex_returns (p : NaivePortfolio) (bars : BarProvider) (d k0 : Int)
    (previous : CppMap String ℚ) (hlast : p.all_holdings.getLast? = some (k0, previous))
    (hl : p.symbol_list ≠ []) (hb : bars_at bars p.symbol_list d)
    (hlater : ∀ e ∈ p.all_holdings, e.1 < d)
    (_hprev : CppMap.valAt previous "totalholdings" ≠ 0) :
    ∃ p1, update_timeindex p bars = some p1 ∧
      CppMap.valAt (CppMap.valAt p1.all_holdings d) "returns"
        = CppMap.valAt (CppMap.valAt p1.all_holdings d) "totalholdings"
            / CppMap.valAt previous "totalholdings" - 1 ∧
      CppMap.valAt (CppMap.valAt p1.all_holdings d) "equitycurve"
        = (CppMap.valAt previous "equitycurve" + 1)
            * (1 + CppMap.valAt (CppMap.valAt p1.all_holdings d) "returns") - 1 := by
  have hne : p.all_holdings ≠ [] := by
    intro h
    rw [h] at hlast
    simp at hlast
  have hfresh : d ∉ CppMap.keys (timeindex_start p).all_holdings := by
    rw [show (timeindex_start p).all_holdings
      = touchLast (touchLast p.all_holdings "totalholdings") "equitycurve" from rfl,
      keys_touchLast, keys_touchLast]
    simp only [CppMap.keys, List.mem_map, not_exists, not_and]
    intro e he hd
    exact absurd (hlater e he) (by rw [hd]; exact lt_irrefl d)
  have hlen0 : 1 ≤ (timeindex_start p).all_holdings.length := by
    simp only [timeindex_start, length_touchLast]
    exact Nat.pos_of_ne_zero (fun h => hne (List.length_eq_zero.mp h))
  have hlen := foldl_loop_length_fresh bars d p.symbol_list (timeindex_start p) hb hl hfresh
  obtain ⟨_, _, h3⟩ := finish_summary p previous
    (p.symbol_list.foldl (loop_step bars) (timeindex_start p)) d
  obtain ⟨h4, h5⟩ := finish_returns p previous
    (p.symbol_list.foldl (loop_step bars) (timeindex_start p)) d (by omega)
  refine ⟨_, update_timeindex_eq p bars d k0 previous hlast hl hb, ?_, ?_⟩
  · rw [h4, h3]
  · rw [h5, h4]
    ring

/-- C7, at a position of 10 SPY with close 50 at time 1, cash 100000 and the
single earlier snapshot of total 100000 at time 0: returns and equitycurve at 1
are both 1/200. -/
theorem update_timeindex_returns_witness :
    ∃ p1, update_timeindex (ledger_with_position 10) bars_close_50 = some p1 ∧
      CppMap.valAt (CppMap.valAt p1.all_holdings 1) "totalholdings" = 100500 ∧
      CppMap.valAt (CppMap.valAt p1.all_holdings 1) "returns" = 1 / 200 ∧
      CppMap.valAt (CppMap.valAt p1.all_holdings 1) "equitycurve" = 1 / 200 := by
  obtain ⟨p1, h, h1, h2⟩ :=
    update_timeindex_returns (ledger_with_position 10) bars_close_50 1 0
      snapshot_spy_start
      (by decide!)
      (by decide)
      (by
        intro s _
        exact ⟨_, rfl, rfl⟩)
      (by decide!)
      (by decide!)
  have ht : CppMap.valAt (CppMap.valAt p1.all_holdings 1) "totalholdings" = 100500 := by
    have hp : (update_timeindex (ledger_with_position 10) bars_close_50).map
        (fun q => CppMap.valAt (CppMap.valAt q.all_holdings 1) "totalholdings")
        = some 100500 := by decide!
    rw [h] at hp
    simpa using hp
  have e1 : CppMap.valAt snapshot_spy_start "totalholdings"
      = 100000 := by decide!
  have e2 : CppMap.valAt snapshot_spy_start "equitycurve"
      = 0 := by decide!
  rw [ht, e1] at h1
  rw [h1, e2] at h2
  refine ⟨p1, h, ht, ?_, ?_⟩
  · rw [h1]
    norm_num
  · rw [h2]
    norm_num

/-! ## The constructor -/

theorem find_foldl_zero (l : List String) :
    ∀ (acc : CppMap String ℚ) (s : String),
      CppMap.find (l.foldl (fun temp x => CppMap.insert temp x 0) acc) s
        = if s ∈ l then some 0 else CppMap.find acc s := by
  induction l with
  | nil =>
    intro acc s
    simp
  | cons a rest ih =>
    intro acc s
    simp only [List.foldl_cons, List.mem_cons]
    rw [ih]
    by_cases hr : s ∈ rest
    · simp [hr]
    · by_cases ha : s = a
      · subst ha
        simp [hr, CppMap.find_insert_self]
      · simp [hr, ha, CppMap.find_insert_ne _ _ _ _ ha]

theorem find_zero_symbols (l : List String) (s : String) (hs : s ∈ l) :
    CppMap.find (zero_symbols l) s = some 0 := by
  unfold zero_symbols
  rw [find_foldl_zero]
  simp [hs]

/-- C10, as stated, fails: for the symbol list ["heldcash"] and capital 100000
the market value recorded for the symbol "heldcash" is 100000, not 0, in the
snapshot and in current_holdings. -/
theorem construct_heldcash_symbol_counterexample :
    (NaivePortfolio.construct ["heldcash"] 0 100000).all_holdings
        = [(0, [("commission", 0), ("equitycurve", 0), ("heldcash", 100000), ("returns", 0),
            ("totalholdings", 100000)])] ∧
      CppMap.find (NaivePortfolio.construct ["heldcash"] 0 100000).current_holdings "heldcash"
        = some 100000 := by
  decide!

/-- C10 (amended): for every symbol list, start_date and initial_capital the
constructor produces all_positions and all_holdings with exactly one entry each,
keyed by start_date; position 0 for every symbol in that entry and in
current_positions; market value 0 for every symbol other than one named
"heldcash" or "totalholdings"; heldcash == initial_capital, commission == 0 and
totalholdings == initial_capital in the snapshot and in current_holdings; and
returns == 0 and equitycurve == 0 in the snapshot. -/
theorem construct_initial_ledger (symbol_list : List String) (start_date : Int)
    (initial_capital : ℚ) :
    (∃ positions,
      (NaivePortfolio.construct symbol_list start_date initial_capital).all_positions
          = [(start_date, positions)] ∧
        ∀ s ∈ symbol_list, CppMap.find positions s = some 0) ∧
    (∀ s ∈ symbol_list,
      CppMap.find
        (NaivePortfolio.construct symbol_list start_date initial_capital).current_positions s
        = some 0) ∧
    (∃ snapshot,
      (NaivePortfolio.construct symbol_list start_date initial_capital).all_holdings
          = [(start_date, snapshot)] ∧
        (∀ s ∈ symbol_list, s ≠ "heldcash" → s ≠ "totalholdings" →
          CppMap.find snapshot s = some 0) ∧
        CppMap.find snapshot "heldcash" = some initial_capital ∧
        CppMap.find snapshot "commission" = some 0 ∧
        CppMap.find snapshot "totalholdings" = some initial_capital ∧
        CppMap.find snapshot "returns" = some 0 ∧
        CppMap.find snapshot "equitycurve" = some 0) ∧
    (∀ s ∈ symbol_list, s ≠ "heldcash" → s ≠ "totalholdings" →
      CppMap.find
        (NaivePortfolio.construct symbol_list start_date initial_capital).current_holdings s
        = some 0) ∧
    CppMap.find
        (NaivePortfolio.construct symbol_list start_date initial_capital).current_holdings
        "heldcash" = some initial_capital ∧
    CppMap.find
        (NaivePortfolio.construct symbol_list start_date initial_capital).current_holdings
        "commission" = some 0 ∧
    CppMap.find
        (NaivePortfolio.construct symbol_list start_date initial_capital).current_holdings
        "totalholdings" = some initial_capital := by
  refine ⟨⟨zero_symbols symbol_list, rfl, find_zero_symbols symbol_list⟩,
    find_zero_symbols symbol_list, ⟨_, rfl, ?_, ?_, ?_, ?_, ?_, ?_⟩, ?_, ?_, ?_, ?_⟩
  · intro s hs h1 h2
    by_cases h3 : s = "commission"
    · subst h3
      simp [CppMap.find_insert_self, CppMap.find_insert_ne]
    · by_cases h4 : s = "returns"
      · subst h4
        simp [CppMap.find_insert_self, CppMap.find_insert_ne]
      · by_cases h5 : s = "equitycurve"
        · subst h5
          simp [CppMap.find_insert_self, CppMap.find_insert_ne]
        · simp [CppMap.find_insert_ne, h1, h2, h3, h4, h5, find_zero_symbols symbol_list s hs]
  · simp [CppMap.find_insert_self, CppMap.find_insert_ne]
  · simp [CppMap.find_insert_self, CppMap.find_insert_ne]
  · simp [CppMap.find_insert_self, CppMap.find_insert_ne]
  · simp [CppMap.find_insert_self, CppMap.find_insert_ne]
  · simp [CppMap.find_insert_self, CppMap.find_insert_ne]
  · intro s hs h1 h2
    by_cases h3 : s = "commission"
    · subst h3
      simp [NaivePortfolio.construct, construct_current_holdings, CppMap.find_insert_self,
        CppMap.find_insert_ne]
    · simp [NaivePortfolio.construct, construct_current_holdings, CppMap.find_insert_ne, h1, h2,
        h3, find_zero_symbols symbol_list s hs]
  · simp [NaivePortfolio.construct, construct_current_holdings, CppMap.find_insert_self,
      CppMap.find_insert_ne]
  · simp [NaivePortfolio.construct, construct_current_holdings, CppMap.find_insert_self,
      CppMap.find_insert_ne]
  · simp [NaivePortfolio.construct, construct_current_holdings, CppMap.find_insert_self,
      CppMap.find_insert_ne]

/-! ## Reachable states: the single snapshot -/

theorem generate_naive_order_ledger (p p1 : NaivePortfolio) (events events1 : List Event)
    (signal : SignalEvent) (h : generate_naive_order p events signal = some (p1, events1)) :
    p1 = after_signal p signal := by
  rw [generate_naive_order_of_conversions p events signal _ _ rfl rfl] at h
  split_ifs at h <;>
    · simp only [Option.some.injEq, Prod.mk.injEq] at h
      exact h.1.symm

theorem update_timeindex_some (p p1 : NaivePortfolio) (bars : BarProvider)
    (h : update_timeindex p bars = some p1) :
    ∃ (k0 d : Int) (previous : CppMap String ℚ),
      p.all_holdings.getLast? = some (k0, previous) ∧
      (∀ s ∈ p.symbol_list, ∃ bar, bars s = some bar) ∧
      (p.symbol_list.foldl (loop_step bars) (timeindex_start p)).date = some d ∧
      p1 = timeindex_finish p previous
        (p.symbol_list.foldl (loop_step bars) (timeindex_start p)) d := by
  unfold update_timeindex at h
  cases hlast : p.all_holdings.getLast? with
  | none => simp [hlast] at h
  | some e =>
    obtain ⟨k0, previous⟩ := e
    simp only [hlast] at h
    cases hloop : timeindex_loop bars p.symbol_list (timeindex_start p) with
    | none =>
      unfold timeindex_start at hloop
      simp [hloop] at h
    | some st =>
      have hbars := timeindex_loop_bars bars p.symbol_list _ _ hloop
      have hfold := timeindex_loop_eq_foldl bars p.symbol_list (timeindex_start p) hbars
      rw [hfold] at hloop
      simp only [Option.some.injEq] at hloop
      unfold timeindex_start at hfold
      simp only [hfold] at h
      cases hdate : (p.symbol_list.foldl (loop_step bars) (timeindex_start p)).date with
      | none =>
        unfold timeindex_start at hdate
        simp [hdate] at h
      | some d =>
        refine ⟨k0, d, previous, rfl, hbars, rfl, ?_⟩
        unfold timeindex_start at hdate
        simp only [hdate, Option.some.injEq] at h
        rw [← h]
        rfl

theorem touchLast_flat (ah : CppMap Int (CppMap String ℚ)) (k : String)
    (h : flat_or_many ah) : flat_or_many (touchLast ah k) := by
  rcases h with h | ⟨k0, snapshot, rfl, h1, h2⟩
  · left
    rw [length_touchLast]
    exact h
  · right
    exact ⟨k0, CppMap.touch snapshot k, rfl, by rw [CppMap.valAt_touch]; exact h1,
      by rw [CppMap.valAt_touch]; exact h2⟩

theorem setIn_flat (ah : CppMap Int (CppMap String ℚ)) (d : Int) (j : String) (v : ℚ)
    (hj1 : j ≠ "returns") (hj2 : j ≠ "equitycurve") (h : flat_or_many ah) :
    flat_or_many (setIn ah d j v) := by
  rcases h with h | ⟨k0, snapshot, rfl, h1, h2⟩
  · left
    exact le_trans h (length_setIn_ge ah d j v)
  · unfold setIn
    unfold CppMap.insert
    by_cases hless : KeyOrder.less d k0 = true
    · left
      simp [hless]
    · by_cases hk : d = k0
      · right
        subst hk
        refine ⟨d, CppMap.insert snapshot j v, ?_, ?_, ?_⟩
        · simp [hless, CppMap.valAt, CppMap.find]
        · rw [CppMap.valAt_insert_ne _ _ _ _ (Ne.symm hj1)]
          exact h1
        · rw [CppMap.valAt_insert_ne _ _ _ _ (Ne.symm hj2)]
          exact h2
      · left
        simp [hless, hk, CppMap.insert]

theorem foldl_loop_flat (bars : BarProvider) (l : List String)
    (hl : ∀ s ∈ l, s ≠ "returns" ∧ s ≠ "equitycurve") :
    ∀ st : TimeindexLoop, flat_or_many st.all_holdings →
      flat_or_many (l.foldl (loop_step bars) st).all_holdings := by
  induction l with
  | nil =>
    intro st h
    exact h
  | cons s rest ih =>
    intro st h
    simp only [List.foldl_cons]
    apply ih (fun x hx => hl x (List.mem_cons_of_mem _ hx))
    cases hb : bars s with
    | none =>
      simp only [loop_step, hb]
      exact h
    | some bar =>
      simp only [loop_step, hb]
      exact setIn_flat _ _ _ _ (hl s (List.mem_cons_self _ _)).1
        (hl s (List.mem_cons_self _ _)).2 h

theorem finish_flat (p : NaivePortfolio) (previous : CppMap String ℚ) (st : TimeindexLoop)
    (d : Int) (h : flat_or_many st.all_holdings) :
    flat_or_many (timeindex_finish p previous st d).all_holdings := by
  have h3 : flat_or_many
      (setIn (setIn (setIn st.all_holdings d "totalholdings"
          (CppMap.valAt p.current_holdings "heldcash" + st.sumvalues)) d "heldcash"
          (CppMap.valAt (CppMap.touch p.current_holdings "heldcash") "heldcash")) d "commission"
          (CppMap.valAt (CppMap.touch p.current_holdings "heldcash") "commission")) :=
    setIn_flat _ _ _ _ (by decide) (by decide)
      (setIn_flat _ _ _ _ (by decide) (by decide)
        (setIn_flat _ _ _ _ (by decide) (by decide) h))
  unfold timeindex_finish
  simp only []
  split_ifs with hlen
  · left
    exact le_trans hlen (le_trans (length_setIn_ge _ _ _ _) (length_setIn_ge _ _ _ _))
  · exact h3

theorem construct_flat (symbol_list : List String) (start_date : Int) (initial_capital : ℚ) :
    flat_or_many (NaivePortfolio.construct symbol_list start_date initial_capital).all_holdings := by
  right
  refine ⟨start_date, _, rfl, ?_, ?_⟩
  · simp [CppMap.valAt_insert_self, CppMap.valAt_insert_ne]
  · simp [CppMap.valAt_insert_self, CppMap.valAt_insert_ne]

theorem step_flat (symbols : List String)
    (hsym : ∀ s ∈ symbols, s ≠ "returns" ∧ s ≠ "equitycurve")
    (s s1 : NaivePortfolio × List Event) (op : Op) (hstep : step s op = some s1)
    (hl : s.1.symbol_list = symbols) (h : flat_or_many s.1.all_holdings) :
    s1.1.symbol_list = symbols ∧ flat_or_many s1.1.all_holdings := by
  cases op with
  | fill bars f =>
    simp only [step, Option.map_eq_some'] at hstep
    obtain ⟨p1, hp1, rfl⟩ := hstep
    obtain ⟨h1, _, _, _, h5⟩ := update_fill_frame s.1 p1 bars f hp1
    exact ⟨h1.trans hl, by rw [h5]; exact h⟩
  | timeindex bars =>
    simp only [step, Option.map_eq_some'] at hstep
    obtain ⟨p1, hp1, rfl⟩ := hstep
    obtain ⟨k0, d, previous, _, _, _, rfl⟩ := update_timeindex_some s.1 p1 bars hp1
    refine ⟨(finish_live s.1 previous _ d).2.2.1.trans hl, ?_⟩
    apply finish_flat
    apply foldl_loop_flat bars s.1.symbol_list (by rw [hl]; exact hsym)
    exact touchLast_flat _ _ (touchLast_flat _ _ h)
  | signal sig =>
    obtain ⟨p1, ev1⟩ := s1
    have := generate_naive_order_ledger s.1 p1 s.2 ev1 sig hstep
    subst this
    exact ⟨hl, h⟩

theorem run_flat (symbols : List String)
    (hsym : ∀ s ∈ symbols, s ≠ "returns" ∧ s ≠ "equitycurve") (ops : List Op) :
    ∀ s s1 : NaivePortfolio × List Event, run s ops = some s1 →
      s.1.symbol_list = symbols → flat_or_many s.1.all_holdings →
      flat_or_many s1.1.all_holdings := by
  induction ops with
  | nil =>
    intro s s1 hrun _ h
    simp only [run, Option.some.injEq] at hrun
    subst hrun
    exact h
  | cons op rest ih =>
    intro s s1 hrun hl h
    cases hstep : step s op with
    | none => simp [run, hstep] at hrun
    | some s2 =>
      simp only [run, hstep] at hrun
      obtain ⟨hl2, h2⟩ := step_flat symbols hsym s s2 op hstep hl h
      exact ih s2 s1 hrun hl2 h2

/-- C9, as stated, fails: on a ledger whose symbol is named "returns", a BUY of 1
followed by a bar close at start_date (close 50) leaves a history of exactly one
snapshot whose returns field is 50. -/
theorem single_snapshot_returns_symbol_counterexample :
    (run (NaivePortfolio.construct ["returns"] 0 100000, [])
        [Op.fill bars_at_start
            { symbol := "returns", direction := "BUY", quantity := 1, commission := 0 },
          Op.timeindex bars_at_start]).map
        (fun s => s.1.all_holdings.map (fun e => (e.1, CppMap.valAt e.2 "returns")))
      = some [(0, 50)] := by
  decide!

/-- C9 (amended): in every state reachable from a freshly constructed portfolio,
none of whose symbols is named "returns" or "equitycurve", by any sequence of
update_fill, update_timeindex and update_signal calls, a holdings history of
exactly one snapshot has returns == 0 and equitycurve == 0 in that snapshot. -/
theorem single_snapshot_flat (symbol_list : List String) (start_date : Int)
    (initial_capital : ℚ) (events : List Event) (ops : List Op)
    (hsym : ∀ x ∈ symbol_list, x ≠ "returns" ∧ x ≠ "equitycurve")
    (s : NaivePortfolio × List Event)
    (hrun : run (NaivePortfolio.construct symbol_list start_date initial_capital, events) ops
      = some s)
    (k : Int) (snapshot : CppMap String ℚ) (hone : s.1.all_holdings = [(k, snapshot)]) :
    CppMap.valAt snapshot "returns" = 0 ∧ CppMap.valAt snapshot "equitycurve" = 0 := by
  have h := run_flat symbol_list hsym ops _ s hrun rfl
    (construct_flat symbol_list start_date initial_capital)
  rcases h with h | ⟨k1, snapshot1, h0, h1, h2⟩
  · rw [hone] at h
    simp at h
  · rw [hone] at h0
    simp only [List.cons.injEq, Prod.mk.injEq, and_true] at h0
    obtain ⟨_, rfl⟩ := h0
    exact ⟨h1, h2⟩

/-- C9 (amended), at a bar close whose timestamp equals start_date: the history
keeps its single snapshot, with returns and equitycurve 0. -/
theorem single_snapshot_flat_witness :
    ∃ s k snapshot,
      run (NaivePortfolio.construct ["SPY"] 0 100000, []) [Op.timeindex bars_at_start] = some s ∧
      s.1.all_holdings = [(k, snapshot)] ∧
      CppMap.valAt snapshot "returns" = 0 ∧ CppMap.valAt snapshot "equitycurve" = 0 := by
  cases hrun : run (NaivePortfolio.construct ["SPY"] 0 100000, [])
      [Op.timeindex bars_at_start] with
  | none =>
    have hsome : (run (NaivePortfolio.construct ["SPY"] 0 100000, [])
        [Op.timeindex bars_at_start]).isSome = true := by decide!
    rw [hrun] at hsome
    exact absurd hsome (by simp)
  | some s =>
    have hlen : (run (NaivePortfolio.construct ["SPY"] 0 100000, [])
        [Op.timeindex bars_at_start]).map (fun x => x.1.all_holdings.length) = some 1 := by
      decide!
    rw [hrun] at hlen
    simp only [Option.map_some', Option.some.injEq] at hlen
    obtain ⟨e, he⟩ := List.length_eq_one.mp hlen
    exact ⟨s, e.1, e.2, rfl, he,
      single_snapshot_flat ["SPY"] 0 100000 [] [Op.timeindex bars_at_start]
        (by
          intro x hx
          simp only [List.mem_singleton] at hx
          subst hx
          decide)
        s hrun e.1 e.2 he⟩

/-! ## Bar close at a later timestamp: the history grows at its end -/

theorem insert_end (d : Int) (v : CppMap String ℚ) :
    ∀ m : CppMap Int (CppMap String ℚ), (∀ e ∈ m, e.1 < d) →
      CppMap.insert m d v = m ++ [(d, v)]
  | [], _ => rfl
  | (k1, v1) :: rest, h => by
    have hk : k1 < d := h (k1, v1) (List.mem_cons_self _ _)
    have ih := insert_end d v rest (fun e he => h e (List.mem_cons_of_mem _ he))
    have h1 : ¬ d < k1 := not_lt.mpr (le_of_lt hk)
    have h2 : d ≠ k1 := ne_of_gt hk
    simp [CppMap.insert, KeyOrder.less, h1, h2, ih]

theorem insert_last (d : Int) (x v : CppMap String ℚ) :
    ∀ m : CppMap Int (CppMap String ℚ), (∀ e ∈ m, e.1 < d) →
      CppMap.insert (m ++ [(d, x)]) d v = m ++ [(d, v)]
  | [], _ => by simp [CppMap.insert, KeyOrder.less]
  | (k1, v1) :: rest, h => by
    have hk : k1 < d := h (k1, v1) (List.mem_cons_self _ _)
    have ih := insert_last d x v rest (fun e he => h e (List.mem_cons_of_mem _ he))
    have h1 : ¬ d < k1 := not_lt.mpr (le_of_lt hk)
    have h2 : d ≠ k1 := ne_of_gt hk
    simp [CppMap.insert, KeyOrder.less, h1, h2, ih]

theorem find_end_none (d : Int) :
    ∀ m : CppMap Int (CppMap String ℚ), (∀ e ∈ m, e.1 < d) → CppMap.find m d = none
  | [], _ => rfl
  | (k1, v1) :: rest, h => by
    have hk : k1 < d := h (k1, v1) (List.mem_cons_self _ _)
    have ih := find_end_none d rest (fun e he => h e (List.mem_cons_of_mem _ he))
    simp [CppMap.find, ne_of_gt hk, ih]

theorem find_last (d : Int) (x : CppMap String ℚ) :
    ∀ m : CppMap Int (CppMap String ℚ), (∀ e ∈ m, e.1 < d) →
      CppMap.find (m ++ [(d, x)]) d = some x
  | [], _ => by simp [CppMap.find]
  | (k1, v1) :: rest, h => by
    have hk : k1 < d := h (k1, v1) (List.mem_cons_self _ _)
    have ih := find_last d x rest (fun e he => h e (List.mem_cons_of_mem _ he))
    simp [CppMap.find, ne_of_gt hk, ih]

theorem setIn_end (m : CppMap Int (CppMap String ℚ)) (d : Int) (j : String) (v : ℚ)
    (h : ∀ e ∈ m, e.1 < d) : setIn m d j v = m ++ [(d, CppMap.insert [] j v)] := by
  unfold setIn
  rw [insert_end d _ m h]
  simp [CppMap.valAt, find_end_none d m h]
  rfl

theorem setIn_last (m : CppMap Int (CppMap String ℚ)) (d : Int) (x : CppMap String ℚ)
    (j : String) (v : ℚ) (h : ∀ e ∈ m, e.1 < d) :
    setIn (m ++ [(d, x)]) d j v = m ++ [(d, CppMap.insert x j v)] := by
  unfold setIn
  rw [insert_last d x _ m h]
  simp [CppMap.valAt, find_last d x m h]

theorem setIn_ends (m0 ah : CppMap Int (CppMap String ℚ)) (d : Int) (j : String) (v : ℚ)
    (hlt : ∀ e ∈ m0, e.1 < d) (h : ah = m0 ∨ ends_at m0 d ah) :
    ends_at m0 d (setIn ah d j v) := by
  rcases h with rfl | ⟨x, rfl⟩
  · exact ⟨_, setIn_end _ d j v hlt⟩
  · exact ⟨_, setIn_last m0 d x j v hlt⟩

theorem foldl_loop_ends_keep (bars : BarProvider) (m0 : CppMap Int (CppMap String ℚ)) (d : Int)
    (hlt : ∀ e ∈ m0, e.1 < d) (l : List String) :
    ∀ st : TimeindexLoop, bars_at bars l d → ends_at m0 d st.all_holdings →
      ends_at m0 d (l.foldl (loop_step bars) st).all_holdings := by
  induction l with
  | nil =>
    intro st _ h
    exact h
  | cons s rest ih =>
    intro st hb h
    obtain ⟨bar, hbar, hd⟩ := hb s (List.mem_cons_self _ _)
    simp only [List.foldl_cons]
    apply ih _ (bars_at_tail hb)
    rw [loop_step_at bars st s bar hbar, hd]
    exact setIn_ends m0 _ d s _ hlt (Or.inr h)

theorem foldl_loop_ends (bars : BarProvider) (m0 : CppMap Int (CppMap String ℚ)) (d : Int)
    (hlt : ∀ e ∈ m0, e.1 < d) (l : List String) (st : TimeindexLoop) (hb : bars_at bars l d)
    (hl : l ≠ []) (h : st.all_holdings = m0) :
    ends_at m0 d (l.foldl (loop_step bars) st).all_holdings := by
  cases l with
  | nil => exact absurd rfl hl
  | cons s rest =>
    obtain ⟨bar, hbar, hd⟩ := hb s (List.mem_cons_self _ _)
    simp only [List.foldl_cons]
    apply foldl_loop_ends_keep bars m0 d hlt rest _ (bars_at_tail hb)
    rw [loop_step_at bars st s bar hbar, hd]
    exact setIn_ends m0 _ d s _ hlt (Or.inl h)

theorem finish_ends (p : NaivePortfolio) (previous : CppMap String ℚ) (st : TimeindexLoop)
    (m0 : CppMap Int (CppMap String ℚ)) (d : Int) (hlt : ∀ e ∈ m0, e.1 < d)
    (h : ends_at m0 d st.all_holdings) :
    ends_at m0 d (timeindex_finish p previous st d).all_holdings := by
  obtain ⟨x, hx⟩ := h
  unfold timeindex_finish
  simp only [hx]
  split_ifs
  · simp only [setIn_last m0 d _ _ _ hlt]
    exact ⟨_, rfl⟩
  · simp only [setIn_last m0 d _ _ _ hlt]
    exact ⟨_, rfl⟩

/-! ## Reachable histories: the equity curve -/

theorem curve_rows_touchLast (k : String) :
    ∀ m : CppMap Int (CppMap String ℚ), curve_rows (touchLast m k) = curve_rows m
  | [] => rfl
  | [(d, snapshot)] => by
    simp [curve_rows, touchLast, CppMap.valAt_touch]
  | e :: e1 :: rest => by
    have ih := curve_rows_touchLast k (e1 :: rest)
    simp only [curve_rows, touchLast, List.map_cons] at ih ⊢
    rw [ih]

theorem mem_touchLast_key (k : String) (e : Int × CppMap String ℚ)
    (m : CppMap Int (CppMap String ℚ)) (he : e ∈ touchLast m k) :
    ∃ e0 ∈ m, e0.1 = e.1 := by
  have h1 : e.1 ∈ CppMap.keys (touchLast m k) := List.mem_map_of_mem Prod.fst he
  rw [keys_touchLast] at h1
  obtain ⟨e0, he0, h0⟩ := List.mem_map.mp h1
  exact ⟨e0, he0, h0⟩

theorem curve_ok_append (rows : List (Int × ℚ × ℚ)) (d : Int) (E R : ℚ)
    (lastrow : Int × ℚ × ℚ) (hok : curve_ok rows) (hlt : ∀ r ∈ rows, r.1 < d)
    (hlast : rows.getLast? = some lastrow) (hE : E = (lastrow.2.1 + 1) * (1 + R) - 1) :
    curve_ok (rows ++ [(d, E, R)]) := by
  obtain ⟨hsorted, ⟨first, rest, hrows, hfirst⟩, hchain⟩ := hok
  refine ⟨?_, ⟨first, rest ++ [(d, E, R)], by rw [hrows]; rfl, hfirst⟩, ?_⟩
  · rw [List.map_append, List.pairwise_append]
    refine ⟨hsorted, by simp, ?_⟩
    intro a ha b hb
    obtain ⟨r, hr, rfl⟩ := List.mem_map.mp ha
    simp only [List.map_cons, List.map_nil, List.mem_singleton] at hb
    rw [hb]
    exact hlt r hr
  · apply List.Chain'.append hchain (List.chain'_singleton _)
    intro x hx y hy
    rw [hlast] at hx
    simp only [Option.mem_def, Option.some.injEq] at hx
    simp only [List.head?_cons, Option.mem_def, Option.some.injEq] at hy
    subst hx
    subst hy
    exact hE

theorem timeindex_rows (p p1 : NaivePortfolio) (bars : BarProvider) (d : Int)
    (h : update_timeindex p bars = some p1) (hb : bars_at bars p.symbol_list d)
    (hlt : ∀ e ∈ p.all_holdings, e.1 < d) :
    ∃ (k0 : Int) (previous : CppMap String ℚ) (R : ℚ),
      p.all_holdings.getLast? = some (k0, previous) ∧
      curve_rows p1.all_holdings
        = curve_rows p.all_holdings
          ++ [(d, (CppMap.valAt previous "equitycurve" + 1) * (1 + R) - 1, R)] := by
  obtain ⟨k0, d1, previous, hlast, _, hdate, rfl⟩ := update_timeindex_some p p1 bars h
  have hl : p.symbol_list ≠ [] := by
    intro hnil
    rw [hnil] at hdate
    simp [timeindex_start] at hdate
  rw [foldl_loop_date bars p.symbol_list d (timeindex_start p) hb hl] at hdate
  simp only [Option.some.injEq] at hdate
  subst hdate
  have hm0 : ∀ e ∈ (timeindex_start p).all_holdings, e.1 < d := by
    intro e he
    obtain ⟨e1, he1, h1⟩ := mem_touchLast_key _ e _ he
    obtain ⟨e2, he2, h2⟩ := mem_touchLast_key _ e1 _ he1
    rw [← h1, ← h2]
    exact hlt e2 he2
  have hends := foldl_loop_ends bars (timeindex_start p).all_holdings d hm0 p.symbol_list
    (timeindex_start p) hb hl rfl
  have hlen : 1 < (p.symbol_list.foldl (loop_step bars) (timeindex_start p)).all_holdings.length := by
    obtain ⟨x, hx⟩ := hends
    rw [hx]
    have h0 : (timeindex_start p).all_holdings.length = p.all_holdings.length := by
      simp [timeindex_start, length_touchLast]
    have h1 : p.all_holdings ≠ [] := by
      intro hnil
      rw [hnil] at hlast
      simp at hlast
    have h2 : 0 < p.all_holdings.length := List.length_pos.mpr h1
    simp only [List.length_append, List.length_singleton]
    omega
  obtain ⟨x, hx⟩ := finish_ends p previous _ _ d hm0 hends
  obtain ⟨hR, hE⟩ := finish_returns p previous
    (p.symbol_list.foldl (loop_step bars) (timeindex_start p)) d hlen
  have hval : CppMap.valAt (timeindex_finish p previous
      (p.symbol_list.foldl (loop_step bars) (timeindex_start p)) d).all_holdings d = x := by
    rw [hx]
    simp [CppMap.valAt, find_last d x _ hm0]
  rw [hval] at hR hE
  refine ⟨k0, previous, CppMap.valAt x "returns", hlast, ?_⟩
  rw [hx]
  simp only [curve_rows, List.map_append, List.map_cons, List.map_nil]
  have hrows : List.map
      (fun e : Int × CppMap String ℚ =>
        (e.1, CppMap.valAt e.2 "equitycurve", CppMap.valAt e.2 "returns"))
      (timeindex_start p).all_holdings = curve_rows p.all_holdings := by
    have := curve_rows_touchLast "equitycurve" (touchLast p.all_holdings "totalholdings")
    rw [curve_rows_touchLast "totalholdings" p.all_holdings] at this
    exact this
  rw [hrows]
  congr 1
  simp only [List.cons.injEq, Prod.mk.injEq, and_true, true_and]
  rw [hE, hR]
  ring

theorem construct_curve_ok (symbol_list : List String) (start_date : Int)
    (initial_capital : ℚ) :
    curve_ok (curve_rows
      (NaivePortfolio.construct symbol_list start_date initial_capital).all_holdings) := by
  refine ⟨by simp [curve_rows, NaivePortfolio.construct, construct_all_holdings, CppMap.insert],
    ⟨_, [], rfl, ?_⟩, by simp [curve_rows, NaivePortfolio.construct, construct_all_holdings,
      CppMap.insert]⟩
  simp [CppMap.valAt_insert_self]

theorem run_curve_ok (symbols : List String) (ops : List Op) :
    ∀ (last : Int) (s s1 : NaivePortfolio × List Event), run s ops = some s1 →
      s.1.symbol_list = symbols → curve_ok (curve_rows s.1.all_holdings) →
      (∀ r ∈ curve_rows s.1.all_holdings, r.1 ≤ last) → ascending_closes symbols last ops →
      curve_ok (curve_rows s1.1.all_holdings) := by
  induction ops with
  | nil =>
    intro last s s1 hrun _ hok _ _
    simp only [run, Option.some.injEq] at hrun
    subst hrun
    exact hok
  | cons op rest ih =>
    intro last s s1 hrun hl hok hle hasc
    cases hstep : step s op with
    | none => simp [run, hstep] at hrun
    | some s2 =>
      simp only [run, hstep] at hrun
      cases op with
      | fill bars f =>
        simp only [step, Option.map_eq_some'] at hstep
        obtain ⟨p1, hp1, rfl⟩ := hstep
        obtain ⟨h1, _, _, _, h5⟩ := update_fill_frame s.1 p1 bars f hp1
        exact ih last (p1, s.2) s1 hrun (h1.trans hl) (by rw [h5]; exact hok)
          (by rw [h5]; exact hle) hasc
      | signal sig =>
        obtain ⟨p1, ev1⟩ := s2
        have := generate_naive_order_ledger s.1 p1 s.2 ev1 sig hstep
        subst this
        exact ih last _ s1 hrun hl hok hle hasc
      | timeindex bars =>
        simp only [step, Option.map_eq_some'] at hstep
        obtain ⟨p1, hp1, rfl⟩ := hstep
        obtain ⟨d, hd, hb, hrest⟩ := hasc
        have hlt : ∀ e ∈ s.1.all_holdings, e.1 < d := by
          intro e he
          have hr : (e.1, CppMap.valAt e.2 "equitycurve", CppMap.valAt e.2 "returns")
              ∈ curve_rows s.1.all_holdings :=
            List.mem_map_of_mem
              (fun e : Int × CppMap String ℚ =>
                (e.1, CppMap.valAt e.2 "equitycurve", CppMap.valAt e.2 "returns")) he
          exact lt_of_le_of_lt (hle _ hr) hd
        have hrowlt : ∀ r ∈ curve_rows s.1.all_holdings, r.1 < d :=
          fun r hr => lt_of_le_of_lt (hle r hr) hd
        obtain ⟨k0, previous, R, hlast, hrows⟩ :=
          timeindex_rows s.1 p1 bars d hp1 (by rw [hl]; exact hb) hlt
        have hlastrow : (curve_rows s.1.all_holdings).getLast?
            = some (k0, CppMap.valAt previous "equitycurve", CppMap.valAt previous "returns") := by
          simp [curve_rows, List.getLast?_map, hlast]
        have hok1 : curve_ok (curve_rows p1.all_holdings) := by
          rw [hrows]
          exact curve_ok_append _ d _ R _ hok hrowlt hlastrow rfl
        have hle1 : ∀ r ∈ curve_rows p1.all_holdings, r.1 ≤ d := by
          intro r hr
          rw [hrows, List.mem_append] at hr
          rcases hr with hr | hr
          · exact le_of_lt (hrowlt r hr)
          · simp only [List.mem_singleton] at hr
            rw [hr]
        obtain ⟨_, _, previous1, _, _, _, hp1eq⟩ := update_timeindex_some s.1 p1 bars hp1
        have hl1 : p1.symbol_list = symbols := by
          rw [hp1eq]
          exact (finish_live s.1 previous1 _ _).2.2.1.trans hl
        exact ih d (p1, s.2) s1 hrun hl1 hok1 hle1 hrest

/-- C8, as stated, fails.  After a BUY of 10 at close 50 with commission 1 and a
bar close whose bar is dated -1, before start_date 0, the history read in
ascending timestamp order starts with the snapshot at -1, whose equitycurve is
-1/100000, not 0.  And after that BUY and two bar closes that both carry the
timestamp 1 (closes 50 and 60), the entry at 1 has returns 100/99999 and
equitycurve 99/100000, while the entry before it has equitycurve 0: the
recurrence would give 100/99999.  Rows are (timestamp, equitycurve, returns). -/
theorem equity_curve_early_bar_counterexample :
    (run (ledger_spy, [])
        [Op.fill bars_close_50
            { symbol := "SPY", direction := "BUY", quantity := 10, commission := 1 },
          Op.timeindex bars_before_start]).map (fun s => curve_rows s.1.all_holdings)
      = some [(-1, -1 / 100000, -1 / 100000), (0, 0, 0)] ∧
    (run (ledger_spy, [])
        [Op.fill bars_close_50
            { symbol := "SPY", direction := "BUY", quantity := 10, commission := 1 },
          Op.timeindex bars_close_50, Op.timeindex bars_close_60_at_1]).map
        (fun s => curve_rows s.1.all_holdings)
      = some [(0, 0, 0), (1, 99 / 100000, 100 / 99999)] := by
  decide!

/-- C8 (amended): for every holdings history reachable from a freshly constructed
portfolio by a sequence of update_fill, update_signal and update_timeindex calls
in which every update_timeindex finds one timestamp shared by the most recent
bars of all symbols, strictly later than start_date and than the timestamp of
the update_timeindex before it, and in which every snapshot that has a later
one has totalholdings non-zero (the divisor of the returns of the later one):
the timestamps of the history ascend, the first entry has equitycurve == 0, and
every entry t after the first has
equitycurve_t == (equitycurve_{t-1} + 1) * (1 + returns_t) - 1, where t-1 is the
entry immediately before t. -/
theorem equity_curve_recurrence (symbol_list : List String) (start_date : Int)
    (initial_capital : ℚ) (events : List Event) (ops : List Op)
    (hasc : ascending_closes symbol_list start_date ops) (s : NaivePortfolio × List Event)
    (hrun : run (NaivePortfolio.construct symbol_list start_date initial_capital, events) ops
      = some s)
    (_hnz : ∀ e ∈ s.1.all_holdings.dropLast, CppMap.valAt e.2 "totalholdings" ≠ 0) :
    List.Pairwise (fun a b => a < b) (CppMap.keys s.1.all_holdings) ∧
      (∃ first rest, s.1.all_holdings = first :: rest ∧
        CppMap.valAt first.2 "equitycurve" = 0) ∧
      List.Chain'
        (fun a b =>
          CppMap.valAt b.2 "equitycurve"
            = (CppMap.valAt a.2 "equitycurve" + 1) * (1 + CppMap.valAt b.2 "returns") - 1)
        s.1.all_holdings := by
  have hok := run_curve_ok symbol_list ops start_date _ s hrun rfl
    (construct_curve_ok symbol_list start_date initial_capital)
    (by
      intro r hr
      simp only [curve_rows, NaivePortfolio.construct, construct_all_holdings, CppMap.insert,
        List.map_cons, List.map_nil, List.mem_singleton] at hr
      rw [hr])
    hasc
  obtain ⟨hsorted, ⟨first, rest, hrows, hfirst⟩, hchain⟩ := hok
  refine ⟨?_, ?_, ?_⟩
  · simpa [curve_rows, CppMap.keys, List.map_map, Function.comp] using hsorted
  · cases hah : s.1.all_holdings with
    | nil =>
      rw [hah] at hrows
      simp [curve_rows] at hrows
    | cons e tail =>
      rw [hah] at hrows
      simp only [curve_rows, List.map_cons, List.cons.injEq] at hrows
      refine ⟨e, tail, rfl, ?_⟩
      rw [← hrows.1] at hfirst
      exact hfirst
  · exact (List.chain'_map _).mp hchain

/-- C8 (amended), at a BUY of 10 SPY followed by bar closes at times 1 and 2:
the three snapshots have non-zero totalholdings, and the recurrence holds along
the history. -/
theorem equity_curve_recurrence_witness :
    ∃ s, run (NaivePortfolio.construct ["SPY"] 0 100000, [])
        [Op.fill bars_close_50
            { symbol := "SPY", direction := "BUY", quantity := 10, commission := 1 },
          Op.timeindex bars_close_50, Op.timeindex bars_close_60] = some s ∧
      (∀ e ∈ s.1.all_holdings, CppMap.valAt e.2 "totalholdings" ≠ 0) ∧
      s.1.all_holdings.length = 3 ∧
      List.Pairwise (fun a b => a < b) (CppMap.keys s.1.all_holdings) ∧
      (∃ first rest, s.1.all_holdings = first :: rest ∧
        CppMap.valAt first.2 "equitycurve" = 0) ∧
      List.Chain'
        (fun a b =>
          CppMap.valAt b.2 "equitycurve"
            = (CppMap.valAt a.2 "equitycurve" + 1) * (1 + CppMap.valAt b.2 "returns") - 1)
        s.1.all_holdings := by
  cases hrun : run (NaivePortfolio.construct ["SPY"] 0 100000, [])
      [Op.fill bars_close_50
          { symbol := "SPY", direction := "BUY", quantity := 10, commission := 1 },
        Op.timeindex bars_close_50, Op.timeindex bars_close_60] with
  | none =>
    have hsome : (run (NaivePortfolio.construct ["SPY"] 0 100000, [])
        [Op.fill bars_close_50
            { symbol := "SPY", direction := "BUY", quantity := 10, commission := 1 },
          Op.timeindex bars_close_50, Op.timeindex bars_close_60]).isSome = true := by decide!
    rw [hrun] at hsome
    exact absurd hsome (by simp)
  | some s =>
    have hlen : (run (NaivePortfolio.construct ["SPY"] 0 100000, [])
        [Op.fill bars_close_50
            { symbol := "SPY", direction := "BUY", quantity := 10, commission := 1 },
          Op.timeindex bars_close_50, Op.timeindex bars_close_60]).map
        (fun x => x.1.all_holdings.length) = some 3 := by decide!
    rw [hrun] at hlen
    simp only [Option.map_some', Option.some.injEq] at hlen
    have hnz : (run (NaivePortfolio.construct ["SPY"] 0 100000, [])
        [Op.fill bars_close_50
            { symbol := "SPY", direction := "BUY", quantity := 10, commission := 1 },
          Op.timeindex bars_close_50, Op.timeindex bars_close_60]).map
        (fun x => decide (∀ e ∈ x.1.all_holdings, CppMap.valAt e.2 "totalholdings" ≠ 0))
        = some true := by decide!
    rw [hrun] at hnz
    simp only [Option.map_some', Option.some.injEq, decide_eq_true_eq] at hnz
    exact ⟨s, rfl, hnz, hlen,
      equity_curve_recurrence ["SPY"] 0 100000 []
        [Op.fill bars_close_50
            { symbol := "SPY", direction := "BUY", quantity := 10, commission := 1 },
          Op.timeindex bars_close_50, Op.timeindex bars_close_60]
        ⟨1, by decide, fun _ _ => ⟨_, rfl, rfl⟩, 2, by decide, fun _ _ => ⟨_, rfl, rfl⟩,
          trivial⟩
        s hrun (fun e he => hnz e (List.mem_of_mem_dropLast he))⟩

/-! ## A signal: its effect on the ledger -/

/-- C12, as stated, fails: a LONG signal for the symbol AAPL, which is not in the
symbol list of a fresh ledger on SPY, adds the key AAPL (with position 0) to
current_positions. -/
theorem signal_unknown_symbol_counterexample :
    ledger_spy.current_positions = [("SPY", 0)] ∧
      (generate_naive_order ledger_spy []
          { symbol := "AAPL", signal_type := "LONG", strength := 1 }).map
          (fun s => s.1.current_positions)
        = some [("AAPL", 0), ("SPY", 0)] := by
  decide!

/-- C12 (amended): for every signal, also one whose symbol is not in the symbol
list, every outcome of `generate_naive_order` (update_signal) leaves
current_holdings, all_positions and all_holdings the same, and current_positions
reads the same value at every symbol; current_positions itself is the same map
when the signal's symbol was a key of it, and otherwise has gained that symbol
as a key with position 0 (the read `current_positions[symbol]`). -/
theorem generate_naive_order_frame (p p1 : NaivePortfolio) (events events1 : List Event)
    (signal : SignalEvent) (h : update_signal p events signal = some (p1, events1)) :
    p1.current_holdings = p.current_holdings ∧ p1.all_positions = p.all_positions ∧
      p1.all_holdings = p.all_holdings ∧
      (∀ j, CppMap.valAt p1.current_positions j = CppMap.valAt p.current_positions j) ∧
      (∀ v, CppMap.find p.current_positions signal.symbol = some v →
        p1.current_positions = p.current_positions) ∧
      (CppMap.find p.current_positions signal.symbol = none →
        p1.current_positions = CppMap.insert p.current_positions signal.symbol 0) := by
  have hp1 := generate_naive_order_ledger p p1 events events1 signal h
  subst hp1
  refine ⟨rfl, rfl, rfl, ?_, ?_, ?_⟩
  · intro j
    exact CppMap.valAt_touch p.current_positions signal.symbol j
  · intro v hv
    simp [after_signal, CppMap.touch, hv]
  · intro hnone
    simp only [after_signal, CppMap.touch, hnone]
    rfl

/-- C12 (amended), at a LONG signal for SPY on a fresh ledger on SPY: the four
maps of the ledger are the same after the call. -/
theorem generate_naive_order_frame_witness :
    ∃ p1 events1,
      update_signal ledger_spy [] { symbol := "SPY", signal_type := "LONG", strength := 1 }
        = some (p1, events1) ∧
      p1.current_holdings = ledger_spy.current_holdings ∧
      p1.all_positions = ledger_spy.all_positions ∧
      p1.all_holdings = ledger_spy.all_holdings ∧
      p1.current_positions = ledger_spy.current_positions := by
  cases hrun : update_signal ledger_spy []
      { symbol := "SPY", signal_type := "LONG", strength := 1 } with
  | none =>
    have hsome : (update_signal ledger_spy []
        { symbol := "SPY", signal_type := "LONG", strength := 1 }).isSome = true := by decide!
    rw [hrun] at hsome
    exact absurd hsome (by simp)
  | some s =>
    obtain ⟨p1, events1⟩ := s
    obtain ⟨h1, h2, h3, _, h5, _⟩ := generate_naive_order_frame ledger_spy p1 [] events1
      { symbol := "SPY", signal_type := "LONG", strength := 1 } hrun
    exact ⟨p1, events1, rfl, h1, h2, h3, h5 0 (by decide!)⟩

/-! ## A fill of unknown direction -/

/-- C13, as stated, fails: a fill of direction "HOLD" with commission 1 on a
symbol named "commission" changes current_holdings[symbol] from 0 to 1, and a
fill on a symbol for which the provider has no bar is undefined. -/
theorem unknown_direction_counterexample :
    CppMap.valAt ledger_commission_symbol.current_holdings "commission" = 0 ∧
      (update_fill ledger_commission_symbol bars_close_50
          { symbol := "commission", direction := "HOLD", quantity := 10, commission := 1 }).map
          (fun p1 => CppMap.valAt p1.current_holdings "commission") = some 1 ∧
      update_fill ledger_spy bars_none
          { symbol := "SPY", direction := "HOLD", quantity := 10, commission := 1 } = none := by
  decide!

/-- C13 (amended): for every ledger state and every fill whose direction is
neither "BUY" nor "SELL", on a symbol other than the reserved keys heldcash,
commission and totalholdings for which the provider has a most recent bar,
`update_fill` returns a ledger (no error) in which current_positions[symbol]
and current_holdings[symbol] read the same values as before, the commission has
grown by the fill's commission, and heldcash and totalholdings have each
decreased by it. -/
theorem update_fill_unknown_direction (p : NaivePortfolio) (bars : BarProvider)
    (fill : FillEvent) (bar : Bar) (hbuy : fill.direction ≠ "BUY")
    (hsell : fill.direction ≠ "SELL") (hbar : bars fill.symbol = some bar)
    (hsym : fill.symbol ∉ reserved_keys) :
    ∃ p1, update_fill p bars fill = some p1 ∧
      CppMap.valAt p1.current_positions fill.symbol
        = CppMap.valAt p.current_positions fill.symbol ∧
      CppMap.valAt p1.current_holdings fill.symbol
        = CppMap.valAt p.current_holdings fill.symbol ∧
      CppMap.valAt p1.current_holdings "commission"
        = CppMap.valAt p.current_holdings "commission" + fill.commission ∧
      CppMap.valAt p1.current_holdings "heldcash"
        = CppMap.valAt p.current_holdings "heldcash" - fill.commission ∧
      CppMap.valAt p1.current_holdings "totalholdings"
        = CppMap.valAt p.current_holdings "totalholdings" - fill.commission := by
  obtain ⟨p1, h⟩ := update_fill_isSome p bars fill bar hbar
  have hpos := update_fill_position p p1 bars fill h
  obtain ⟨h1, h2, h3, h4⟩ := update_fill_holdings p p1 bars fill bar hbar hsym h
  have hdir : fill_dir fill.direction = 0 := by simp [fill_dir, hbuy, hsell]
  have hcost : fill_cost bar fill = 0 := by simp [fill_cost, hdir]
  refine ⟨p1, h, ?_, ?_, h2, ?_, ?_⟩
  · rw [hpos, hdir]
    simp
  · rw [h1, hcost]
    simp
  · rw [h3, hcost]
    simp
  · rw [h4, hcost]
    simp

/-- C13 (amended), at a fill of direction "HOLD" of 10 SPY with commission 1 on a
fresh ledger of capital 100000: position and holdings of SPY stay 0, the
commission is 1, heldcash and totalholdings are 99999. -/
theorem update_fill_unknown_direction_witness :
    ∃ p1, update_fill ledger_spy bars_close_50
        { symbol := "SPY", direction := "HOLD", quantity := 10, commission := 1 } = some p1 ∧
      CppMap.valAt p1.current_positions "SPY" = 0 ∧
      CppMap.valAt p1.current_holdings "SPY" = 0 ∧
      CppMap.valAt p1.current_holdings "commission" = 1 ∧
      CppMap.valAt p1.current_holdings "heldcash" = 99999 ∧
      CppMap.valAt p1.current_holdings "totalholdings" = 99999 := by
  obtain ⟨p1, h, h1, h2, h3, h4, h5⟩ :=
    update_fill_unknown_direction ledger_spy bars_close_50
      { symbol := "SPY", direction := "HOLD", quantity := 10, commission := 1 }
      { timestamp := 1, open_ := 50, high := 50, low := 50, close := 50 }
      (by decide) (by decide) rfl (by decide)
  have e1 : CppMap.valAt ledger_spy.current_positions "SPY" = 0 := by decide!
  have e2 : CppMap.valAt ledger_spy.current_holdings "SPY" = 0 := by decide!
  have e3 : CppMap.valAt ledger_spy.current_holdings "commission" = 0 := by decide!
  have e4 : CppMap.valAt ledger_spy.current_holdings "heldcash" = 100000 := by decide!
  have e5 : CppMap.valAt ledger_spy.current_holdings "totalholdings" = 100000 := by decide!
  refine ⟨p1, h, ?_, ?_, ?_, ?_, ?_⟩
  · rw [h1, e1]
  · rw [h2, e2]
  · rw [h3, e3]; norm_num
  · rw [h4, e4]; norm_num
  · rw [h5, e5]; norm_num

/-! ## Signals: the shape of an order, and an exit followed by its fill -/

theorem update_fill_other (p p1 : NaivePortfolio) (bars : BarProvider) (fill : FillEvent)
    (h : update_fill p bars fill = some p1) (j : String) (hj : j ≠ fill.symbol) :
    CppMap.find p1.current_positions j = CppMap.find p.current_positions j ∧
      (j ∉ reserved_keys →
        CppMap.find p1.current_holdings j = CppMap.find p.current_holdings j) := by
  obtain ⟨bar, hbar⟩ := update_fill_bar p p1 bars fill h
  simp only [update_fill, update_holdings_from_fill, update_positions_from_fill, hbar,
    Option.some.injEq] at h
  subst h
  refine ⟨CppMap.find_insert_ne _ _ _ _ hj, ?_⟩
  intro hres
  simp only [reserved_keys, List.mem_cons, List.mem_singleton, List.not_mem_nil, or_false,
    not_or] at hres
  obtain ⟨h1, h2, h3⟩ := hres
  simp only []
  rw [CppMap.find_insert_ne _ _ _ _ h3, CppMap.find_insert_ne _ _ _ _ h1,
    CppMap.find_insert_ne _ _ _ _ h2, CppMap.find_insert_ne _ _ _ _ hj]

/-- C14, as stated, fails: on the position -2^31 an EXIT signal of strength 1/2
appends an order whose quantity is abs(INT_MIN), that is INT_MIN: a BUY of the
negative quantity -2^31. -/
theorem order_quantity_counterexample :
    toInt32 (CppMap.valAt (ledger_with_position (-2147483648)).current_positions "SPY")
        = some (-2147483648) ∧
      (generate_naive_order (ledger_with_position (-2147483648)) []
        { symbol := "SPY", signal_type := "EXIT", strength := 1 / 2 }).map Prod.snd
        = some [mkt_order "SPY" (-2147483648) "BUY"] ∧
      ¬ (0 : Int) ≤ -2147483648 := by
  decide!

/-- C14 (amended): for every signal with strength in [0,1] and every ledger state
in which the current position of the symbol converts to an `int` n (n not being
INT_MIN on EXIT), `generate_naive_order` appends only orders that have
order_type "MKT", direction "BUY" or "SELL", the signal's symbol and a
non-negative integer quantity; for LONG and SHORT signals the quantity is
between 0 and 100 inclusive. -/
theorem generate_naive_order_order_shape (p : NaivePortfolio) (events : List Event)
    (signal : SignalEvent) (n : Int) (h0 : 0 ≤ signal.strength) (h1 : signal.strength ≤ 1)
    (hn : toInt32 (CppMap.valAt p.current_positions signal.symbol) = some n)
    (habs : ¬ (signal.signal_type = "EXIT" ∧ n = -2147483648)) :
    ∃ added, generate_naive_order p events signal
        = some (after_signal p signal, events ++ added) ∧
      ∀ e ∈ added, ∃ o, e = Event.order o ∧ o.order_type = "MKT" ∧
        (o.direction = "BUY" ∨ o.direction = "SELL") ∧ o.symbol = signal.symbol ∧
        0 ≤ o.quantity ∧
        (signal.signal_type = "LONG" ∨ signal.signal_type = "SHORT" → o.quantity ≤ 100) := by
  have hm := toInt32_floor_strength signal.strength h0 h1
  obtain ⟨hq0, hq1⟩ := floor_strength_bounds signal.strength h0 h1
  have e2 : ("EXIT" : String) ≠ "LONG" := by decide
  have e3 : ("EXIT" : String) ≠ "SHORT" := by decide
  rw [generate_naive_order_of_conversions p events signal _ n hm
    (toInt32_compiled_of_some _ _ hn)]
  by_cases c1 : signal.signal_type = "LONG" ∧ n = 0
  · refine ⟨[mkt_order signal.symbol ⌊mul64 100 signal.strength⌋ "BUY"], by rw [if_pos c1], ?_⟩
    intro e he
    simp only [List.mem_singleton] at he
    exact ⟨_, he, rfl, Or.inl rfl, rfl, hq0, fun _ => hq1⟩
  · rw [if_neg c1]
    by_cases c2 : signal.signal_type = "SHORT" ∧ n = 0
    · refine ⟨[mkt_order signal.symbol ⌊mul64 100 signal.strength⌋ "SELL"], by rw [if_pos c2], ?_⟩
      intro e he
      simp only [List.mem_singleton] at he
      exact ⟨_, he, rfl, Or.inr rfl, rfl, hq0, fun _ => hq1⟩
    · rw [if_neg c2]
      by_cases c3 : signal.signal_type = "EXIT" ∧ n > 0
      · have hmin : n ≠ -2147483648 := by omega
        refine ⟨[mkt_order signal.symbol |n| "SELL"],
          by rw [if_pos c3, abs_compiled_of_ne n hmin], ?_⟩
        intro e he
        simp only [List.mem_singleton] at he
        refine ⟨_, he, rfl, Or.inr rfl, rfl, abs_nonneg n, ?_⟩
        rintro (hd | hd)
        · exact absurd (c3.1.symm.trans hd) e2
        · exact absurd (c3.1.symm.trans hd) e3
      · rw [if_neg c3]
        by_cases c4 : signal.signal_type = "EXIT" ∧ n < 0
        · have hmin : n ≠ -2147483648 := fun hmin => habs ⟨c4.1, hmin⟩
          refine ⟨[mkt_order signal.symbol |n| "BUY"], ?_, ?_⟩
          · rw [if_pos c4, abs_compiled_of_ne n hmin]
          · intro e he
            simp only [List.mem_singleton] at he
            refine ⟨_, he, rfl, Or.inl rfl, rfl, abs_nonneg n, ?_⟩
            rintro (hd | hd)
            · exact absurd (c4.1.symm.trans hd) e2
            · exact absurd (c4.1.symm.trans hd) e3
        · rw [if_neg c4]
          exact ⟨[], by simp, by simp⟩

/-- C14 (amended), at a SHORT signal of strength 1/3 on a flat position: the
call appends to the queue, and what it appends is a market order to SELL SPY of
a quantity between 0 and 100. -/
theorem generate_naive_order_order_shape_witness :
    ∃ added, generate_naive_order ledger_spy []
        { symbol := "SPY", signal_type := "SHORT", strength := 1 / 3 }
        = some (after_signal ledger_spy
            { symbol := "SPY", signal_type := "SHORT", strength := 1 / 3 }, [] ++ added) ∧
      added = [mkt_order "SPY" 33 "SELL"] ∧
      ∀ e ∈ added, ∃ o, e = Event.order o ∧ o.order_type = "MKT" ∧
        (o.direction = "BUY" ∨ o.direction = "SELL") ∧ o.symbol = "SPY" ∧
        0 ≤ o.quantity ∧ o.quantity ≤ 100 := by
  obtain ⟨added, h, hall⟩ := generate_naive_order_order_shape ledger_spy []
    { symbol := "SPY", signal_type := "SHORT", strength := 1 / 3 } 0
    (by norm_num) (by norm_num) (by decide!) (by decide)
  have hval : generate_naive_order ledger_spy []
      { symbol := "SPY", signal_type := "SHORT", strength := 1 / 3 }
      = some (after_signal ledger_spy
          { symbol := "SPY", signal_type := "SHORT", strength := 1 / 3 },
        [] ++ [mkt_order "SPY" 33 "SELL"]) := by decide!
  rw [hval] at h
  simp only [Option.some.injEq, Prod.mk.injEq, true_and, List.nil_append] at h
  refine ⟨added, by rw [hval, ← h], h.symm, ?_⟩
  intro e he
  obtain ⟨o, ho, h1, h2, h3, h4, h5⟩ := hall e he
  exact ⟨o, ho, h1, h2, h3, h4, h5 (Or.inr rfl)⟩

/-- C17, as stated, fails: on the non-zero integer position -2^31 an EXIT signal
emits a BUY of -2^31 (abs(INT_MIN) is INT_MIN), and applying that order as a
fill leaves the position at -2^32, not at 0. -/
theorem exit_flatten_counterexample :
    (generate_naive_order (ledger_with_position (-2147483648)) []
        { symbol := "SPY", signal_type := "EXIT", strength := 0 }).map Prod.snd
      = some [mkt_order "SPY" (-2147483648) "BUY"] ∧
      (update_fill
          (after_signal (ledger_with_position (-2147483648))
            { symbol := "SPY", signal_type := "EXIT", strength := 0 })
          bars_close_50
          { symbol := "SPY", direction := "BUY", quantity := -2147483648, commission := 1 }).map
          (fun p => CppMap.valAt p.current_positions "SPY") = some (-4294967296) := by
  decide!

/-- C17 (amended): for every ledger state in which the position in s is a
non-zero integer n with -2^31 < n < 2^31, every EXIT signal for s, of any
strength, and every provider with a most recent bar for s: `generate_naive_order` emits exactly one order, and applying it as a
fill with the same symbol, direction and quantity (and any commission) via
`update_fill` gives a ledger in which current_positions[s] is exactly 0 and
every other symbol's position reads as before. -/
theorem exit_then_fill_flattens (p : NaivePortfolio) (events : List Event)
    (signal : SignalEvent) (bars : BarProvider) (bar : Bar) (commission : ℚ) (n : Int)
    (htype : signal.signal_type = "EXIT")
    (hpos : CppMap.valAt p.current_positions signal.symbol = (n : ℚ)) (hne : n ≠ 0)
    (hrange : -2147483648 < n ∧ n ≤ 2147483647)
    (hbar : bars signal.symbol = some bar) :
    ∃ o p1 p2, generate_naive_order p events signal = some (p1, events ++ [Event.order o]) ∧
      update_fill p1 bars
          { symbol := o.symbol, direction := o.direction, quantity := o.quantity,
            commission := commission } = some p2 ∧
      CppMap.valAt p2.current_positions signal.symbol = 0 ∧
      ∀ j, j ≠ signal.symbol →
        CppMap.valAt p2.current_positions j = CppMap.valAt p.current_positions j := by
  have hn : toInt32_compiled (CppMap.valAt p.current_positions signal.symbol) = n := by
    rw [hpos]
    exact toInt32_compiled_intCast n (le_of_lt hrange.1) hrange.2
  have e1 : ("EXIT" : String) ≠ "LONG" := by decide
  have e2 : ("EXIT" : String) ≠ "SHORT" := by decide
  have hmin : n ≠ -2147483648 := by omega
  have hgno : generate_naive_order p events signal
      = some (after_signal p signal,
          events ++ [mkt_order signal.symbol (abs n) (if n > 0 then "SELL" else "BUY")]) := by
    rw [generate_naive_order_of_conversions p events signal _ n rfl hn,
      abs_compiled_of_ne n hmin]
    by_cases hgt : n > 0
    · simp [htype, e1, e2, hgt, mkt_order]
    · have hlt : n < 0 := by omega
      simp [htype, e1, e2, hgt, hlt, mkt_order]
  obtain ⟨p2, hp2⟩ := update_fill_isSome (after_signal p signal) bars
    { symbol := signal.symbol, direction := if n > 0 then "SELL" else "BUY", quantity := abs n,
      commission := commission } bar hbar
  refine ⟨_, _, p2, hgno, hp2, ?_, ?_⟩
  · have hposition := update_fill_position _ p2 bars _ hp2
    simp only [after_signal, CppMap.valAt_touch] at hposition
    rw [hposition, hpos]
    by_cases hgt : n > 0
    · have e3 : ("SELL" : String) ≠ "BUY" := by decide
      simp [fill_dir, hgt, e3, abs_of_pos hgt]
    · have hlt : n < 0 := by omega
      simp [fill_dir, hgt, abs_of_neg hlt]
  · intro j hj
    have hother := (update_fill_other _ p2 bars _ hp2 j hj).1
    simp only [CppMap.valAt, hother, after_signal]
    exact CppMap.valAt_touch p.current_positions signal.symbol j

/-- C17 (amended), at the position -7 of SPY and an EXIT signal of strength
10^9: the signal emits one BUY of 7, and applying it leaves SPY flat. -/
theorem exit_then_fill_flattens_witness :
    ∃ o p1 p2, generate_naive_order (ledger_with_position (-7)) []
        { symbol := "SPY", signal_type := "EXIT", strength := 1000000000 }
        = some (p1, [] ++ [Event.order o]) ∧
      update_fill p1 bars_close_50
          { symbol := o.symbol, direction := o.direction, quantity := o.quantity,
            commission := 1 } = some p2 ∧
      CppMap.valAt p2.current_positions "SPY" = 0 := by
  obtain ⟨o, p1, p2, h1, h2, h3, _⟩ :=
    exit_then_fill_flattens (ledger_with_position (-7)) []
      { symbol := "SPY", signal_type := "EXIT", strength := 1000000000 } bars_close_50
      { timestamp := 1, open_ := 50, high := 50, low := 50, close := 50 } 1 (-7) rfl
      (by decide!) (by decide) (by decide) rfl
  exact ⟨o, p1, p2, h1, h2, h3⟩

/-! ## Fills: a round trip, and the frame of a fill -/

/-- C18, as stated, fails: for the symbol named "heldcash", a BUY of 10 and then
a SELL of 10 at close 50, each with commission 1, leave current_holdings[s] at
99998, not at its value 100000 before the two fills. -/
theorem round_trip_heldcash_symbol_counterexample :
    CppMap.valAt (ledger_symbol_position "heldcash" 0).current_holdings "heldcash" = 100000 ∧
      (run (ledger_symbol_position "heldcash" 0, [])
          [Op.fill bars_close_50
              { symbol := "heldcash", direction := "BUY", quantity := 10, commission := 1 },
            Op.fill bars_close_50
              { symbol := "heldcash", direction := "SELL", quantity := 10, commission := 1 }]).map
          (fun s => CppMap.valAt s.1.current_holdings "heldcash") = some 99998 := by
  decide!

/-- C18 (amended): for every ledger state, every symbol s other than the reserved
keys heldcash, commission and totalholdings, every quantity q and commissions
c1, c2: a BUY fill of q in s followed by a SELL fill of q in s, while the most
recent close of s is the same for both, returns current_positions[s] and
current_holdings[s] to the values read before the two fills, leaves heldcash and
totalholdings lower by exactly c1 + c2 and the commission higher by exactly
c1 + c2. -/
theorem buy_then_sell_round_trip (p : NaivePortfolio) (bars1 bars2 : BarProvider)
    (s : String) (q : Int) (c1 c2 : ℚ) (bar1 bar2 : Bar) (hbar1 : bars1 s = some bar1)
    (hbar2 : bars2 s = some bar2) (hclose : bar1.close = bar2.close)
    (hsym : s ∉ reserved_keys) :
    ∃ p1 p2,
      update_fill p bars1 { symbol := s, direction := "BUY", quantity := q, commission := c1 }
        = some p1 ∧
      update_fill p1 bars2 { symbol := s, direction := "SELL", quantity := q, commission := c2 }
        = some p2 ∧
      CppMap.valAt p2.current_positions s = CppMap.valAt p.current_positions s ∧
      CppMap.valAt p2.current_holdings s = CppMap.valAt p.current_holdings s ∧
      CppMap.valAt p2.current_holdings "heldcash"
        = CppMap.valAt p.current_holdings "heldcash" - (c1 + c2) ∧
      CppMap.valAt p2.current_holdings "totalholdings"
        = CppMap.valAt p.current_holdings "totalholdings" - (c1 + c2) ∧
      CppMap.valAt p2.current_holdings "commission"
        = CppMap.valAt p.current_holdings "commission" + (c1 + c2) := by
  obtain ⟨p1, h1⟩ := update_fill_isSome p bars1
    { symbol := s, direction := "BUY", quantity := q, commission := c1 } bar1 hbar1
  obtain ⟨p2, h2⟩ := update_fill_isSome p1 bars2
    { symbol := s, direction := "SELL", quantity := q, commission := c2 } bar2 hbar2
  have hpos1 := update_fill_position p p1 bars1 _ h1
  have hpos2 := update_fill_position p1 p2 bars2 _ h2
  obtain ⟨a1, a2, a3, a4⟩ := update_fill_holdings p p1 bars1 _ bar1 hbar1 hsym h1
  obtain ⟨b1, b2, b3, b4⟩ := update_fill_holdings p1 p2 bars2 _ bar2 hbar2 hsym h2
  have e : ("SELL" : String) ≠ "BUY" := by decide
  simp only [fill_cost, fill_dir, e, if_true, if_false] at hpos1 hpos2 a1 a2 a3 a4 b1 b2 b3 b4
  refine ⟨p1, p2, h1, h2, ?_, ?_, ?_, ?_, ?_⟩
  · rw [hpos2, hpos1]
    push_cast
    ring
  · rw [b1, a1, hclose]
    push_cast
    ring
  · rw [b3, a3, hclose]
    push_cast
    ring
  · rw [b4, a4, hclose]
    push_cast
    ring
  · rw [b2, a2]
    ring

/-- C18 (amended), at a BUY and a SELL of 10 SPY at close 50 with commissions 1
and 2 on a fresh ledger of capital 100000: position and holdings of SPY are 0
again, heldcash and totalholdings are 99997, the commission is 3. -/
theorem buy_then_sell_round_trip_witness :
    ∃ p1 p2,
      update_fill ledger_spy bars_close_50
          { symbol := "SPY", direction := "BUY", quantity := 10, commission := 1 } = some p1 ∧
      update_fill p1 bars_close_50
          { symbol := "SPY", direction := "SELL", quantity := 10, commission := 2 } = some p2 ∧
      CppMap.valAt p2.current_positions "SPY" = 0 ∧
      CppMap.valAt p2.current_holdings "SPY" = 0 ∧
      CppMap.valAt p2.current_holdings "heldcash" = 99997 ∧
      CppMap.valAt p2.current_holdings "totalholdings" = 99997 ∧
      CppMap.valAt p2.current_holdings "commission" = 3 := by
  obtain ⟨p1, p2, h1, h2, h3, h4, h5, h6, h7⟩ :=
    buy_then_sell_round_trip ledger_spy bars_close_50 bars_close_50 "SPY" 10 1 2
      { timestamp := 1, open_ := 50, high := 50, low := 50, close := 50 }
      { timestamp := 1, open_ := 50, high := 50, low := 50, close := 50 } rfl rfl rfl
      (by decide)
  have e1 : CppMap.valAt ledger_spy.current_positions "SPY" = 0 := by decide!
  have e2 : CppMap.valAt ledger_spy.current_holdings "SPY" = 0 := by decide!
  have e3 : CppMap.valAt ledger_spy.current_holdings "commission" = 0 := by decide!
  have e4 : CppMap.valAt ledger_spy.current_holdings "heldcash" = 100000 := by decide!
  have e5 : CppMap.valAt ledger_spy.current_holdings "totalholdings" = 100000 := by decide!
  refine ⟨p1, p2, h1, h2, ?_, ?_, ?_, ?_, ?_⟩
  · rw [h3, e1]
  · rw [h4, e2]
  · rw [h5, e4]; norm_num
  · rw [h6, e5]; norm_num
  · rw [h7, e3]; norm_num

/-- C19, as stated, fails: on a ledger whose symbols are SPY and "heldcash", a
BUY of 10 SPY at close 50 with commission 1 changes the holdings entry of the
other symbol, "heldcash", from 100000 to 99499. -/
theorem fill_frame_heldcash_symbol_counterexample :
    CppMap.valAt ledger_spy_heldcash.current_holdings "heldcash" = 100000 ∧
      (update_fill ledger_spy_heldcash bars_close_50
          { symbol := "SPY", direction := "BUY", quantity := 10, commission := 1 }).map
          (fun p1 => CppMap.valAt p1.current_holdings "heldcash") = some 99499 := by
  decide!

/-- C19 (amended): for every ledger state and every fill on a symbol s distinct
from the reserved keys, every outcome of `update_fill` leaves unchanged the
position of every symbol other than s and the holdings entry of every symbol
other than s that is itself distinct from the reserved keys heldcash,
commission and totalholdings, and leaves the histories all_positions and
all_holdings entirely unchanged. -/
theorem update_fill_frame_others (p p1 : NaivePortfolio) (bars : BarProvider)
    (fill : FillEvent) (_hsym : fill.symbol ∉ reserved_keys)
    (h : update_fill p bars fill = some p1) :
    (∀ j, j ≠ fill.symbol →
      CppMap.find p1.current_positions j = CppMap.find p.current_positions j) ∧
    (∀ j, j ≠ fill.symbol → j ∉ reserved_keys →
      CppMap.find p1.current_holdings j = CppMap.find p.current_holdings j) ∧
    p1.all_positions = p.all_positions ∧ p1.all_holdings = p.all_holdings := by
  obtain ⟨_, _, _, h4, h5⟩ := update_fill_frame p p1 bars fill h
  exact ⟨fun j hj => (update_fill_other p p1 bars fill h j hj).1,
    fun j hj hres => (update_fill_other p p1 bars fill h j hj).2 hres, h4, h5⟩

/-- C19 (amended), at a BUY of 10 SPY on a ledger on SPY and "heldcash": the
position of the other symbol and the histories are as before. -/
theorem update_fill_frame_others_witness :
    ∃ p1, update_fill ledger_spy_heldcash bars_close_50
        { symbol := "SPY", direction := "BUY", quantity := 10, commission := 1 } = some p1 ∧
      CppMap.find p1.current_positions "heldcash"
        = CppMap.find ledger_spy_heldcash.current_positions "heldcash" ∧
      p1.all_positions = ledger_spy_heldcash.all_positions ∧
      p1.all_holdings = ledger_spy_heldcash.all_holdings := by
  obtain ⟨p1, h⟩ := update_fill_isSome ledger_spy_heldcash bars_close_50
    { symbol := "SPY", direction := "BUY", quantity := 10, commission := 1 }
    { timestamp := 1, open_ := 50, high := 50, low := 50, close := 50 } rfl
  obtain ⟨h1, _, h3, h4⟩ := update_fill_frame_others ledger_spy_heldcash p1 bars_close_50
    { symbol := "SPY", direction := "BUY", quantity := 10, commission := 1 } (by decide) h
  exact ⟨p1, h, h1 "heldcash" (by decide), h3, h4⟩

/-! ## Reachable states: the live totals -/

theorem sum_map_update (c : ℚ) (s0 : String) (f g : String → ℚ) (hs0 : g s0 = f s0 + c) :
    ∀ l : List String, l.Nodup → s0 ∈ l → (∀ j ∈ l, j ≠ s0 → g j = f j) →
      (l.map g).sum = (l.map f).sum + c := by
  intro l
  induction l with
  | nil =>
    intro _ hmem _
    simp at hmem
  | cons a rest ih =>
    intro hnd hmem hother
    obtain ⟨hanot, hrest⟩ := List.nodup_cons.mp hnd
    simp only [List.map_cons, List.sum_cons]
    by_cases ha : a = s0
    · subst ha
      have hsame : rest.map g = rest.map f := by
        apply List.map_congr_left
        intro j hj
        exact hother j (List.mem_cons_of_mem _ hj) (fun e => hanot (e ▸ hj))
      rw [hsame, hs0]
      ring
    · have hin : s0 ∈ rest := by
        rcases List.mem_cons.mp hmem with e | e
        · exact absurd e.symm ha
        · exact e
      rw [ih hrest hin (fun j hj => hother j (List.mem_cons_of_mem _ hj)),
        hother a (List.mem_cons_self _ _) ha]
      ring

theorem sum_map_zero (f : String → ℚ) :
    ∀ l : List String, (∀ j ∈ l, f j = 0) → (l.map f).sum = 0 := by
  intro l
  induction l with
  | nil =>
    intro _
    rfl
  | cons a rest ih =>
    intro h
    simp only [List.map_cons, List.sum_cons]
    rw [h a (List.mem_cons_self _ _), ih (fun j hj => h j (List.mem_cons_of_mem _ hj))]
    ring

theorem construct_holdings_symbol (symbol_list : List String) (start_date : Int)
    (initial_capital : ℚ) (s : String) (hs : s ∉ reserved_keys) :
    CppMap.valAt (NaivePortfolio.construct symbol_list start_date initial_capital).current_holdings
      s = 0 := by
  simp only [reserved_keys, List.mem_cons, List.mem_singleton, List.not_mem_nil, or_false,
    not_or] at hs
  obtain ⟨h1, h2, h3⟩ := hs
  simp only [NaivePortfolio.construct, construct_current_holdings]
  rw [CppMap.valAt_insert_ne _ _ _ _ h3, CppMap.valAt_insert_ne _ _ _ _ h2,
    CppMap.valAt_insert_ne _ _ _ _ h1]
  simp only [CppMap.valAt, zero_symbols, find_foldl_zero]
  by_cases hmem : s ∈ symbol_list
  · simp [hmem]
  · simp [hmem, CppMap.find]
    rfl

theorem construct_conserved (symbol_list symbols : List String) (start_date : Int)
    (initial_capital : ℚ) (hres : ∀ x ∈ symbols, x ∉ reserved_keys) :
    CppMap.valAt (NaivePortfolio.construct symbol_list start_date initial_capital).current_holdings
        "heldcash"
      + CppMap.valAt
          (NaivePortfolio.construct symbol_list start_date initial_capital).current_holdings
          "commission"
      + holdings_over symbols (NaivePortfolio.construct symbol_list start_date initial_capital)
      = initial_capital := by
  have hsum : holdings_over symbols
      (NaivePortfolio.construct symbol_list start_date initial_capital) = 0 := by
    apply sum_map_zero
    intro j hj
    exact construct_holdings_symbol symbol_list start_date initial_capital j (hres j hj)
  have e1 : ("heldcash" : String) ≠ "commission" := by decide
  have e2 : ("heldcash" : String) ≠ "totalholdings" := by decide
  have e3 : ("commission" : String) ≠ "totalholdings" := by decide
  have hcash : CppMap.valAt
      (NaivePortfolio.construct symbol_list start_date initial_capital).current_holdings
      "heldcash" = initial_capital := by
    simp [NaivePortfolio.construct, construct_current_holdings, CppMap.valAt_insert_self,
      CppMap.valAt_insert_ne, e1, e2]
  have hcom : CppMap.valAt
      (NaivePortfolio.construct symbol_list start_date initial_capital).current_holdings
      "commission" = 0 := by
    simp [NaivePortfolio.construct, construct_current_holdings, CppMap.valAt_insert_self,
      CppMap.valAt_insert_ne, e3]
  rw [hsum, hcash, hcom]
  ring

theorem update_fill_conserves (symbols : List String) (p p1 : NaivePortfolio)
    (bars : BarProvider) (fill : FillEvent) (hnd : symbols.Nodup)
    (hres : ∀ x ∈ symbols, x ∉ reserved_keys) (hmem : fill.symbol ∈ symbols)
    (h : update_fill p bars fill = some p1) :
    CppMap.valAt p1.current_holdings "heldcash" + CppMap.valAt p1.current_holdings "commission"
        + holdings_over symbols p1
      = CppMap.valAt p.current_holdings "heldcash"
        + CppMap.valAt p.current_holdings "commission" + holdings_over symbols p := by
  obtain ⟨bar, hbar⟩ := update_fill_bar p p1 bars fill h
  obtain ⟨h1, h2, h3, _⟩ := update_fill_holdings p p1 bars fill bar hbar (hres _ hmem) h
  have hsum : holdings_over symbols p1 = holdings_over symbols p + fill_cost bar fill := by
    unfold holdings_over
    apply sum_map_update (fill_cost bar fill) fill.symbol _ _ h1 _ hnd hmem
    intro j hj hne
    have hfind := (update_fill_other p p1 bars fill h j hne).2 (hres j hj)
    simp only [CppMap.valAt, hfind]
  rw [hsum, h2, h3]
  ring

theorem run_fills_conserved (symbols : List String) (hnd : symbols.Nodup)
    (hres : ∀ x ∈ symbols, x ∉ reserved_keys) (fills : List (BarProvider × FillEvent)) :
    ∀ (s : NaivePortfolio × List Event),
      (∀ bf ∈ fills, bf.2.symbol ∈ symbols) →
      (∀ bf ∈ fills, ∃ bar, bf.1 bf.2.symbol = some bar) →
      ∃ s1, run s (fill_ops fills) = some s1 ∧
        CppMap.valAt s1.1.current_holdings "heldcash"
            + CppMap.valAt s1.1.current_holdings "commission" + holdings_over symbols s1.1
          = CppMap.valAt s.1.current_holdings "heldcash"
            + CppMap.valAt s.1.current_holdings "commission" + holdings_over symbols s.1 := by
  induction fills with
  | nil =>
    intro s _ _
    exact ⟨s, rfl, rfl⟩
  | cons bf rest ih =>
    intro s hmem hbars
    obtain ⟨bar, hbar⟩ := hbars bf (List.mem_cons_self _ _)
    obtain ⟨p1, hp1⟩ := update_fill_isSome s.1 bf.1 bf.2 bar hbar
    have hstep := update_fill_conserves symbols s.1 p1 bf.1 bf.2 hnd hres
      (hmem bf (List.mem_cons_self _ _)) hp1
    obtain ⟨s1, hrun, heq⟩ := ih (p1, s.2)
      (fun x hx => hmem x (List.mem_cons_of_mem _ hx))
      (fun x hx => hbars x (List.mem_cons_of_mem _ hx))
    refine ⟨s1, ?_, heq.trans hstep⟩
    simp only [fill_ops, List.map_cons, run, step, hp1, Option.map_some']
    exact hrun

/-- C15, as stated, fails: on a portfolio whose only symbol is SPY, which is none
of the reserved keys, a BUY fill of 10 MSFT at close 50 with commission 1 leaves
heldcash 99499, commission 1 and nothing under SPY, so that heldcash + commission
+ (sum over the symbols of the portfolio of current_holdings[symbol]) is 99500,
not the initial capital 100000. -/
theorem capital_fill_outside_portfolio_counterexample :
    (∀ x ∈ ledger_spy.symbol_list, x ∉ reserved_keys) ∧
      (run (ledger_spy, [])
          [Op.fill bars_close_50
            { symbol := "MSFT", direction := "BUY", quantity := 10, commission := 1 }]).map
          (fun s =>
            (CppMap.valAt s.1.current_holdings "heldcash",
              CppMap.valAt s.1.current_holdings "commission",
              holdings_over s.1.symbol_list.dedup s.1,
              CppMap.valAt s.1.current_holdings "heldcash"
                + CppMap.valAt s.1.current_holdings "commission"
                + holdings_over s.1.symbol_list.dedup s.1))
        = some (99499, 1, 0, 99500) := by
  decide!

/-- C15 (amended): for every sequence of fills (any directions, quantities and
commissions, each with a most recent bar of any close) on symbols of the
portfolio, applied to a freshly constructed portfolio whose symbols are distinct
from the reserved keys heldcash, commission and totalholdings: every prefix of
the sequence runs to a live state with heldcash + commission + (sum over the
symbols of the portfolio, each counted once, of current_holdings[symbol])
== initial_capital. -/
theorem capital_conserved (symbol_list : List String) (start_date : Int)
    (initial_capital : ℚ) (events : List Event) (fills : List (BarProvider × FillEvent))
    (hres : ∀ x ∈ symbol_list, x ∉ reserved_keys)
    (hmem : ∀ bf ∈ fills, bf.2.symbol ∈ symbol_list)
    (hbars : ∀ bf ∈ fills, ∃ bar, bf.1 bf.2.symbol = some bar) (n : Nat) :
    ∃ s, run (NaivePortfolio.construct symbol_list start_date initial_capital, events)
        (fill_ops (fills.take n)) = some s ∧
      CppMap.valAt s.1.current_holdings "heldcash"
          + CppMap.valAt s.1.current_holdings "commission"
          + holdings_over symbol_list.dedup s.1
        = initial_capital := by
  have hres1 : ∀ x ∈ symbol_list.dedup, x ∉ reserved_keys :=
    fun x hx => hres x (List.mem_dedup.mp hx)
  obtain ⟨s, hrun, heq⟩ := run_fills_conserved symbol_list.dedup (List.nodup_dedup _) hres1
    (fills.take n)
    (NaivePortfolio.construct symbol_list start_date initial_capital, events)
    (fun bf hbf => List.mem_dedup.mpr (hmem bf (List.mem_of_mem_take hbf)))
    (fun bf hbf => hbars bf (List.mem_of_mem_take hbf))
  exact ⟨s, hrun,
    heq.trans
      (construct_conserved symbol_list symbol_list.dedup start_date initial_capital hres1)⟩

/-- C15 (amended), at a BUY of 10 and a SELL of 4 of SPY, at closes 50 and 60
with commissions 1 and 2, on a portfolio of SPY and AAPL with capital 100000. -/
theorem capital_conserved_witness :
    ∃ s, run (NaivePortfolio.construct ["SPY", "AAPL"] 0 100000, [])
        (fill_ops (List.take 2
          [(bars_close_50,
              { symbol := "SPY", direction := "BUY", quantity := 10, commission := 1 }),
            (bars_close_60,
              { symbol := "SPY", direction := "SELL", quantity := 4, commission := 2 })]))
        = some s ∧
      CppMap.valAt s.1.current_holdings "heldcash"
          + CppMap.valAt s.1.current_holdings "commission"
          + holdings_over (List.dedup ["SPY", "AAPL"]) s.1
        = 100000 :=
  capital_conserved ["SPY", "AAPL"] 0 100000 []
    [(bars_close_50, { symbol := "SPY", direction := "BUY", quantity := 10, commission := 1 }),
      (bars_close_60, { symbol := "SPY", direction := "SELL", quantity := 4, commission := 2 })]
    (by decide)
    (by
      intro bf hbf
      simp only [List.mem_cons, List.mem_singleton, List.not_mem_nil, or_false] at hbf
      rcases hbf with rfl | rfl <;> decide)
    (by
      intro bf hbf
      simp only [List.mem_cons, List.mem_singleton, List.not_mem_nil, or_false] at hbf
      rcases hbf with rfl | rfl <;> exact ⟨_, rfl⟩)
    2

theorem update_timeindex_holdings_values (p p1 : NaivePortfolio) (bars : BarProvider)
    (h : update_timeindex p bars = some p1) (j : String) :
    CppMap.valAt p1.current_holdings j = CppMap.valAt p.current_holdings j := by
  obtain ⟨k0, d, previous, _, _, _, rfl⟩ := update_timeindex_some p p1 bars h
  rw [(finish_live p previous _ d).2.2.2, CppMap.valAt_touch, CppMap.valAt_touch]

theorem step_total_eq_heldcash (s s1 : NaivePortfolio × List Event) (op : Op)
    (hop : ∀ bars f, op = Op.fill bars f → f.symbol ∉ reserved_keys)
    (hstep : step s op = some s1)
    (hinv : CppMap.valAt s.1.current_holdings "totalholdings"
      = CppMap.valAt s.1.current_holdings "heldcash") :
    CppMap.valAt s1.1.current_holdings "totalholdings"
      = CppMap.valAt s1.1.current_holdings "heldcash" := by
  cases op with
  | fill bars f =>
    simp only [step, Option.map_eq_some'] at hstep
    obtain ⟨p1, hp1, rfl⟩ := hstep
    exact update_fill_keeps_total_eq_heldcash s.1 p1 bars f (hop bars f rfl) hp1 hinv
  | timeindex bars =>
    simp only [step, Option.map_eq_some'] at hstep
    obtain ⟨p1, hp1, rfl⟩ := hstep
    simp only [update_timeindex_holdings_values s.1 p1 bars hp1]
    exact hinv
  | signal sig =>
    obtain ⟨p1, ev1⟩ := s1
    have := generate_naive_order_ledger s.1 p1 s.2 ev1 sig hstep
    subst this
    exact hinv

theorem run_total_eq_heldcash (ops : List Op) :
    ∀ s s1 : NaivePortfolio × List Event, fills_off_reserved ops → run s ops = some s1 →
      CppMap.valAt s.1.current_holdings "totalholdings"
        = CppMap.valAt s.1.current_holdings "heldcash" →
      CppMap.valAt s1.1.current_holdings "totalholdings"
        = CppMap.valAt s1.1.current_holdings "heldcash" := by
  induction ops with
  | nil =>
    intro s s1 _ hrun hinv
    simp only [run, Option.some.injEq] at hrun
    subst hrun
    exact hinv
  | cons op rest ih =>
    intro s s1 hoff hrun hinv
    cases hstep : step s op with
    | none => simp [run, hstep] at hrun
    | some s2 =>
      simp only [run, hstep] at hrun
      have h2 := step_total_eq_heldcash s s2 op
        (fun bars f e => hoff op (List.mem_cons_self _ _) bars f e) hstep hinv
      exact ih s2 s1 (fun o ho => hoff o (List.mem_cons_of_mem _ ho)) hrun h2

/-- C16, as stated, fails: on a portfolio whose only symbol is SPY, which is none
of the reserved keys, a BUY fill of 10 at close 50 with commission 1 on the
symbol named "heldcash" leaves totalholdings at 99499 and heldcash at 99999. -/
theorem fill_on_reserved_key_counterexample :
    (∀ x ∈ ledger_spy.symbol_list, x ∉ reserved_keys) ∧
      (run (ledger_spy, [])
          [Op.fill bars_close_50
            { symbol := "heldcash", direction := "BUY", quantity := 10, commission := 1 }]).map
          (fun s =>
            (CppMap.valAt s.1.current_holdings "totalholdings",
              CppMap.valAt s.1.current_holdings "heldcash"))
        = some (99499, 99999) := by
  decide!

/-- C16 (amended): for every sequence of update_fill, update_timeindex and
update_signal calls applied to a freshly constructed portfolio, the fills being
on symbols distinct from the reserved keys heldcash, commission and
totalholdings (nothing is asked of the symbols of the portfolio), every state
the sequence reaches has totalholdings == heldcash in the live
current_holdings. -/
theorem live_totalholdings_eq_heldcash (symbol_list : List String) (start_date : Int)
    (initial_capital : ℚ) (events : List Event) (ops : List Op)
    (hoff : fills_off_reserved ops) (s : NaivePortfolio × List Event)
    (hrun : run (NaivePortfolio.construct symbol_list start_date initial_capital, events) ops
      = some s) :
    CppMap.valAt s.1.current_holdings "totalholdings"
      = CppMap.valAt s.1.current_holdings "heldcash" :=
  run_total_eq_heldcash ops _ s hoff hrun
    (construct_totalholdings_eq_heldcash symbol_list start_date initial_capital)

/-- C16 (amended), at a LONG signal, the BUY of 100 it asks for and a bar
close: the state reached has totalholdings == heldcash. -/
theorem live_totalholdings_eq_heldcash_witness :
    ∃ s, run (NaivePortfolio.construct ["SPY"] 0 100000, [])
        [Op.signal { symbol := "SPY", signal_type := "LONG", strength := 1 },
          Op.fill bars_close_50
            { symbol := "SPY", direction := "BUY", quantity := 100, commission := 1 },
          Op.timeindex bars_close_50] = some s ∧
      CppMap.valAt s.1.current_holdings "totalholdings"
        = CppMap.valAt s.1.current_holdings "heldcash" := by
  cases hrun : run (NaivePortfolio.construct ["SPY"] 0 100000, [])
      [Op.signal { symbol := "SPY", signal_type := "LONG", strength := 1 },
        Op.fill bars_close_50
          { symbol := "SPY", direction := "BUY", quantity := 100, commission := 1 },
        Op.timeindex bars_close_50] with
  | none =>
    have hsome : (run (NaivePortfolio.construct ["SPY"] 0 100000, [])
        [Op.signal { symbol := "SPY", signal_type := "LONG", strength := 1 },
          Op.fill bars_close_50
            { symbol := "SPY", direction := "BUY", quantity := 100, commission := 1 },
          Op.timeindex bars_close_50]).isSome = true := by decide!
    rw [hrun] at hsome
    exact absurd hsome (by simp)
  | some s =>
    exact ⟨s, rfl,
      live_totalholdings_eq_heldcash ["SPY"] 0 100000 []
        [Op.signal { symbol := "SPY", signal_type := "LONG", strength := 1 },
          Op.fill bars_close_50
            { symbol := "SPY", direction := "BUY", quantity := 100, commission := 1 },
          Op.timeindex bars_close_50]
        (by
          intro op hop bars f hf
          simp only [List.mem_cons, List.mem_singleton, List.not_mem_nil, or_false] at hop
          rcases hop with rfl | rfl | rfl
          · cases hf
          · cases hf
            decide
          · cases hf)
        s hrun⟩

/-! ## Reachable states: the frame of a bar close -/

theorem find_insert_present {K V : Type} [DecidableEq K] [KeyOrder K] (m : CppMap K V)
    (k j : K) (v : V) (h : CppMap.find m j ≠ none) : CppMap.find (CppMap.insert m k v) j ≠ none := by
  by_cases hj : j = k
  · subst hj
    simp [CppMap.find_insert_self]
  · rw [CppMap.find_insert_ne m k j v hj]
    exact h

theorem touch_present {K V : Type} [DecidableEq K] [KeyOrder K] [Inhabited V] (m : CppMap K V)
    (k : K) (h : CppMap.find m k ≠ none) : CppMap.touch m k = m := by
  unfold CppMap.touch
  cases hk : CppMap.find m k with
  | none => exact absurd hk h
  | some v => rfl

theorem find_touch_present {K V : Type} [DecidableEq K] [KeyOrder K] [Inhabited V]
    (m : CppMap K V) (k j : K) (h : CppMap.find m j ≠ none) :
    CppMap.find (CppMap.touch m k) j ≠ none := by
  unfold CppMap.touch
  cases hk : CppMap.find m k with
  | none => exact find_insert_present m k j default h
  | some v => exact h

theorem foldl_loop_positions_same (bars : BarProvider) (l : List String) :
    ∀ st : TimeindexLoop, (∀ s ∈ l, CppMap.find st.current_positions s ≠ none) →
      (l.foldl (loop_step bars) st).current_positions = st.current_positions := by
  induction l with
  | nil =>
    intro st _
    rfl
  | cons s rest ih =>
    intro st h
    have hstep : (loop_step bars st s).current_positions = st.current_positions := by
      cases hb : bars s with
      | none => simp [loop_step, hb]
      | some bar =>
        simp only [loop_step, hb]
        exact touch_present _ _ (h s (List.mem_cons_self _ _))
    simp only [List.foldl_cons]
    rw [ih (loop_step bars st s) (by
      intro x hx
      rw [hstep]
      exact h x (List.mem_cons_of_mem _ hx)), hstep]

theorem update_timeindex_live_same (p p1 : NaivePortfolio) (bars : BarProvider)
    (hkeys : live_keys_present p) (h : update_timeindex p bars = some p1) :
    p1.current_positions = p.current_positions ∧ p1.current_holdings = p.current_holdings ∧
      p1.symbol_list = p.symbol_list := by
  obtain ⟨k0, d, previous, _, _, _, rfl⟩ := update_timeindex_some p p1 bars h
  obtain ⟨_, h2, h3, h4⟩ := finish_live p previous
    (p.symbol_list.foldl (loop_step bars) (timeindex_start p)) d
  refine ⟨?_, ?_, h3⟩
  · rw [h2, foldl_loop_positions_same bars p.symbol_list (timeindex_start p) hkeys.1]
    rfl
  · rw [h4, touch_present _ _ hkeys.2.1, touch_present _ _ hkeys.2.2]

theorem construct_live_keys (symbol_list : List String) (start_date : Int)
    (initial_capital : ℚ) :
    live_keys_present (NaivePortfolio.construct symbol_list start_date initial_capital) := by
  refine ⟨?_, ?_, ?_⟩
  · intro s hs
    simp [NaivePortfolio.construct, construct_current_positions,
      find_zero_symbols symbol_list s hs]
  · simp [NaivePortfolio.construct, construct_current_holdings, CppMap.find_insert_self,
      CppMap.find_insert_ne]
  · simp [NaivePortfolio.construct, construct_current_holdings, CppMap.find_insert_self,
      CppMap.find_insert_ne]

theorem step_live_keys (s s1 : NaivePortfolio × List Event) (op : Op)
    (hstep : step s op = some s1) (hkeys : live_keys_present s.1) :
    live_keys_present s1.1 := by
  cases op with
  | fill bars f =>
    simp only [step, Option.map_eq_some'] at hstep
    obtain ⟨p1, hp1, rfl⟩ := hstep
    obtain ⟨bar, hbar⟩ := update_fill_bar s.1 p1 bars f hp1
    simp only [update_fill, update_holdings_from_fill, update_positions_from_fill, hbar,
      Option.some.injEq] at hp1
    subst hp1
    refine ⟨?_, ?_, ?_⟩
    · intro x hx
      exact find_insert_present _ _ _ _ (hkeys.1 x hx)
    · exact find_insert_present _ _ _ _ (find_insert_present _ _ _ _
        (find_insert_present _ _ _ _ (find_insert_present _ _ _ _ hkeys.2.1)))
    · exact find_insert_present _ _ _ _ (find_insert_present _ _ _ _
        (find_insert_present _ _ _ _ (find_insert_present _ _ _ _ hkeys.2.2)))
  | timeindex bars =>
    simp only [step, Option.map_eq_some'] at hstep
    obtain ⟨p1, hp1, rfl⟩ := hstep
    obtain ⟨h1, h2, h3⟩ := update_timeindex_live_same s.1 p1 bars hkeys hp1
    refine ⟨?_, ?_, ?_⟩
    · intro x hx
      simp only [h1]
      simp only [h3] at hx
      exact hkeys.1 x hx
    · simp only [h2]
      exact hkeys.2.1
    · simp only [h2]
      exact hkeys.2.2
  | signal sig =>
    obtain ⟨p1, ev1⟩ := s1
    have := generate_naive_order_ledger s.1 p1 s.2 ev1 sig hstep
    subst this
    refine ⟨?_, hkeys.2.1, hkeys.2.2⟩
    intro x hx
    exact find_touch_present _ _ _ (hkeys.1 x hx)

theorem run_live_keys (ops : List Op) :
    ∀ s s1 : NaivePortfolio × List Event, run s ops = some s1 → live_keys_present s.1 →
      live_keys_present s1.1 := by
  induction ops with
  | nil =>
    intro s s1 hrun h
    simp only [run, Option.some.injEq] at hrun
    subst hrun
    exact h
  | cons op rest ih =>
    intro s s1 hrun h
    cases hstep : step s op with
    | none => simp [run, hstep] at hrun
    | some s2 =>
      simp only [run, hstep] at hrun
      exact ih s2 s1 hrun (step_live_keys s s2 op hstep h)

/-- C20: for every ledger state produced by the constructor followed by any
sequence of update_fill, update_timeindex and update_signal calls, every outcome
of a further `update_timeindex` call leaves the live state unchanged:
current_positions and current_holdings (the per-symbol values, heldcash,
commission, totalholdings) are the same maps after the call as before it, and
the event queue is the same (no order is appended). -/
theorem update_timeindex_live_frame (symbol_list : List String) (start_date : Int)
    (initial_capital : ℚ) (events : List Event) (ops : List Op)
    (s s1 : NaivePortfolio × List Event) (bars : BarProvider)
    (hrun : run (NaivePortfolio.construct symbol_list start_date initial_capital, events) ops
      = some s)
    (hstep : step s (Op.timeindex bars) = some s1) :
    s1.1.current_positions = s.1.current_positions ∧
      s1.1.current_holdings = s.1.current_holdings ∧ s1.2 = s.2 := by
  have hkeys := run_live_keys ops _ s hrun
    (construct_live_keys symbol_list start_date initial_capital)
  simp only [step, Option.map_eq_some'] at hstep
  obtain ⟨p1, hp1, rfl⟩ := hstep
  obtain ⟨h1, h2, _⟩ := update_timeindex_live_same s.1 p1 bars hkeys hp1
  exact ⟨h1, h2, rfl⟩

/-- C20, at a bar close that follows a BUY of 10 SPY: positions, holdings and
the queue are as the fill left them. -/
theorem update_timeindex_live_frame_witness :
    ∃ s s1,
      run (NaivePortfolio.construct ["SPY"] 0 100000, [Event.market])
        [Op.fill bars_close_50
          { symbol := "SPY", direction := "BUY", quantity := 10, commission := 1 }] = some s ∧
      step s (Op.timeindex bars_close_50) = some s1 ∧
      s1.1.current_positions = [("SPY", 10)] ∧
      s1.1.current_positions = s.1.current_positions ∧
      s1.1.current_holdings = s.1.current_holdings ∧ s1.2 = s.2 := by
  cases hrun : run (NaivePortfolio.construct ["SPY"] 0 100000, [Event.market])
      [Op.fill bars_close_50
        { symbol := "SPY", direction := "BUY", quantity := 10, commission := 1 }] with
  | none =>
    have hsome : (run (NaivePortfolio.construct ["SPY"] 0 100000, [Event.market])
        [Op.fill bars_close_50
          { symbol := "SPY", direction := "BUY", quantity := 10, commission := 1 }]).isSome
        = true := by decide!
    rw [hrun] at hsome
    exact absurd hsome (by simp)
  | some s =>
    have hboth : (run (NaivePortfolio.construct ["SPY"] 0 100000, [Event.market])
        [Op.fill bars_close_50
          { symbol := "SPY", direction := "BUY", quantity := 10, commission := 1 }]).bind
        (fun x => (step x (Op.timeindex bars_close_50)).map
          (fun y => y.1.current_positions)) = some [("SPY", 10)] := by decide!
    rw [hrun] at hboth
    simp only [Option.some_bind, Option.map_eq_some'] at hboth
    obtain ⟨s1, hs1, hpos⟩ := hboth
    obtain ⟨h1, h2, h3⟩ := update_timeindex_live_frame ["SPY"] 0 100000 [Event.market]
      [Op.fill bars_close_50
        { symbol := "SPY", direction := "BUY", quantity := 10, commission := 1 }]
      s s1 bars_close_50 hrun hs1
    exact ⟨s, s1, rfl, hs1, hpos, h1, h2, h3⟩

/-! ## Bar close: the entries of the histories -/

theorem mem_insert_of_ne {K V : Type} [DecidableEq K] [KeyOrder K] (k : K) (v : V)
    (e : K × V) (hne : e.1 ≠ k) :
    ∀ m : CppMap K V, e ∈ m → e ∈ CppMap.insert m k v
  | [], h => by simp at h
  | (k1, v1) :: rest, h => by
    have ih := mem_insert_of_ne k v e hne rest
    unfold CppMap.insert
    by_cases h1 : KeyOrder.less k k1 = true
    · simp only [h1, if_true]
      exact List.mem_cons_of_mem _ h
    · by_cases h2 : k = k1
      · subst h2
        simp only [h1, if_false, if_true]
        rcases List.mem_cons.mp h with he | he
        · exact absurd (by rw [he]) hne
        · exact List.mem_cons_of_mem _ he
      · simp only [h1, h2, if_false]
        rcases List.mem_cons.mp h with he | he
        · rw [he]
          exact List.mem_cons_self _ _
        · exact List.mem_cons_of_mem _ (ih he)

theorem mem_setIn_of_ne (m : CppMap Int (CppMap String ℚ)) (d : Int) (j : String) (v : ℚ)
    (e : Int × CppMap String ℚ) (he : e ∈ m) (hne : e.1 ≠ d) : e ∈ setIn m d j v :=
  mem_insert_of_ne d _ e hne m he

theorem no_bar_at_tail {bars : BarProvider} {a : String} {l : List String} {k : Int}
    (h : no_bar_at bars (a :: l) k) : no_bar_at bars l k :=
  fun s hs => h s (List.mem_cons_of_mem _ hs)

theorem foldl_loop_keeps_entries (bars : BarProvider) (l : List String)
    (ep eh : Int × CppMap String ℚ) :
    ∀ st : TimeindexLoop,
      (ep ∈ st.all_positions → no_bar_at bars l ep.1 →
        ep ∈ (l.foldl (loop_step bars) st).all_positions) ∧
      (eh ∈ st.all_holdings → no_bar_at bars l eh.1 →
        eh ∈ (l.foldl (loop_step bars) st).all_holdings) := by
  induction l with
  | nil =>
    intro st
    exact ⟨fun h _ => h, fun h _ => h⟩
  | cons s rest ih =>
    intro st
    simp only [List.foldl_cons]
    obtain ⟨ih1, ih2⟩ := ih (loop_step bars st s)
    constructor
    · intro hmem hno
      apply ih1 _ (no_bar_at_tail hno)
      cases hb : bars s with
      | none =>
        simp only [loop_step, hb]
        exact hmem
      | some bar =>
        simp only [loop_step, hb]
        exact mem_setIn_of_ne _ _ _ _ _ hmem
          (Ne.symm (hno s (List.mem_cons_self _ _) bar hb))
    · intro hmem hno
      apply ih2 _ (no_bar_at_tail hno)
      cases hb : bars s with
      | none =>
        simp only [loop_step, hb]
        exact hmem
      | some bar =>
        simp only [loop_step, hb]
        exact mem_setIn_of_ne _ _ _ _ _ hmem
          (Ne.symm (hno s (List.mem_cons_self _ _) bar hb))

theorem foldl_loop_date_origin (bars : BarProvider) (l : List String) (d : Int) :
    ∀ st : TimeindexLoop, (l.foldl (loop_step bars) st).date = some d →
      st.date = some d ∨ ∃ s ∈ l, ∃ bar, bars s = some bar ∧ bar.timestamp = d := by
  induction l with
  | nil =>
    intro st h
    exact Or.inl h
  | cons s rest ih =>
    intro st h
    simp only [List.foldl_cons] at h
    rcases ih _ h with h1 | ⟨x, hx, bar, hb, hd⟩
    · cases hb : bars s with
      | none =>
        simp only [loop_step, hb] at h1
        exact Or.inl h1
      | some bar =>
        simp only [loop_step, hb, Option.some.injEq] at h1
        exact Or.inr ⟨s, List.mem_cons_self _ _, bar, hb, h1⟩
    · exact Or.inr ⟨x, List.mem_cons_of_mem _ hx, bar, hb, hd⟩

theorem touchLast_present (k : String) :
    ∀ m : CppMap Int (CppMap String ℚ),
      (∀ k0 previous, m.getLast? = some (k0, previous) → CppMap.find previous k ≠ none) →
      touchLast m k = m
  | [], _ => rfl
  | [(d, snapshot)], h => by
    simp only [touchLast]
    rw [touch_present snapshot k (h d snapshot rfl)]
  | e :: e1 :: rest, h => by
    have ih := touchLast_present k (e1 :: rest) (by
      intro k0 previous hlast
      exact h k0 previous (by rw [List.getLast?_cons_cons]; exact hlast))
    simp only [touchLast]
    rw [ih]

theorem finish_keeps_entries (p : NaivePortfolio) (previous : CppMap String ℚ)
    (st : TimeindexLoop) (d : Int) (e : Int × CppMap String ℚ) (he : e ∈ st.all_holdings)
    (hne : e.1 ≠ d) : e ∈ (timeindex_finish p previous st d).all_holdings := by
  have h3 : e ∈ setIn (setIn (setIn st.all_holdings d "totalholdings"
      (CppMap.valAt p.current_holdings "heldcash" + st.sumvalues)) d "heldcash"
      (CppMap.valAt (CppMap.touch p.current_holdings "heldcash") "heldcash")) d "commission"
      (CppMap.valAt (CppMap.touch p.current_holdings "heldcash") "commission") :=
    mem_setIn_of_ne _ _ _ _ _ (mem_setIn_of_ne _ _ _ _ _ (mem_setIn_of_ne _ _ _ _ _ he hne) hne)
      hne
  unfold timeindex_finish
  simp only []
  split_ifs
  · exact mem_setIn_of_ne _ _ _ _ _ (mem_setIn_of_ne _ _ _ _ _ h3 hne) hne
  · exact h3

/-- C11, as stated, fails.  A bar close whose bar carries start_date 0 rewrites
the entries that the histories held at 0: with a position of 10 SPY and close
50, all_positions[0] goes from SPY 0 to SPY 10 and all_holdings[0] from the
constructor's snapshot to one with SPY 500 and totalholdings 100500.  And the
read of totalholdings and equitycurve in the latest snapshot inserts them where
they are absent: after a bar close with bars at times 2 (symbol A) and 1
(symbol B) the latest entry, at 2, holds only A; the next bar close, at 3,
leaves it with the two keys added. -/
theorem timeindex_rewrites_entry_counterexample :
    CppMap.find (ledger_with_position 10).all_positions 0 = some [("SPY", 0)] ∧
      CppMap.find (ledger_with_position 10).all_holdings 0 = some snapshot_spy_start ∧
      (update_timeindex (ledger_with_position 10) bars_at_start).map
          (fun p1 => (CppMap.find p1.all_positions 0, CppMap.find p1.all_holdings 0))
        = some (some [("SPY", 10)],
            some [("SPY", 500), ("commission", 0), ("equitycurve", 0), ("heldcash", 100000),
              ("returns", 0), ("totalholdings", 100500)]) ∧
      (run (NaivePortfolio.construct ["A", "B"] 0 100000, [])
          [Op.timeindex bars_skewed]).map (fun s => CppMap.find s.1.all_holdings 2)
        = some (some [("A", 0)]) ∧
      (run (NaivePortfolio.construct ["A", "B"] 0 100000, [])
          [Op.timeindex bars_skewed, Op.timeindex bars_time_3]).map
          (fun s => CppMap.find s.1.all_holdings 2)
        = some (some [("A", 0), ("equitycurve", 0), ("totalholdings", 0)]) := by
  decide!

/-- C11 (amended): for every ledger state whose latest holdings snapshot holds
the keys totalholdings and equitycurve, and every outcome of `update_timeindex`:
every entry that all_positions or all_holdings held before the call at a
timestamp that is not the timestamp of the most recent bar of a symbol is an
entry after the call, with the same timestamp and the same contents (an entry
at the timestamp of such a bar is written over). -/
theorem update_timeindex_keeps_entries (p p1 : NaivePortfolio) (bars : BarProvider)
    (hkeys : ∀ k0 previous, p.all_holdings.getLast? = some (k0, previous) →
      CppMap.find previous "totalholdings" ≠ none ∧ CppMap.find previous "equitycurve" ≠ none)
    (h : update_timeindex p bars = some p1) :
    (∀ e ∈ p.all_positions, no_bar_at bars p.symbol_list e.1 → e ∈ p1.all_positions) ∧
      (∀ e ∈ p.all_holdings, no_bar_at bars p.symbol_list e.1 → e ∈ p1.all_holdings) := by
  obtain ⟨k0, d, previous, hlast, _, hdate, rfl⟩ := update_timeindex_some p p1 bars h
  have hstart : (timeindex_start p).all_holdings = p.all_holdings := by
    have h1 : touchLast p.all_holdings "totalholdings" = p.all_holdings :=
      touchLast_present _ _ (fun a b hab => (hkeys a b hab).1)
    simp only [timeindex_start, h1]
    exact touchLast_present _ _ (fun a b hab => (hkeys a b hab).2)
  have hd : ∃ s ∈ p.symbol_list, ∃ bar, bars s = some bar ∧ bar.timestamp = d := by
    rcases foldl_loop_date_origin bars p.symbol_list d (timeindex_start p) hdate with h1 | h1
    · simp [timeindex_start] at h1
    · exact h1
  obtain ⟨s, hs, bar, hbar, hbd⟩ := hd
  constructor
  · intro e he hno
    rw [(finish_live p previous _ d).1]
    exact (foldl_loop_keeps_entries bars p.symbol_list e e (timeindex_start p)).1 he hno
  · intro e he hno
    apply finish_keeps_entries
    · exact (foldl_loop_keeps_entries bars p.symbol_list e e (timeindex_start p)).2
        (by rw [hstart]; exact he) hno
    · rw [← hbd]
      exact Ne.symm (hno s hs bar hbar)

/-- C11 (amended), at a bar close at time 1 on a ledger whose histories hold one
entry at time 0: both entries are still there after the call. -/
theorem update_timeindex_keeps_entries_witness :
    ∃ p1, update_timeindex (ledger_with_position 10) bars_close_50 = some p1 ∧
      ((0 : Int), [("SPY", (0 : ℚ))]) ∈ p1.all_positions ∧
      ((0 : Int), snapshot_spy_start) ∈ p1.all_holdings := by
  cases hrun : update_timeindex (ledger_with_position 10) bars_close_50 with
  | none =>
    have hsome : (update_timeindex (ledger_with_position 10) bars_close_50).isSome = true := by
      decide!
    rw [hrun] at hsome
    exact absurd hsome (by simp)
  | some p1 =>
    obtain ⟨h1, h2⟩ := update_timeindex_keeps_entries (ledger_with_position 10) p1
      bars_close_50
      (by
        intro k0 previous hlast
        have hl : (ledger_with_position 10).all_holdings.getLast?
            = some (0, snapshot_spy_start) := by decide!
        rw [hl] at hlast
        simp only [Option.some.injEq, Prod.mk.injEq] at hlast
        rw [← hlast.2]
        decide!)
      hrun
    have hno : no_bar_at bars_close_50 (ledger_with_position 10).symbol_list 0 := by
      intro s _ bar hbar
      simp only [bars_close_50, Option.some.injEq] at hbar
      rw [← hbar]
      decide
    exact ⟨p1, rfl, h1 (0, [("SPY", 0)]) (by decide!) hno,
      h2 (0, snapshot_spy_start) (by decide!) hno⟩

/-! ## Reachable states: the order table -/

theorem construct_positions_integral (symbol_list : List String) (start_date : Int)
    (initial_capital : ℚ) :
    positions_integral (NaivePortfolio.construct symbol_list start_date initial_capital) := by
  intro j
  refine ⟨0, ?_⟩
  simp only [NaivePortfolio.construct, construct_current_positions, CppMap.valAt, zero_symbols,
    find_foldl_zero]
  by_cases hmem : j ∈ symbol_list
  · simp [hmem]
  · simp [hmem, CppMap.find]
    rfl

theorem step_positions_integral (s s1 : NaivePortfolio × List Event) (op : Op)
    (hstep : step s op = some s1) (hint : positions_integral s.1) :
    positions_integral s1.1 := by
  cases op with
  | fill bars f =>
    simp only [step, Option.map_eq_some'] at hstep
    obtain ⟨p1, hp1, rfl⟩ := hstep
    intro j
    obtain ⟨n, hn⟩ := hint j
    by_cases hj : j = f.symbol
    · subst hj
      refine ⟨n + fill_dir f.direction * f.quantity, ?_⟩
      rw [update_fill_position s.1 p1 bars f hp1, hn]
      push_cast
      ring
    · refine ⟨n, ?_⟩
      have hother := (update_fill_other s.1 p1 bars f hp1 j hj).1
      rw [← hn]
      simp only [CppMap.valAt, hother]
  | timeindex bars =>
    simp only [step, Option.map_eq_some'] at hstep
    obtain ⟨p1, hp1, rfl⟩ := hstep
    obtain ⟨k0, d, previous, _, _, _, rfl⟩ := update_timeindex_some s.1 p1 bars hp1
    intro j
    obtain ⟨n, hn⟩ := hint j
    refine ⟨n, ?_⟩
    rw [(finish_live s.1 previous _ d).2.1, foldl_loop_positions bars s.1.symbol_list _ j]
    exact hn
  | signal sig =>
    obtain ⟨p1, ev1⟩ := s1
    have := generate_naive_order_ledger s.1 p1 s.2 ev1 sig hstep
    subst this
    intro j
    obtain ⟨n, hn⟩ := hint j
    refine ⟨n, ?_⟩
    simp only [after_signal, CppMap.valAt_touch]
    exact hn

theorem run_positions_integral (ops : List Op) :
    ∀ s s1 : NaivePortfolio × List Event, run s ops = some s1 → positions_integral s.1 →
      positions_integral s1.1 := by
  induction ops with
  | nil =>
    intro s s1 hrun h
    simp only [run, Option.some.injEq] at hrun
    subst hrun
    exact h
  | cons op rest ih =>
    intro s s1 hrun h
    cases hstep : step s op with
    | none => simp [run, hstep] at hrun
    | some s2 =>
      simp only [run, hstep] at hrun
      exact ih s2 s1 hrun (step_positions_integral s s2 op hstep h)

theorem generate_naive_order_table (p : NaivePortfolio) (events : List Event)
    (signal : SignalEvent) (n : Int)
    (hpos : CppMap.valAt p.current_positions signal.symbol = (n : ℚ)) :
    ∃ added, generate_naive_order p events signal
        = some (after_signal p signal, events ++ added) ∧
      added.length ≤ 1 ∧
      ((signal.signal_type = "EXIT" ∧ n = 0) ∨
        ((signal.signal_type = "LONG" ∨ signal.signal_type = "SHORT") ∧ n ≠ 0) ∨
        (signal.signal_type ≠ "LONG" ∧ signal.signal_type ≠ "SHORT" ∧
          signal.signal_type ≠ "EXIT") → added = []) := by
  have e1 : ("SHORT" : String) ≠ "LONG" := by decide
  have e2 : ("EXIT" : String) ≠ "LONG" := by decide
  have e3 : ("EXIT" : String) ≠ "SHORT" := by decide
  have hz := toInt32_compiled_intCast_eq_zero n
  rw [← hpos] at hz
  rw [generate_naive_order_of_conversions p events signal _ _ rfl rfl]
  by_cases h1 : signal.signal_type = "LONG" ∧
      toInt32_compiled (CppMap.valAt p.current_positions signal.symbol) = 0
  · refine ⟨[_], by rw [if_pos h1], by simp, ?_⟩
    rintro (⟨ht, _⟩ | ⟨_, hne⟩ | ⟨ht, _, _⟩)
    · exact absurd (h1.1.symm.trans ht) e2.symm
    · exact absurd (hz.mp h1.2) hne
    · exact absurd h1.1 ht
  · rw [if_neg h1]
    by_cases h2 : signal.signal_type = "SHORT" ∧
        toInt32_compiled (CppMap.valAt p.current_positions signal.symbol) = 0
    · refine ⟨[_], by rw [if_pos h2], by simp, ?_⟩
      rintro (⟨ht, _⟩ | ⟨_, hne⟩ | ⟨_, ht, _⟩)
      · exact absurd (h2.1.symm.trans ht) e3.symm
      · exact absurd (hz.mp h2.2) hne
      · exact absurd h2.1 ht
    · rw [if_neg h2]
      by_cases h3 : signal.signal_type = "EXIT" ∧
          toInt32_compiled (CppMap.valAt p.current_positions signal.symbol) > 0
      · refine ⟨[_], by rw [if_pos h3], by simp, ?_⟩
        rintro (⟨_, hzero⟩ | ⟨hd, _⟩ | ⟨_, _, ht⟩)
        · have := hz.mpr hzero
          omega
        · rcases hd with hd | hd
          · exact absurd (h3.1.symm.trans hd) e2
          · exact absurd (h3.1.symm.trans hd) e3
        · exact absurd h3.1 ht
      · rw [if_neg h3]
        by_cases h4 : signal.signal_type = "EXIT" ∧
            toInt32_compiled (CppMap.valAt p.current_positions signal.symbol) < 0
        · refine ⟨[_], by rw [if_pos h4], by simp, ?_⟩
          rintro (⟨_, hzero⟩ | ⟨hd, _⟩ | ⟨_, _, ht⟩)
          · have := hz.mpr hzero
            omega
          · rcases hd with hd | hd
            · exact absurd (h4.1.symm.trans hd) e2
            · exact absurd (h4.1.symm.trans hd) e3
          · exact absurd h4.1 ht
        · rw [if_neg h4]
          exact ⟨[], by simp, by simp, fun _ => rfl⟩

/-- C5: for every ledger state that the constructor and a sequence of
update_fill, update_timeindex and update_signal calls produce, every event queue
and every signal (any signal_type, any strength): `generate_naive_order` returns,
leaves the events already in the queue in place and appends at most one order;
it appends none on EXIT with current position 0, on LONG or SHORT with a
non-zero position, and on a signal_type other than LONG, SHORT and EXIT. -/
theorem generate_naive_order_at_most_one (symbol_list : List String) (start_date : Int)
    (initial_capital : ℚ) (events0 : List Event) (ops : List Op)
    (s : NaivePortfolio × List Event)
    (hrun : run (NaivePortfolio.construct symbol_list start_date initial_capital, events0) ops
      = some s)
    (events : List Event) (signal : SignalEvent) :
    ∃ added, generate_naive_order s.1 events signal
        = some (after_signal s.1 signal, events ++ added) ∧
      added.length ≤ 1 ∧
      ((signal.signal_type = "EXIT" ∧
          CppMap.valAt s.1.current_positions signal.symbol = 0) ∨
        ((signal.signal_type = "LONG" ∨ signal.signal_type = "SHORT") ∧
          CppMap.valAt s.1.current_positions signal.symbol ≠ 0) ∨
        (signal.signal_type ≠ "LONG" ∧ signal.signal_type ≠ "SHORT" ∧
          signal.signal_type ≠ "EXIT") → added = []) := by
  obtain ⟨n, hn⟩ := run_positions_integral ops _ s hrun
    (construct_positions_integral symbol_list start_date initial_capital) signal.symbol
  obtain ⟨added, h, hlen, hnone⟩ := generate_naive_order_table s.1 events signal n hn
  refine ⟨added, h, hlen, ?_⟩
  rintro (⟨ht, hzero⟩ | ⟨hd, hne⟩ | hother)
  · apply hnone
    left
    refine ⟨ht, ?_⟩
    rw [hn] at hzero
    exact_mod_cast hzero
  · apply hnone
    right
    left
    refine ⟨hd, ?_⟩
    intro hzero
    apply hne
    rw [hn, hzero]
    norm_num
  · exact hnone (Or.inr (Or.inr hother))

/-- C5, after a BUY fill of 10 SPY with a market event in the queue: a LONG
signal of strength 10^8 returns and appends nothing to the queue. -/
theorem generate_naive_order_at_most_one_witness :
    ∃ s, run (ledger_spy, [Event.market])
          [Op.fill bars_close_50
            { symbol := "SPY", direction := "BUY", quantity := 10, commission := 1 }]
        = some s ∧
      generate_naive_order s.1 s.2
          { symbol := "SPY", signal_type := "LONG", strength := 100000000 }
        = some (after_signal s.1
            { symbol := "SPY", signal_type := "LONG", strength := 100000000 },
          s.2 ++ []) := by
  cases hrun : run (ledger_spy, [Event.market])
      [Op.fill bars_close_50
        { symbol := "SPY", direction := "BUY", quantity := 10, commission := 1 }] with
  | none =>
    have hsome : (run (ledger_spy, [Event.market])
        [Op.fill bars_close_50
          { symbol := "SPY", direction := "BUY", quantity := 10, commission := 1 }]).isSome
        = true := by decide!
    rw [hrun] at hsome
    exact absurd hsome (by simp)
  | some s =>
    have hpos : (run (ledger_spy, [Event.market])
        [Op.fill bars_close_50
          { symbol := "SPY", direction := "BUY", quantity := 10, commission := 1 }]).map
        (fun s => CppMap.valAt s.1.current_positions "SPY") = some 10 := by decide!
    rw [hrun] at hpos
    simp only [Option.map_some', Option.some.injEq] at hpos
    obtain ⟨added, h, _, hnone⟩ := generate_naive_order_at_most_one ["SPY"] 0 100000
      [Event.market]
      [Op.fill bars_close_50
        { symbol := "SPY", direction := "BUY", quantity := 10, commission := 1 }] s hrun s.2
      { symbol := "SPY", signal_type := "LONG", strength := 100000000 }
    have hadded : added = [] := hnone (Or.inr (Or.inl ⟨Or.inl rfl, by
      show CppMap.valAt s.1.current_positions "SPY" ≠ 0
      rw [hpos]
      norm_num⟩))
    rw [hadded] at h
    exact ⟨s, rfl, h⟩

end Backtest
